import Mathlib

/-!
# Phone-number forwarding engine (`trie.c`, `phone_forward.c`)

A shallow embedding of the dual-trie forwarding engine.

* A C string is a `List Char` (the terminating NUL is not part of the list).
* A `struct TrieNode *` that may be `NULL` is an `Option TrieNode`; the tries are
  trees, so a node is owned by exactly one child slot and in-place mutation through a
  pointer becomes rebuilding the spine from the root.  The `parent` field is used by
  the C code only to climb from a node towards the root; a node is therefore addressed
  by the string spelled on the way from the root, and its parent by that string
  without its last character.
* A `struct DataNode *` list is a `List (List Char)`; `NULL` is `[]`.
* `malloc` never fails.  A function returns `none` when one of its `assert`s fails.
* The two global pointers of `redirections_db.c` form a record that the registry
  functions take and return; a pointer to a database is the address the database was
  allocated at.
-/

namespace Phfwd

/-! ## `util.h` -/

/-- The C function `inRange(value, min, max)`. -/
def inRange (value min max : Int) : Bool :=
  decide (min ≤ value) && decide (value ≤ max)

/-- One round of the loop of `power`; `fuel` bounds the number of rounds (the exponent
is halved in each round, so `exp` rounds always suffice). -/
def powerLoop (W : Nat) : Nat → Nat → Nat → Nat → Nat
  | 0, _, _, result => result
  | fuel + 1, value, exp, result =>
    if exp = 0 then result
    else
      powerLoop W fuel ((value * value) % 2 ^ W) (exp / 2)
        (if exp % 2 = 1 then (result * value) % 2 ^ W else result)

/-- The C function `power(value, exp)` on a `size_t` of `W` bits. -/
def power (W : Nat) (value exp : Nat) : Nat :=
  powerLoop W exp (value % 2 ^ W) exp (1 % 2 ^ W)

/-! ## `trie.h`, `trie.c` -/

/-- The C `struct TrieNode` without the `parent` back pointer (see the header of the
file). -/
structure TrieNode where
  /-- Number of non-null children, maintained by the code. -/
  nonNullChilds : Int
  /-- The `ALPHABET_SIZE = 12` child slots. -/
  childs : Fin 12 → Option TrieNode
  /-- The list of payload strings. -/
  data : List (List Char)

/-- The C function `trieNodeNew`: a fresh node. -/
def trieNodeNew : TrieNode :=
  { nonNullChilds := 0, childs := fun _ => none, data := [] }

/-- The child index `c - '0'` when it lies inside the child array (`0 .. 11`). -/
def slot (c : Char) : Option (Fin 12) :=
  if h : 48 ≤ c.toNat ∧ c.toNat < 60 then some ⟨c.toNat - 48, by omega⟩ else none

/-- The node reached from `cur` by following `path`, if every step stays inside the
child array and meets a non-null child. -/
def nodeAt : TrieNode → List Char → Option TrieNode
  | cur, [] => some cur
  | cur, c :: cs =>
    match slot c with
    | none => none
    | some i =>
      match cur.childs i with
      | none => none
      | some next => nodeAt next cs

/-- The tree after the node addressed by `path` has been overwritten in place with
`g node` (nothing changes when there is no such node). -/
def updateAt (g : TrieNode → TrieNode) : TrieNode → List Char → TrieNode
  | cur, [] => g cur
  | cur, c :: cs =>
    match slot c with
    | none => cur
    | some i =>
      match cur.childs i with
      | none => cur
      | some next => { cur with childs := Function.update cur.childs i (some (updateAt g next cs)) }

/-- The C function `trieValueUnderPrefixExists(root, prefix, value)`; `value = none` is the
`NULL` value.  The C code does not check the child index; an index outside the array is
reported here as a broken path. -/
def trieValueUnderPrefixExists : TrieNode → List Char → Option (List Char) → Bool
  | cur, [], value =>
    match value with
    | none => !cur.data.isEmpty
    | some v => cur.data.any (fun t => decide (t = v))
  | cur, c :: cs, value =>
    match slot c with
    | none => false
    | some i =>
      match cur.childs i with
      | none => false
      | some next => trieValueUnderPrefixExists next cs value

/-- The `while` loop of `dataListContaisEntryThatExists` over the data list: the
answer and the list that is left in the node. -/
def dataListContaisEntryThatExistsLoop (redirectionsRoot : TrieNode) :
    List (List Char) → Bool × List (List Char)
  | [] => (false, [])
  | t :: rest =>
    if trieValueUnderPrefixExists redirectionsRoot t none then (true, t :: rest)
    else dataListContaisEntryThatExistsLoop redirectionsRoot rest

/-- The C function `dataListContaisEntryThatExists(redirectionsRoot, trieNode)`: the answer
and the node with its pruned data list. -/
def dataListContaisEntryThatExists (redirectionsRoot trieNode : TrieNode) : Bool × TrieNode :=
  let r := dataListContaisEntryThatExistsLoop redirectionsRoot trieNode.data
  (r.1, { trieNode with data := r.2 })

/-- The C function `trieAddText(trieRoot, text, data, append, prevData)` where `data` is the
text of the fresh single-cell `DataNode`.  Returns the new tree and the list written to
`*prevData` (`[]` for `NULL`, also when `append` is set and nothing is written). -/
def trieAddText : TrieNode → List Char → List Char → Bool → Option (TrieNode × List (List Char))
  | cur, [], data, append =>
    if cur.data.isEmpty then some ({ cur with data := [data] }, [])
    else if append then some ({ cur with data := cur.data ++ [data] }, [])
    else some ({ cur with data := [data] }, cur.data)
  | cur, c :: cs, data, append =>
    match slot c with
    | none => none
    | some i =>
      match cur.childs i with
      | none =>
        match trieAddText trieNodeNew cs data append with
        | none => none
        | some (next, prev) =>
          some ({ cur with
                    childs := Function.update cur.childs i (some next)
                    nonNullChilds := cur.nonNullChilds + 1 }, prev)
      | some next =>
        match trieAddText next cs data append with
        | none => none
        | some (next, prev) =>
          some ({ cur with childs := Function.update cur.childs i (some next) }, prev)

/-- The climbing loop of `trieDeleteSubtree`.  `rootToDelete` is given by its path in
reverse (last symbol first); the result is the reversed path of the final
`rootToDelete`. -/
def trieDeleteSubtreeClimb (treeRoot : TrieNode) : List Char → List Char
  | [] => []
  | c :: parentRev =>
    match parentRev with
    | [] => [c]
    | _ :: _ =>
      match nodeAt treeRoot parentRev.reverse with
      | none => c :: parentRev
      | some parent =>
        if parent.nonNullChilds = 1 ∧ parent.data.isEmpty then
          trieDeleteSubtreeClimb treeRoot parentRev
        else c :: parentRev

/-- The C function `trieDeleteSubtree(treeRoot, rootToDelete)`, the node `rootToDelete` being
addressed by its path.  The result is the tree that is left; `none` when no tree is left
(`rootToDelete` is `treeRoot`, the whole tree is freed) or an assertion fails. -/
def trieDeleteSubtree (treeRoot : TrieNode) (rootToDelete : List Char) : Option TrieNode :=
  match trieDeleteSubtreeClimb treeRoot rootToDelete.reverse with
  | [] => none
  | c :: parentRev =>
    match nodeAt treeRoot parentRev.reverse, slot c with
    | some parent, some idxInParent =>
      if (parent.childs idxInParent).isNone then none
      else if ¬ (parent.nonNullChilds - 1 > 0 ∨ ¬ parent.data.isEmpty ∨ parentRev.isEmpty) then none
      else
        some (updateAt
          (fun p => { p with
                        nonNullChilds := p.nonNullChilds - 1
                        childs := Function.update p.childs idxInParent none })
          treeRoot parentRev.reverse)
    | _, _ => none

/-- The C function `trieRemoveOneEntry(root, text, entryToRemove)`. -/
def trieRemoveOneEntry (root : TrieNode) (text entryToRemove : List Char) : Option TrieNode :=
  match nodeAt root text with
  | none => none
  | some currentNode =>
    match currentNode.data with
    | [] => none
    | [t] =>
      if t = entryToRemove then
        let root1 := updateAt (fun n => { n with data := [] }) root text
        if currentNode.nonNullChilds = 0 then trieDeleteSubtree root1 text else some root1
      else none
    | t :: u :: rest =>
      if entryToRemove ∈ t :: u :: rest then
        some (updateAt (fun n => { n with data := n.data.erase entryToRemove }) root text)
      else none

/-! ## `phone_forward.c` -/

/-- The C `struct PhoneForward`. -/
structure PhoneForward where
  /-- The forward trie `F`: source prefix to target. -/
  redirections : TrieNode
  /-- The reverse trie `R`: target prefix to the sources forwarded to it. -/
  prefixes : TrieNode

/-- The C `struct PhoneNumbers`: the first `size` entries of the array.  The `capacity`
field only drives reallocation and is not modelled. -/
structure PhoneNumbers where
  size : Nat
  numbers : List (List Char)
deriving DecidableEq

/-- The C function `isValidPhnum(str)` for a non-null `str`. -/
def isValidPhnum (str : List Char) : Bool :=
  match str with
  | [] => false
  | _ :: _ =>
    str.all (fun c => inRange c.toNat 48 57 || decide (c = ';') || decide (c = ':'))

/-- The C function `phfwdNew`: the empty container. -/
def phfwdNew : PhoneForward :=
  { redirections := trieNodeNew, prefixes := trieNodeNew }

/-- The `if (prevData)` block of `phfwdAdd`: the reverse trie after the entry of the
replaced forwarding has been removed. -/
def phfwdAddUnlink (prefixes : TrieNode) (prevData : List (List Char)) (num1 : List Char) :
    Option TrieNode :=
  match prevData with
  | [] => some prefixes
  | t :: next => if next.isEmpty then trieRemoveOneEntry prefixes t num1 else none

/-- The C function `phfwdAdd(pf, num1, num2)`: the returned flag and the container
afterwards. -/
def phfwdAdd (pf : PhoneForward) (num1 num2 : List Char) : Option (Bool × PhoneForward) :=
  if !isValidPhnum num1 || !isValidPhnum num2 || decide (num1 = num2) then some (false, pf)
  else
    match trieAddText pf.redirections num1 num2 false with
    | none => none
    | some (redirections, prevData) =>
      match phfwdAddUnlink pf.prefixes prevData num1 with
      | none => none
      | some prefixes1 =>
        match trieAddText prefixes1 num2 num1 true with
        | none => none
        | some (prefixes, _) => some (true, { redirections := redirections, prefixes := prefixes })

/-- The `for` loop of `phfwdRemove`: `some true` when the whole of `num` leads to a node,
`some false` when the path breaks (the function returns early). -/
def phfwdRemoveWalk : TrieNode → List Char → Option Bool
  | currentNode, [] => if currentNode.nonNullChilds ≥ 0 then some true else none
  | currentNode, c :: cs =>
    match slot c with
    | none => none
    | some i =>
      match currentNode.childs i with
      | none => some false
      | some next => if currentNode.nonNullChilds > 0 then phfwdRemoveWalk next cs else none

/-- The C function `phfwdRemove(pf, num)`. -/
def phfwdRemove (pf : PhoneForward) (num : List Char) : Option PhoneForward :=
  if !isValidPhnum num then some pf
  else
    match phfwdRemoveWalk pf.redirections num with
    | none => none
    | some false => some pf
    | some true =>
      match trieDeleteSubtree pf.redirections num with
      | none => none
      | some redirections => some { pf with redirections := redirections }

/-- The `for` loop of `phfwdGet` from position `i`: the final `last_forwarded_node`
together with `last_forwarded_prefix_size`. -/
def phfwdGetWalk : TrieNode → List Char → Nat → Option (TrieNode × Nat) →
    Option (Option (TrieNode × Nat))
  | _, [], _, last => some last
  | currentNode, c :: cs, i, last =>
    match slot c with
    | none => none
    | some k =>
      match currentNode.childs k with
      | none => some last
      | some next =>
        if next.data.isEmpty then phfwdGetWalk next cs (i + 1) last
        else phfwdGetWalk next cs (i + 1) (some (next, i + 1))

/-- The C function `phfwdGet(pf, num)`. -/
def phfwdGet (pf : PhoneForward) (num : List Char) : Option PhoneNumbers :=
  if !isValidPhnum num then some { size := 0, numbers := [] }
  else
    let start : Option (TrieNode × Nat) :=
      if pf.redirections.data.isEmpty then none else some (pf.redirections, 0)
    match phfwdGetWalk pf.redirections num 0 start with
    | none => none
    | some last =>
      let forwardedPrefix : List Char :=
        match last with
        | some (node, _) => node.data.headD []
        | none => []
      let last_forwarded_prefix_size : Nat :=
        match last with
        | some (_, k) => k
        | none => 0
      some { size := 1, numbers := [forwardedPrefix ++ num.drop last_forwarded_prefix_size] }

/-- The C function `phnumGet(pnum, idx)`. -/
def phnumGet (pnum : PhoneNumbers) (idx : Nat) : Option (List Char) :=
  if idx ≥ pnum.size then none else pnum.numbers.get? idx

/-- The C function `unique(arr, arr_size)` on the array as a list: of every run of equal
neighbours the last one is kept. -/
def unique : List (List Char) → List (List Char)
  | [] => []
  | [x] => [x]
  | x :: y :: rest => if x = y then unique (y :: rest) else x :: unique (y :: rest)

/-- The C function `lexicographicalCompare` on the two strings. -/
def lexicographicalCompare : List Char → List Char → Int
  | [], [] => 0
  | [], _ :: _ => -1
  | _ :: _, [] => 1
  | a :: as, b :: bs =>
    if a < b then -1 else if b < a then 1 else lexicographicalCompare as bs

/-- Insertion of one element into a list sorted by `cmp`. -/
def qsortInsert (cmp : List Char → List Char → Int) (x : List Char) :
    List (List Char) → List (List Char)
  | [] => [x]
  | y :: ys => if cmp x y ≤ 0 then x :: y :: ys else y :: qsortInsert cmp x ys

/-- The C library's `qsort` with comparator `cmp`, as an insertion sort. -/
def qsort (cmp : List Char → List Char → Int) : List (List Char) → List (List Char)
  | [] => []
  | x :: xs => qsortInsert cmp x (qsort cmp xs)

/-- The `while (redirection)` loop of `phfwdReverse` at one node of `R`: the data list
left in the node and the strings appended to the result.  `suffix` is
`num + currentPrefixSize`. -/
def phfwdReverseScan (redirections : TrieNode) (currentPrefix suffix : List Char) :
    List (List Char) → List (List Char) × List (List Char)
  | [] => ([], [])
  | t :: next =>
    let r := phfwdReverseScan redirections currentPrefix suffix next
    if trieValueUnderPrefixExists redirections t (some currentPrefix) then
      (t :: r.1, (t ++ suffix) :: r.2)
    else r

/-- The `for` loop of `phfwdReverse` below `current`, which is the node of `R` at
`currentPrefix`: the node after pruning and the strings appended to the result. -/
def phfwdReverseWalk (redirections : TrieNode) :
    TrieNode → List Char → List Char → Option (TrieNode × List (List Char))
  | current, _, [] => some (current, [])
  | current, currentPrefix, c :: cs =>
    match slot c with
    | none => none
    | some i =>
      match current.childs i with
      | none => some (current, [])
      | some child =>
        let r := phfwdReverseScan redirections (currentPrefix ++ [c]) cs child.data
        match phfwdReverseWalk redirections { child with data := r.1 } (currentPrefix ++ [c]) cs with
        | none => none
        | some (child1, more) =>
          some ({ current with childs := Function.update current.childs i (some child1) },
                r.2 ++ more)

/-- The C function `phfwdReverse(pf, num)`: the result sequence and the container
afterwards. -/
def phfwdReverse (pf : PhoneForward) (num : List Char) : Option (PhoneNumbers × PhoneForward) :=
  if !isValidPhnum num then some ({ size := 0, numbers := [] }, pf)
  else
    match phfwdReverseWalk pf.redirections pf.prefixes [] num with
    | none => none
    | some (prefixes, found) =>
      let numbers := unique (qsort lexicographicalCompare (found ++ [num]))
      some ({ size := numbers.length, numbers := numbers }, { pf with prefixes := prefixes })

/-- The body of the `for` loop over the children in `phfwdNonTrivialCountAux`: `acc` is
`result` together with `currentRoot` as pruned so far, `recurse` is the recursive call
on a child. -/
def countChildStep (W : Nat) (digit_set : Fin 12 → Bool)
    (recurse : TrieNode → Option (Nat × TrieNode)) (acc : Nat × TrieNode) (i : Fin 12) :
    Option (Nat × TrieNode) :=
  match acc.2.childs i with
  | none => some acc
  | some child =>
    if digit_set i then
      match recurse child with
      | none => none
      | some (n, child1) =>
        some ((acc.1 + n) % 2 ^ W,
              { acc.2 with childs := Function.update acc.2.childs i (some child1) })
    else some acc

/-- The C function `phfwdNonTrivialCountAux(redirectionsRoot, currentRoot, digit_set,
current_deep, len)`: the count on a `size_t` of `W` bits and `currentRoot` after pruning.
The argument `fuel` bounds the recursion depth; `len - current_deep + 1` is enough, since
the recursion stops at depth `len`. -/
def phfwdNonTrivialCountAux (W : Nat) (redirectionsRoot : TrieNode) (digit_set : Fin 12 → Bool)
    (len : Nat) : Nat → TrieNode → Nat → Option (Nat × TrieNode)
  | 0, _, _ => none
  | fuel + 1, currentRoot, current_deep =>
    if len < current_deep then none
    else
      let r := dataListContaisEntryThatExists redirectionsRoot currentRoot
      if r.1 then
        let numbers_of_digits_in_set := (List.finRange 12).countP digit_set
        some (power W numbers_of_digits_in_set (len - current_deep), r.2)
      else if len = current_deep then some (0, r.2)
      else
        (List.finRange 12).foldlM
          (countChildStep W digit_set
            (fun child =>
              phfwdNonTrivialCountAux W redirectionsRoot digit_set len fuel child
                (current_deep + 1)))
          (0, r.2)

/-- The loop of `phfwdNonTrivialCount` that fills `number_mask` from `set`. -/
def numberMask (set : List Char) : Fin 12 → Bool :=
  set.foldl
    (fun mask c =>
      if inRange c.toNat 48 59 then
        match slot c with
        | some i => Function.update mask i true
        | none => mask
      else mask)
    (fun _ => false)

/-- The C function `phfwdNonTrivialCount(pf, set, len)` on a `size_t` of `W` bits; `none`
arguments are `NULL` pointers.  Returns the count and the container afterwards. -/
def phfwdNonTrivialCount (W : Nat) (pf : Option PhoneForward) (set : Option (List Char))
    (len : Nat) : Option (Nat × Option PhoneForward) :=
  match pf, set with
  | some pf, some set =>
    if set.isEmpty || decide (len = 0) then some (0, some pf)
    else if !set.any (fun c => inRange c.toNat 48 59) then some (0, some pf)
    else
      match phfwdNonTrivialCountAux W pf.redirections (numberMask set) len (len + 1)
          pf.prefixes 0 with
      | none => none
      | some (n, prefixes) => some (n, some { pf with prefixes := prefixes })
  | pf, _ => some (0, pf)

/-! ## Specification vocabulary -/

/-- The data list stored at `path` (`[]` when the trie has no node there). -/
def dataAt (T : TrieNode) (path : List Char) : List (List Char) :=
  match nodeAt T path with
  | some n => n.data
  | none => []

/-- The counter of a node agrees with its child array. -/
def LocalCount (n : TrieNode) : Prop :=
  n.nonNullChilds = ((Finset.univ.filter (fun i => (n.childs i).isSome = true)).card : Int)

/-- Every node of the trie satisfies `P`. -/
def AllNodes (P : TrieNode → Prop) (T : TrieNode) : Prop :=
  ∀ p n, nodeAt T p = some n → P n

/-- The symbol whose child index is `i`. -/
def symbolOf (i : Fin 12) : Char := Char.ofNat (48 + i.val)

/-- Every symbol of the string indexes the child array. -/
def AllSlots (s : List Char) : Prop := ∀ c ∈ s, (slot c).isSome = true

/-- Counters agree with child arrays in the whole trie. -/
def CountOK (T : TrieNode) : Prop := AllNodes LocalCount T

/-- The data list that `trieAddText` leaves at the terminal node. -/
def addedData (old : List (List Char)) (data : List Char) (append : Bool) : List (List Char) :=
  if old.isEmpty then [data] else if append then old ++ [data] else [data]

/-- Node `n1` is node `n` with some entries taken out of its data list, each of them
satisfying `dead`; counter and occupied slots are the same. -/
def LocalPruned (dead : List Char → Prop) (n n1 : TrieNode) : Prop :=
  n1.nonNullChilds = n.nonNullChilds ∧
  (∀ i, (n1.childs i).isSome = (n.childs i).isSome) ∧
  n1.data.Sublist n.data ∧
  ∀ a ∈ n.data, a ∉ n1.data → dead a

/-- Lifting of a relation to optional values. -/
def optRel {α : Type} (r : α → α → Prop) : Option α → Option α → Prop
  | some a, some b => r a b
  | none, none => True
  | _, _ => False

/-- Trie `T1` is trie `T` with entries taken out of data lists; an entry `a` taken out
at path `q` satisfies `dead q a`. -/
def PrunedBy (dead : List Char → List Char → Prop) (T T1 : TrieNode) : Prop :=
  ∀ q, optRel (LocalPruned (dead q)) (nodeAt T q) (nodeAt T1 q)

/-- The invariant of the container: counters agree with child arrays in both tries, a
node of `F` holds at most one payload, every forwarding stored in `F` is recorded in `R`,
and all stored strings are valid numbers stored at valid numbers. -/
structure Inv (pf : PhoneForward) : Prop where
  countF : CountOK pf.redirections
  countR : CountOK pf.prefixes
  single : ∀ a, (dataAt pf.redirections a).length ≤ 1
  link : ∀ a t, t ∈ dataAt pf.redirections a → a ∈ dataAt pf.prefixes t
  validF : ∀ a t, t ∈ dataAt pf.redirections a → isValidPhnum a = true ∧ isValidPhnum t = true
  validR : ∀ t a, a ∈ dataAt pf.prefixes t → isValidPhnum t = true ∧ isValidPhnum a = true

/-- The containers reachable from `phfwdNew` through the public operations (`phfwdGet`
does not change the container). -/
inductive Reachable : PhoneForward → Prop
  | new : Reachable phfwdNew
  | add {pf pf1 : PhoneForward} (num1 num2 : List Char) (r : Bool) :
      Reachable pf → phfwdAdd pf num1 num2 = some (r, pf1) → Reachable pf1
  | remove {pf pf1 : PhoneForward} (num : List Char) :
      Reachable pf → phfwdRemove pf num = some pf1 → Reachable pf1
  | reverse {pf pf1 : PhoneForward} (num : List Char) (res : PhoneNumbers) :
      Reachable pf → phfwdReverse pf num = some (res, pf1) → Reachable pf1
  | count {pf pf1 : PhoneForward} (W : Nat) (set : Option (List Char)) (len n : Nat) :
      Reachable pf → phfwdNonTrivialCount W (some pf) set len = some (n, some pf1) →
      Reachable pf1

/-- The data lists of `R` once the entry for a replaced forwarding has been unlinked. -/
def unlinkedData (pf : PhoneForward) (num1 q : List Char) : List (List Char) :=
  if dataAt pf.redirections num1 = [q] then (dataAt pf.prefixes q).erase num1
  else dataAt pf.prefixes q

/-- Weakly ascending in the lexicographic order. -/
def LexLe (x y : List Char) : Prop := x = y ∨ List.Lex (· < ·) x y

/-- The container after `phfwdAdd(pf, num1, num2)` (`pf` itself if the call aborts). -/
def afterAdd (pf : PhoneForward) (num1 num2 : List Char) : PhoneForward :=
  match phfwdAdd pf num1 num2 with
  | some (_, pf1) => pf1
  | none => pf

/-- The container after `phfwdRemove(pf, num)` (`pf` itself if the call aborts). -/
def afterRemove (pf : PhoneForward) (num : List Char) : PhoneForward :=
  match phfwdRemove pf num with
  | some pf1 => pf1
  | none => pf

/-- Forwardings `12 → 500` and `1234 → 900`. -/
def demoLongest : PhoneForward :=
  afterAdd (afterAdd phfwdNew "12".toList "500".toList) "1234".toList "900".toList

/-- Forwardings `1 → 2` and `11 → 3`. -/
def demoShadow : PhoneForward :=
  afterAdd (afterAdd phfwdNew "1".toList "2".toList) "11".toList "3".toList

/-- Forwardings `12 → 34` and `125 → 99`. -/
def demoSubtree : PhoneForward :=
  afterAdd (afterAdd phfwdNew "12".toList "34".toList) "125".toList "99".toList

/-- Forwardings `1 → 2` and `11 → 2`. -/
def demoSorted : PhoneForward :=
  afterAdd (afterAdd phfwdNew "1".toList "2".toList) "11".toList "2".toList

/-- Forwarding `1 → 2` added and removed again, then `1 → 3` added. -/
def demoStale : PhoneForward :=
  afterAdd (afterRemove (afterAdd phfwdNew "1".toList "2".toList) "1".toList)
    "1".toList "3".toList

/-- The 12 symbols of the alphabet. -/
def alphabet : List Char := "0123456789:;".toList

/-- The number of distinct alphabet symbols that occur in `set`. -/
def symbolCount (set : List Char) : Nat :=
  (alphabet.filter (fun ch => decide (ch ∈ set))).length

/-- One round of the loop of `phfwdNonTrivialCount` that fills `number_mask`. -/
def numberMaskStep (mask : Fin 12 → Bool) (c : Char) : Fin 12 → Bool :=
  if inRange c.toNat 48 59 then
    match slot c with
    | some i => Function.update mask i true
    | none => mask
  else mask

/-- The symbols of `rest` are all allowed by the mask. -/
def allInMask (ds : Fin 12 → Bool) (rest : List Char) : Bool :=
  rest.all (fun ch => (slot ch).elim false ds)

/-- The container with the single forwarding `07 → 99`. -/
def demoSingle : PhoneForward := afterAdd phfwdNew "07".toList "99".toList

/-- The container holds exactly the forwarding `a → c`, recorded in the reverse trie at
`c` and nowhere else. -/
def OnlyForwarding (pf : PhoneForward) (a c : List Char) : Prop :=
  (∀ q, dataAt pf.redirections q = if q = a then [c] else []) ∧
  (∀ q x, x ∈ dataAt pf.prefixes q ↔ (q = c ∧ x = a))

/-! ## `phone_forward.c`: arguments that may be `NULL` -/

/-- The C function `isValidPhnum(str)` on a pointer that may be `NULL` (`none`): the
test `!str` comes first. -/
def isValidPhnumPtr (str : Option (List Char)) : Bool :=
  match str with
  | none => false
  | some s => isValidPhnum s

/-- The C function `phnumGet(pnum, idx)` on a pointer that may be `NULL` (`none`).  The
body reads `pnum->size` before anything else, so on a null pointer the call has no
defined result (outer `none`); otherwise it returns a string or `NULL` (inner option). -/
def phnumGetPtr (pnum : Option PhoneNumbers) (idx : Nat) : Option (Option (List Char)) :=
  match pnum with
  | none => none
  | some p => some (phnumGet p idx)

/-! ## Specification vocabulary, continued -/

/-- The standard lexicographic "strictly before": `x` is a proper prefix of `y`, or at
the first position where they differ `x` holds the smaller symbol. -/
def LexBefore (x y : List Char) : Prop :=
  (∃ d s, y = x ++ d :: s) ∨
  ∃ u a b xs ys, x = u ++ a :: xs ∧ y = u ++ b :: ys ∧ a < b

/-- The containers obtained from the empty one by successful `phfwdAdd` calls whose
sources all have `p` as a prefix. -/
inductive AddedBelow (p : List Char) : PhoneForward → Prop
  | new : AddedBelow p phfwdNew
  | add {pf pf1 : PhoneForward} (num1 num2 : List Char) :
      AddedBelow p pf → p <+: num1 → phfwdAdd pf num1 num2 = some (true, pf1) →
      AddedBelow p pf1

/-- No dead chains: every node other than the root holds a payload or has a descendant
that holds one (`r = []` is the node itself). -/
def NoDead (T : TrieNode) : Prop :=
  ∀ q, q ≠ [] → (nodeAt T q).isSome = true → ∃ r, dataAt T (q ++ r) ≠ []

/-- The containers reachable from `phfwdNew` by `phfwdAdd` and `phfwdRemove` alone
(`phfwdGet` does not change the container): no reverse lookup and no count has pruned
the reverse trie. -/
inductive ReachableUnpruned : PhoneForward → Prop
  | new : ReachableUnpruned phfwdNew
  | add {pf pf1 : PhoneForward} (num1 num2 : List Char) (r : Bool) :
      ReachableUnpruned pf → phfwdAdd pf num1 num2 = some (r, pf1) → ReachableUnpruned pf1
  | remove {pf pf1 : PhoneForward} (num : List Char) :
      ReachableUnpruned pf → phfwdRemove pf num = some pf1 → ReachableUnpruned pf1

/-- The container after `phfwdReverse(pf, num)` (`pf` itself if the call aborts). -/
def afterReverse (pf : PhoneForward) (num : List Char) : PhoneForward :=
  match phfwdReverse pf num with
  | some (_, pf1) => pf1
  | none => pf

/-- Forwarding `1 → 2` added and removed again, then `phfwdReverse(pf, "2")`. -/
def demoPruned : PhoneForward :=
  afterReverse (afterRemove (afterAdd phfwdNew "1".toList "2".toList) "1".toList) "2".toList

/-! ## `redirections_db.h`, `redirections_db.c` -/

/-- The C `struct RedirectionsDatabase`. -/
structure RedirectionsDatabase where
  name : List Char
  phfwd : PhoneForward

/-- The two globals of `redirections_db.c`.  The list that starts at
`redirections_database_head` holds, head first, every database together with the address
it was allocated at; `current_database` is a pointer to a database, that is an address
(`none` for `NULL`). -/
structure RedirectionsDBState where
  redirections_database_head : List (Nat × RedirectionsDatabase)
  current_database : Option Nat

/-- The globals at program start: both pointers are `NULL`. -/
def redirectionsDBInit : RedirectionsDBState :=
  { redirections_database_head := [], current_database := none }

/-- The C function `redirectionsDBNew(name)` when no allocation fails. -/
def redirectionsDBNew (name : List Char) : RedirectionsDatabase :=
  { name := name, phfwd := phfwdNew }

/-- The C function `redirectionsDBFind(name)` on the list of databases: the first
database whose name compares equal under `strcmp`. -/
def redirectionsDBFind :
    List (Nat × RedirectionsDatabase) → List Char → Option (Nat × RedirectionsDatabase)
  | [], _ => none
  | current :: next, name =>
    if current.2.name = name then some current else redirectionsDBFind next name

/-- The C function `setOrCreateDatabaseWithName(name)` when no allocation fails; `addr`
is the address `malloc` hands out for a new database.  Returns the `int` result and the
globals afterwards. -/
def setOrCreateDatabaseWithName (addr : Nat) (st : RedirectionsDBState) (name : List Char) :
    Int × RedirectionsDBState :=
  match redirectionsDBFind st.redirections_database_head name with
  | some db => (1, { st with current_database := some db.1 })
  | none =>
    (1, { redirections_database_head :=
            (addr, redirectionsDBNew name) :: st.redirections_database_head
          current_database := some addr })

/-- The `while` loop of `deleteDatabaseWithName`: the address of the first database named
`name` and the list with that node unlinked, `none` when the loop runs off the list. -/
def deleteDatabaseWithNameLoop :
    List (Nat × RedirectionsDatabase) → List Char →
      Option (Nat × List (Nat × RedirectionsDatabase))
  | [], _ => none
  | current :: next, name =>
    if current.2.name = name then some (current.1, next)
    else
      match deleteDatabaseWithNameLoop next name with
      | none => none
      | some (a, rest) => some (a, current :: rest)

/-- The C function `deleteDatabaseWithName(name)`. -/
def deleteDatabaseWithName (st : RedirectionsDBState) (name : List Char) :
    Int × RedirectionsDBState :=
  match deleteDatabaseWithNameLoop st.redirections_database_head name with
  | some (a, rest) =>
    (1, { redirections_database_head := rest
          current_database := if st.current_database = some a then none
                              else st.current_database })
  | none => (0, st)

/-- The C function `clearAllRedirectionsDatabase()`: the list is freed, the pointer
`current_database` is left as it is. -/
def clearAllRedirectionsDatabase (st : RedirectionsDBState) : RedirectionsDBState :=
  { st with redirections_database_head := [] }

/-- The effect on the globals of an engine call on `current_database->phfwd` in
`preformOperation`: the container of the database at that address becomes `f` of it. -/
def updateCurrentPhfwd (f : PhoneForward → PhoneForward) (st : RedirectionsDBState) :
    RedirectionsDBState :=
  { st with
    redirections_database_head :=
      st.redirections_database_head.map
        (fun e => if some e.1 = st.current_database then (e.1, { e.2 with phfwd := f e.2.phfwd })
                  else e) }

/-- The names of the databases in the registry, head first. -/
def databaseNames (st : RedirectionsDBState) : List (List Char) :=
  st.redirections_database_head.map (fun e => e.2.name)

/-- The addresses of the databases in the registry, head first. -/
def databaseAddrs (st : RedirectionsDBState) : List Nat :=
  st.redirections_database_head.map (fun e => e.1)

/-- The registry states reachable from program start through the three registry functions
and engine calls on the current database; a new database is allocated at an address that
no live database occupies. -/
inductive ReachableDB : RedirectionsDBState → Prop
  | init : ReachableDB redirectionsDBInit
  | setOrCreate {st : RedirectionsDBState} (addr : Nat) (name : List Char) :
      ReachableDB st → addr ∉ databaseAddrs st →
      ReachableDB (setOrCreateDatabaseWithName addr st name).2
  | delete {st : RedirectionsDBState} (name : List Char) :
      ReachableDB st → ReachableDB (deleteDatabaseWithName st name).2
  | clear {st : RedirectionsDBState} :
      ReachableDB st → ReachableDB (clearAllRedirectionsDatabase st)
  | engine {st : RedirectionsDBState} (f : PhoneForward → PhoneForward) :
      ReachableDB st → ReachableDB (updateCurrentPhfwd f st)

/-! ## Specification vocabulary, third part -/

/-- A childless node with the payloads `7`, `1`, `8`. -/
def demoNode : TrieNode :=
  { nonNullChilds := 0, childs := fun _ => none, data := ["7".toList, "1".toList, "8".toList] }

/-- The containers that `pf` can turn into through queries alone: `phfwdGet` leaves it as
it is, `phfwdReverse` and `phfwdNonTrivialCount` may prune the reverse trie. -/
inductive AfterQueries (pf : PhoneForward) : PhoneForward → Prop
  | refl : AfterQueries pf pf
  | reverse {pf1 pf2 : PhoneForward} (num : List Char) (res : PhoneNumbers) :
      AfterQueries pf pf1 → phfwdReverse pf1 num = some (res, pf2) → AfterQueries pf pf2
  | count {pf1 pf2 : PhoneForward} (W : Nat) (set : Option (List Char)) (len n : Nat) :
      AfterQueries pf pf1 → phfwdNonTrivialCount W (some pf1) set len = some (n, some pf2) →
      AfterQueries pf pf2

/-- The contains-live-entry test on a node: some payload `a` of the node has a payload
stored in `F` at path `a`. -/
def liveNode (F node : TrieNode) : Bool :=
  node.data.any (fun a => decide (dataAt F a ≠ []))

/-- The contains-live-entry test at the node that `path` leads to below `N` (false when
there is no such node). -/
def liveIn (F N : TrieNode) (path : List Char) : Bool :=
  (dataAt N path).any (fun a => decide (dataAt F a ≠ []))

/-- The contains-live-entry test at path `p` of the reverse trie. -/
def liveAt (pf : PhoneForward) (p : List Char) : Bool :=
  liveIn pf.redirections pf.prefixes p

/-- The paths of `R` that `phfwdNonTrivialCount(pf, set, len)` counts: between 1 and `len`
symbols, all of them in `set`, the node passes the contains-live-entry test and no proper
non-empty prefix passes it. -/
def CountedPath (pf : PhoneForward) (set : List Char) (len : Nat) (p : List Char) : Prop :=
  1 ≤ p.length ∧ p.length ≤ len ∧ (∀ ch ∈ p, ch ∈ set) ∧
  (nodeAt pf.prefixes p).isSome = true ∧ liveAt pf p = true ∧
  ∀ q, q <+: p → q ≠ [] → q ≠ p → liveAt pf q = false

/-- The same below a node `N`, with `m` symbols left; here the empty path counts too. -/
def CountedBelow (F : TrieNode) (set : List Char) (N : TrieNode) (m : Nat)
    (w : List Char) : Prop :=
  w.length ≤ m ∧ (∀ ch ∈ w, ch ∈ set) ∧ (nodeAt N w).isSome = true ∧
  liveIn F N w = true ∧ ∀ q, q <+: w → q ≠ w → liveIn F N q = false

/-- What child `i` of `N` adds to the count: `g` of the child when the slot is occupied
and allowed by the mask. -/
def childTerm (mask : Fin 12 → Bool) (g : TrieNode → Nat) (N : TrieNode) (i : Fin 12) : Nat :=
  match N.childs i with
  | some ch => if mask i then g ch else 0
  | none => 0

/-- The count below a node with `m` symbols left, as a natural number (no reduction
modulo `2 ^ W`): `c ^ m` at a live node, the sum over the allowed children otherwise. -/
def countSum (F : TrieNode) (c : Nat) (mask : Fin 12 → Bool) : Nat → TrieNode → Nat
  | 0, N => if liveNode F N then 1 else 0
  | m + 1, N =>
    if liveNode F N then c ^ (m + 1)
    else ((List.finRange 12).map (childTerm mask (countSum F c mask m) N)).sum

/-! ## Basic facts about symbols, paths and counters -/

theorem slot_symbolOf (i : Fin 12) : slot (symbolOf i) = some i := by
  revert i; decide

theorem slot_toNat {c : Char} {i : Fin 12} (h : slot c = some i) : c.toNat = 48 + i.val := by
  unfold slot at h
  split at h
  · rename_i hc
    simp only [Option.some.injEq] at h
    have := congrArg Fin.val h
    simp at this
    omega
  · simp at h

theorem slot_inj {c d : Char} {i : Fin 12} (hc : slot c = some i) (hd : slot d = some i) :
    c = d := by
  have h1 := slot_toNat hc
  have h2 := slot_toNat hd
  apply Char.ext
  apply UInt32.ext
  show c.toNat = d.toNat
  omega

theorem validChar_iff_slot (c : Char) :
    (inRange c.toNat 48 57 || decide (c = ';') || decide (c = ':')) = true ↔
      (slot c).isSome = true := by
  have h58 : (c = ':') ↔ c.toNat = 58 := by
    constructor
    · rintro rfl; rfl
    · intro h; apply Char.ext; apply UInt32.ext; exact h
  have h59 : (c = ';') ↔ c.toNat = 59 := by
    constructor
    · rintro rfl; rfl
    · intro h; apply Char.ext; apply UInt32.ext; exact h
  unfold slot inRange
  simp only [Bool.or_eq_true, Bool.and_eq_true, decide_eq_true_eq, h58, h59]
  split
  · rename_i h; simp; omega
  · rename_i h; simp; omega

theorem isValidPhnum_iff (s : List Char) :
    isValidPhnum s = true ↔ s ≠ [] ∧ ∀ c ∈ s, (slot c).isSome = true := by
  cases s with
  | nil => simp [isValidPhnum]
  | cons a l =>
    simp only [isValidPhnum, List.all_eq_true, ne_eq, reduceCtorEq, not_false_eq_true, true_and]
    constructor
    · intro h c hc; exact (validChar_iff_slot c).1 (h c hc)
    · intro h c hc; exact (validChar_iff_slot c).2 (h c hc)

theorem allSlots_of_valid {s : List Char} (h : isValidPhnum s = true) : AllSlots s :=
  ((isValidPhnum_iff s).1 h).2

theorem ne_nil_of_valid {s : List Char} (h : isValidPhnum s = true) : s ≠ [] :=
  ((isValidPhnum_iff s).1 h).1

theorem nodeAt_nil (T : TrieNode) : nodeAt T [] = some T := rfl

theorem nodeAt_cons_some {T next : TrieNode} {c : Char} {i : Fin 12} (cs : List Char)
    (hc : slot c = some i) (hn : T.childs i = some next) :
    nodeAt T (c :: cs) = nodeAt next cs := by
  simp [nodeAt, hc, hn]

theorem nodeAt_cons_none {T : TrieNode} {c : Char} {i : Fin 12} (cs : List Char)
    (hc : slot c = some i) (hn : T.childs i = none) :
    nodeAt T (c :: cs) = none := by
  simp [nodeAt, hc, hn]

theorem nodeAt_cons_noslot {T : TrieNode} {c : Char} (cs : List Char)
    (hc : slot c = none) : nodeAt T (c :: cs) = none := by
  simp [nodeAt, hc]

theorem nodeAt_append (T : TrieNode) (p q : List Char) :
    nodeAt T (p ++ q) = (nodeAt T p).bind (fun n => nodeAt n q) := by
  induction p generalizing T with
  | nil => simp [nodeAt]
  | cons c cs ih =>
    rw [List.cons_append]
    cases hs : slot c with
    | none => rw [nodeAt_cons_noslot _ hs, nodeAt_cons_noslot _ hs]; rfl
    | some i =>
      cases hn : T.childs i with
      | none => rw [nodeAt_cons_none _ hs hn, nodeAt_cons_none _ hs hn]; rfl
      | some next => rw [nodeAt_cons_some _ hs hn, nodeAt_cons_some _ hs hn]; exact ih next

theorem dataAt_nil (T : TrieNode) : dataAt T [] = T.data := rfl

theorem dataAt_cons_some {T next : TrieNode} {c : Char} {i : Fin 12} (cs : List Char)
    (hc : slot c = some i) (hn : T.childs i = some next) :
    dataAt T (c :: cs) = dataAt next cs := by
  simp [dataAt, nodeAt_cons_some cs hc hn]

theorem dataAt_cons_none {T : TrieNode} {c : Char} {i : Fin 12} (cs : List Char)
    (hc : slot c = some i) (hn : T.childs i = none) :
    dataAt T (c :: cs) = [] := by
  simp [dataAt, nodeAt_cons_none cs hc hn]

theorem dataAt_cons_noslot {T : TrieNode} {c : Char} (cs : List Char)
    (hc : slot c = none) : dataAt T (c :: cs) = [] := by
  simp [dataAt, nodeAt_cons_noslot cs hc]

theorem dataAt_trieNodeNew (q : List Char) : dataAt trieNodeNew q = [] := by
  cases q with
  | nil => rfl
  | cons c cs =>
    cases hs : slot c with
    | none => exact dataAt_cons_noslot cs hs
    | some i => exact dataAt_cons_none cs hs rfl

theorem allSlots_of_dataAt_ne_nil {T : TrieNode} {p : List Char} (h : dataAt T p ≠ []) :
    AllSlots p := by
  induction p generalizing T with
  | nil => intro c hc; simp at hc
  | cons c cs ih =>
    cases hs : slot c with
    | none => exact absurd (dataAt_cons_noslot cs hs) h
    | some i =>
      cases hn : T.childs i with
      | none => exact absurd (dataAt_cons_none cs hs hn) h
      | some next =>
        rw [dataAt_cons_some cs hs hn] at h
        intro d hd
        rcases List.mem_cons.1 hd with rfl | hd
        · simp [hs]
        · exact ih h d hd

theorem allNodes_iff (P : TrieNode → Prop) (T : TrieNode) :
    AllNodes P T ↔ P T ∧ ∀ i next, T.childs i = some next → AllNodes P next := by
  constructor
  · intro h
    refine ⟨h [] T rfl, ?_⟩
    intro i next hn p n hp
    apply h (symbolOf i :: p) n
    rw [nodeAt_cons_some p (slot_symbolOf i) hn]; exact hp
  · rintro ⟨h0, hch⟩ p n hp
    cases p with
    | nil => simp [nodeAt] at hp; subst hp; exact h0
    | cons c cs =>
      cases hs : slot c with
      | none => rw [nodeAt_cons_noslot cs hs] at hp; simp at hp
      | some i =>
        cases hn : T.childs i with
        | none => rw [nodeAt_cons_none cs hs hn] at hp; simp at hp
        | some next =>
          rw [nodeAt_cons_some cs hs hn] at hp
          exact hch i next hn cs n hp

theorem allNodes_nodeAt {P : TrieNode → Prop} {T n : TrieNode} {p : List Char}
    (h : AllNodes P T) (hp : nodeAt T p = some n) : AllNodes P n := by
  intro q m hq
  apply h (p ++ q) m
  rw [nodeAt_append, hp]; exact hq

theorem allNodes_trieNodeNew {P : TrieNode → Prop} (h : P trieNodeNew) :
    AllNodes P trieNodeNew := by
  rw [allNodes_iff]
  exact ⟨h, fun i next hn => by simp [trieNodeNew] at hn⟩

theorem localCount_trieNodeNew : LocalCount trieNodeNew := by
  simp [LocalCount, trieNodeNew]

/-! ### Counting the non-null slots of a child array -/

theorem card_update_some_of_none {f : Fin 12 → Option TrieNode} {i : Fin 12} (x : TrieNode)
    (h : f i = none) :
    (Finset.univ.filter (fun j => (Function.update f i (some x) j).isSome = true)).card =
      (Finset.univ.filter (fun j => (f j).isSome = true)).card + 1 := by
  have : Finset.univ.filter (fun j => (Function.update f i (some x) j).isSome = true) =
      insert i (Finset.univ.filter (fun j => (f j).isSome = true)) := by
    ext j
    by_cases hj : j = i
    · subst hj; simp
    · simp [Function.update_noteq hj, hj]
  rw [this, Finset.card_insert_of_not_mem]
  simp [h]

theorem card_update_some_of_some {f : Fin 12 → Option TrieNode} {i : Fin 12} (x : TrieNode)
    (h : (f i).isSome = true) :
    (Finset.univ.filter (fun j => (Function.update f i (some x) j).isSome = true)).card =
      (Finset.univ.filter (fun j => (f j).isSome = true)).card := by
  congr 1
  ext j
  by_cases hj : j = i
  · subst hj; simp [h]
  · simp [Function.update_noteq hj]

theorem card_update_none_of_some {f : Fin 12 → Option TrieNode} {i : Fin 12}
    (h : (f i).isSome = true) :
    (Finset.univ.filter (fun j => (Function.update f i none j).isSome = true)).card + 1 =
      (Finset.univ.filter (fun j => (f j).isSome = true)).card := by
  have : Finset.univ.filter (fun j => (Function.update f i none j).isSome = true) =
      (Finset.univ.filter (fun j => (f j).isSome = true)).erase i := by
    ext j
    by_cases hj : j = i
    · subst hj; simp
    · simp [Function.update_noteq hj, hj]
  rw [this, Finset.card_erase_of_mem (by simp [h])]
  have : 0 < (Finset.univ.filter (fun j => (f j).isSome = true)).card :=
    Finset.card_pos.2 ⟨i, by simp [h]⟩
  omega

theorem eq_none_of_card_eq_one {f : Fin 12 → Option TrieNode} {i j : Fin 12}
    (hc : (Finset.univ.filter (fun j => (f j).isSome = true)).card = 1)
    (hi : (f i).isSome = true) (hij : j ≠ i) : f j = none := by
  obtain ⟨a, ha⟩ := Finset.card_eq_one.1 hc
  have hi' : i ∈ Finset.univ.filter (fun j => (f j).isSome = true) := by simp [hi]
  rw [ha] at hi'
  have hia : i = a := by simpa using hi'
  by_contra hne
  have hj' : j ∈ Finset.univ.filter (fun j => (f j).isSome = true) := by
    simp; exact Option.ne_none_iff_isSome.1 hne
  rw [ha] at hj'
  have : j = a := by simpa using hj'
  exact hij (this.trans hia.symm)

theorem all_none_of_card_eq_zero {f : Fin 12 → Option TrieNode} (j : Fin 12)
    (hc : (Finset.univ.filter (fun j => (f j).isSome = true)).card = 0) : f j = none := by
  by_contra hne
  have hj' : j ∈ Finset.univ.filter (fun j => (f j).isSome = true) := by
    simp; exact Option.ne_none_iff_isSome.1 hne
  rw [Finset.card_eq_zero.1 hc] at hj'
  simp at hj'

theorem nodeAt_childs_update_same {N T : TrieNode} {i : Fin 12} {v : Option TrieNode}
    (hch : N.childs = Function.update T.childs i v) {c : Char} (cs : List Char)
    (hc : slot c = some i) :
    nodeAt N (c :: cs) = v.bind (fun nx => nodeAt nx cs) := by
  cases v with
  | none => exact nodeAt_cons_none cs hc (by rw [hch]; simp)
  | some nx => exact nodeAt_cons_some cs hc (by rw [hch]; simp)

theorem nodeAt_childs_update_other {N T : TrieNode} {i : Fin 12} {v : Option TrieNode}
    (hch : N.childs = Function.update T.childs i v) {c : Char} (cs : List Char)
    (hc : slot c ≠ some i) :
    nodeAt N (c :: cs) = nodeAt T (c :: cs) := by
  cases hs : slot c with
  | none => rw [nodeAt_cons_noslot cs hs, nodeAt_cons_noslot cs hs]
  | some j =>
    have hji : j ≠ i := fun h => hc (by rw [hs, h])
    have hNj : N.childs j = T.childs j := by rw [hch]; exact Function.update_noteq hji _ _
    cases hn : T.childs j with
    | none => rw [nodeAt_cons_none cs hs hn, nodeAt_cons_none cs hs (hNj.trans hn)]
    | some nx => rw [nodeAt_cons_some cs hs hn, nodeAt_cons_some cs hs (hNj.trans hn)]

theorem dataAt_childs_update_same {N T : TrieNode} {i : Fin 12} {nx : TrieNode}
    (hch : N.childs = Function.update T.childs i (some nx)) {c : Char} (cs : List Char)
    (hc : slot c = some i) :
    dataAt N (c :: cs) = dataAt nx cs := by
  simp [dataAt, nodeAt_childs_update_same hch cs hc]

theorem dataAt_childs_update_other {N T : TrieNode} {i : Fin 12} {v : Option TrieNode}
    (hch : N.childs = Function.update T.childs i v) {c : Char} (cs : List Char)
    (hc : slot c ≠ some i) :
    dataAt N (c :: cs) = dataAt T (c :: cs) := by
  simp [dataAt, nodeAt_childs_update_other hch cs hc]

theorem slot_eq_of_cons_eq {c d : Char} {i : Fin 12} (hc : slot c = some i)
    (hd : slot d = some i) (cs ds : List Char) : (d :: ds = c :: cs) ↔ ds = cs := by
  have := slot_inj hc hd
  subst this
  simp

theorem trieAddText_spec (T : TrieNode) (text data : List Char) (append : Bool)
    (hs : AllSlots text) :
    ∃ T1, trieAddText T text data append =
        some (T1, if append then [] else dataAt T text) ∧
      (∀ q, dataAt T1 q =
        if q = text then addedData (dataAt T text) data append else dataAt T q) ∧
      (CountOK T → CountOK T1) := by
  induction text generalizing T with
  | nil =>
    refine ⟨{ T with data := addedData T.data data append }, ?_, ?_, ?_⟩
    · simp only [trieAddText, addedData, dataAt_nil]
      by_cases h1 : T.data.isEmpty = true
      · have : T.data = [] := List.isEmpty_iff.1 h1
        simp [h1, this]
      · cases append <;> simp [h1]
    · intro q
      cases q with
      | nil => simp [dataAt_nil]
      | cons c cs =>
        simp only [reduceCtorEq, if_false]
        simp [dataAt, nodeAt]
    · intro h
      rw [CountOK, allNodes_iff] at h ⊢
      exact ⟨h.1, h.2⟩
  | cons c cs ih =>
    have hcs : AllSlots cs := fun d hd => hs d (List.mem_cons_of_mem _ hd)
    obtain ⟨i, hi⟩ := Option.isSome_iff_exists.1 (hs c (List.mem_cons_self _ _))
    cases hn : T.childs i with
    | none =>
      obtain ⟨N, hN, hdata, hcount⟩ := ih trieNodeNew hcs
      refine ⟨{ T with childs := Function.update T.childs i (some N)
                       nonNullChilds := T.nonNullChilds + 1 }, ?_, ?_, ?_⟩
      · simp only [trieAddText, hi, hn, hN, dataAt_cons_none cs hi hn, dataAt_trieNodeNew]
      · intro q
        cases q with
        | nil => simp [dataAt_nil]
        | cons d ds =>
          by_cases hd : slot d = some i
          · rw [dataAt_childs_update_same rfl ds hd, hdata ds]
            obtain rfl := slot_inj hi hd
            simp only [List.cons.injEq, true_and, dataAt_cons_none _ hi hn, dataAt_trieNodeNew]
          · rw [dataAt_childs_update_other rfl ds hd]
            have : d :: ds ≠ c :: cs := by
              intro h; injection h with h1 h2; exact hd (h1 ▸ hi)
            simp [this]
      · intro h
        rw [CountOK, allNodes_iff] at h ⊢
        refine ⟨?_, ?_⟩
        · simp only [LocalCount] at h ⊢
          rw [card_update_some_of_none N hn, h.1]; push_cast; rfl
        · intro j nx hj
          by_cases hji : j = i
          · subst hji
            simp only [Function.update_same, Option.some.injEq] at hj
            subst hj
            exact hcount (allNodes_trieNodeNew localCount_trieNodeNew)
          · simp only [Function.update_noteq hji] at hj
            exact h.2 j nx hj
    | some next =>
      obtain ⟨N, hN, hdata, hcount⟩ := ih next hcs
      refine ⟨{ T with childs := Function.update T.childs i (some N) }, ?_, ?_, ?_⟩
      · simp only [trieAddText, hi, hn, hN, dataAt_cons_some cs hi hn]
      · intro q
        cases q with
        | nil => simp [dataAt_nil]
        | cons d ds =>
          by_cases hd : slot d = some i
          · rw [dataAt_childs_update_same rfl ds hd, hdata ds]
            obtain rfl := slot_inj hi hd
            simp only [List.cons.injEq, true_and, dataAt_cons_some _ hi hn]
          · rw [dataAt_childs_update_other rfl ds hd]
            have : d :: ds ≠ c :: cs := by
              intro h; injection h with h1 h2; exact hd (h1 ▸ hi)
            simp [this]
      · intro h
        rw [CountOK, allNodes_iff] at h ⊢
        refine ⟨?_, ?_⟩
        · simp only [LocalCount] at h ⊢
          rw [card_update_some_of_some N (by simp [hn]), h.1]
        · intro j nx hj
          by_cases hji : j = i
          · subst hji
            simp only [Function.update_same, Option.some.injEq] at hj
            subst hj
            exact hcount (h.2 _ next hn)
          · simp only [Function.update_noteq hji] at hj
            exact h.2 j nx hj

theorem nodeAt_cons_congr {N M : TrieNode} (h : N.childs = M.childs) (c : Char)
    (cs : List Char) : nodeAt N (c :: cs) = nodeAt M (c :: cs) := by
  simp only [nodeAt, h]

theorem dataAt_cons_congr {N M : TrieNode} (h : N.childs = M.childs) (c : Char)
    (cs : List Char) : dataAt N (c :: cs) = dataAt M (c :: cs) := by
  simp only [dataAt, nodeAt_cons_congr h]

theorem updateAt_of_nodeAt_none (g : TrieNode → TrieNode) {T : TrieNode} {p : List Char}
    (h : nodeAt T p = none) : updateAt g T p = T := by
  induction p generalizing T with
  | nil => simp [nodeAt] at h
  | cons c cs ih =>
    cases hs : slot c with
    | none => simp [updateAt, hs]
    | some i =>
      cases hn : T.childs i with
      | none => simp [updateAt, hs, hn]
      | some next =>
        rw [nodeAt_cons_some cs hs hn] at h
        simp only [updateAt, hs, hn, ih h]
        cases T
        simp only [TrieNode.mk.injEq, true_and, and_true] at hn ⊢
        rw [← hn, Function.update_eq_self]

theorem nodeAt_updateAt_append (g : TrieNode → TrieNode) (T : TrieNode) (p r : List Char) :
    nodeAt (updateAt g T p) (p ++ r) = (nodeAt T p).bind (fun n => nodeAt (g n) r) := by
  induction p generalizing T with
  | nil => simp [updateAt, nodeAt]
  | cons c cs ih =>
    rw [List.cons_append]
    cases hs : slot c with
    | none => simp [updateAt, hs, nodeAt_cons_noslot _ hs]
    | some i =>
      cases hn : T.childs i with
      | none => simp [updateAt, hs, hn, nodeAt_cons_none _ hs hn]
      | some next =>
        simp only [updateAt, hs, hn]
        rw [nodeAt_childs_update_same rfl _ hs, nodeAt_cons_some _ hs hn]
        exact ih next

theorem dataAt_updateAt_append (g : TrieNode → TrieNode) {T n : TrieNode} {p : List Char}
    (r : List Char) (hp : nodeAt T p = some n) :
    dataAt (updateAt g T p) (p ++ r) = dataAt (g n) r := by
  simp [dataAt, nodeAt_updateAt_append, hp]

theorem dataAt_updateAt_off_path (g : TrieNode → TrieNode) (T : TrieNode)
    (p q : List Char) (h : ¬ p <+: q) :
    dataAt (updateAt g T p) q = dataAt T q := by
  induction p generalizing T q with
  | nil => exact absurd List.nil_prefix h
  | cons c cs ih =>
    cases hs : slot c with
    | none => simp [updateAt, hs]
    | some i =>
      cases hn : T.childs i with
      | none => simp [updateAt, hs, hn]
      | some next =>
        simp only [updateAt, hs, hn]
        cases q with
        | nil => rfl
        | cons d ds =>
          by_cases hd : slot d = some i
          · rw [dataAt_childs_update_same rfl ds hd, dataAt_cons_some ds hd hn]
            apply ih
            intro hpre
            apply h
            obtain rfl := slot_inj hs hd
            exact (List.prefix_cons_inj c).2 hpre
          · exact dataAt_childs_update_other rfl ds hd

theorem countOK_updateAt (g : TrieNode → TrieNode) {T : TrieNode} (p : List Char)
    (hT : CountOK T) (hg : ∀ n, nodeAt T p = some n → CountOK (g n)) :
    CountOK (updateAt g T p) := by
  induction p generalizing T with
  | nil => exact hg T rfl
  | cons c cs ih =>
    cases hs : slot c with
    | none => simpa [updateAt, hs] using hT
    | some i =>
      cases hn : T.childs i with
      | none => simpa [updateAt, hs, hn] using hT
      | some next =>
        simp only [updateAt, hs, hn]
        have hT' := hT
        rw [CountOK, allNodes_iff] at hT' ⊢
        refine ⟨?_, ?_⟩
        · have h1 := hT'.1
          simp only [LocalCount] at h1 ⊢
          rw [card_update_some_of_some _ (by simp [hn]), h1]
        · intro j nx hj
          by_cases hji : j = i
          · subst hji
            simp only [Function.update_same, Option.some.injEq] at hj
            subst hj
            apply ih (hT'.2 _ next hn)
            intro n hnode
            apply hg
            rw [nodeAt_cons_some cs hs hn]; exact hnode
          · simp only [Function.update_noteq hji] at hj
            exact hT'.2 j nx hj

/-- Overwriting only the data list of the node at `p`. -/
theorem dataAt_updateAt_data (f : List (List Char) → List (List Char)) (T : TrieNode)
    (p q : List Char) :
    dataAt (updateAt (fun n => { n with data := f n.data }) T p) q =
      if q = p then (match nodeAt T p with
        | some n => f n.data
        | none => []) else dataAt T q := by
  by_cases hpq : p <+: q
  · obtain ⟨r, rfl⟩ := hpq
    cases hp : nodeAt T p with
    | none =>
      rw [updateAt_of_nodeAt_none _ hp]
      have : dataAt T (p ++ r) = [] := by simp [dataAt, nodeAt_append, hp]
      simp [this]
    | some n =>
      rw [dataAt_updateAt_append _ r hp]
      cases r with
      | nil => simp [dataAt_nil]
      | cons c cs =>
        have hne : ¬ (p ++ c :: cs = p) := by
          intro h
          have := congrArg List.length h
          simp at this
        rw [if_neg hne]
        refine (dataAt_cons_congr (M := n) rfl c cs).trans ?_
        simp [dataAt, nodeAt_append, hp]
  · rw [dataAt_updateAt_off_path _ _ _ _ hpq]
    have : q ≠ p := by rintro rfl; exact hpq (List.prefix_refl _)
    simp [this]

theorem countOK_updateAt_data (f : List (List Char) → List (List Char)) {T : TrieNode}
    (p : List Char) (hT : CountOK T) :
    CountOK (updateAt (fun n => { n with data := f n.data }) T p) := by
  apply countOK_updateAt _ _ hT
  intro n hn
  have h := allNodes_nodeAt hT hn
  rw [allNodes_iff] at h
  rw [CountOK, allNodes_iff]
  exact ⟨h.1, h.2⟩

theorem nodeAt_prefix_isSome {T : TrieNode} {p r : List Char}
    (h : (nodeAt T (p ++ r)).isSome = true) : (nodeAt T p).isSome = true := by
  rw [nodeAt_append] at h
  cases hp : nodeAt T p with
  | none => simp [hp] at h
  | some n => rfl

theorem child_of_nodeAt_snoc {T parent : TrieNode} {pp : List Char} {c : Char}
    (hp : nodeAt T pp = some parent) (h : (nodeAt T (pp ++ [c])).isSome = true) :
    ∃ i, slot c = some i ∧ (parent.childs i).isSome = true := by
  rw [nodeAt_append, hp] at h
  simp only [Option.some_bind] at h
  cases hs : slot c with
  | none => rw [nodeAt_cons_noslot _ hs] at h; simp at h
  | some i =>
    refine ⟨i, rfl, ?_⟩
    cases hn : parent.childs i with
    | none => rw [nodeAt_cons_none _ hs hn] at h; simp at h
    | some nx => rfl

theorem climb_spec {T : TrieNode} (hT : CountOK T) :
    ∀ rp : List Char, rp ≠ [] → (nodeAt T rp.reverse).isSome = true →
      ∃ c pr tl, trieDeleteSubtreeClimb T rp = c :: pr ∧
        rp.reverse = pr.reverse ++ c :: tl ∧
        (∀ q, (pr.reverse ++ [c]) <+: q → ¬ rp.reverse <+: q → dataAt T q = []) ∧
        (pr = [] ∨ ∀ parent, nodeAt T pr.reverse = some parent →
          ¬ (parent.nonNullChilds = 1 ∧ parent.data.isEmpty = true)) := by
  intro rp
  induction rp with
  | nil => intro h; exact absurd rfl h
  | cons c parentRev ih =>
    intro _ hnode
    cases hpr : parentRev with
    | nil =>
      refine ⟨c, [], [], by simp [trieDeleteSubtreeClimb], by simp, ?_, Or.inl rfl⟩
      intro q h1 h2
      exact absurd (by simpa using h1) h2
    | cons d rest =>
      rw [← hpr]
      have hne : parentRev ≠ [] := by rw [hpr]; simp
      rw [List.reverse_cons] at hnode
      have hpar := nodeAt_prefix_isSome hnode
      obtain ⟨parent, hparent⟩ := Option.isSome_iff_exists.1 hpar
      have hclimb : trieDeleteSubtreeClimb T (c :: parentRev) =
          if parent.nonNullChilds = 1 ∧ parent.data.isEmpty = true then
            trieDeleteSubtreeClimb T parentRev else c :: parentRev := by
        rw [hpr, trieDeleteSubtreeClimb]
        rw [← hpr, hparent]
      by_cases hcond : parent.nonNullChilds = 1 ∧ parent.data.isEmpty = true
      · rw [hclimb, if_pos hcond]
        obtain ⟨c1, pr1, tl1, h1, h2, h3, h4⟩ := ih hne hpar
        refine ⟨c1, pr1, tl1 ++ [c], h1, ?_, ?_, h4⟩
        · rw [List.reverse_cons, h2]; simp
        · intro q hq1 hq2
          by_cases hq3 : parentRev.reverse <+: q
          · obtain ⟨r, rfl⟩ := hq3
            obtain ⟨i, hi, hch⟩ := child_of_nodeAt_snoc hparent hnode
            have hdata : dataAt T (parentRev.reverse ++ r) = dataAt parent r := by
              simp [dataAt, nodeAt_append, hparent]
            rw [hdata]
            cases r with
            | nil => rw [dataAt_nil]; exact List.isEmpty_iff.1 hcond.2
            | cons e es =>
              cases hs : slot e with
              | none => exact dataAt_cons_noslot es hs
              | some j =>
                have hji : j ≠ i := by
                  rintro rfl
                  obtain rfl := slot_inj hi hs
                  apply hq2
                  rw [List.reverse_cons]
                  exact ⟨es, by simp⟩
                have hloc : LocalCount parent := hT _ _ hparent
                have hcard : (Finset.univ.filter
                    (fun j => (parent.childs j).isSome = true)).card = 1 := by
                  have := hloc
                  simp only [LocalCount, hcond.1] at this
                  exact_mod_cast this.symm
                exact dataAt_cons_none es hs (eq_none_of_card_eq_one hcard hch hji)
          · exact h3 q hq1 hq3
      · rw [hclimb, if_neg hcond]
        refine ⟨c, parentRev, [], rfl, by simp, ?_, Or.inr ?_⟩
        · intro q h1 h2
          rw [List.reverse_cons] at h2
          exact absurd h1 h2
        · intro parent1 hp1
          rw [hparent] at hp1
          simp only [Option.some.injEq] at hp1
          subst hp1
          exact hcond

/-- What `trieDeleteSubtree` does to a trie with correct counters: it succeeds, keeps
the counters correct and empties exactly the paths below `p`. -/
theorem trieDeleteSubtree_spec {T : TrieNode} (hT : CountOK T) {p : List Char} (hp : p ≠ [])
    (hnode : (nodeAt T p).isSome = true) :
    ∃ T1, trieDeleteSubtree T p = some T1 ∧ CountOK T1 ∧
      ∀ q, dataAt T1 q = if p <+: q then [] else dataAt T q := by
  have hrp : p.reverse ≠ [] := by simpa using hp
  have hnode' : (nodeAt T p.reverse.reverse).isSome = true := by simpa using hnode
  obtain ⟨c, pr, tl, h1, h2, h3, h4⟩ := climb_spec hT p.reverse hrp hnode'
  rw [List.reverse_reverse] at h2 h3
  have hy : (nodeAt T (pr.reverse ++ [c])).isSome = true := by
    apply nodeAt_prefix_isSome (r := tl)
    rw [List.append_assoc]; simpa [← h2] using hnode
  have hpar := nodeAt_prefix_isSome hy
  obtain ⟨parent, hparent⟩ := Option.isSome_iff_exists.1 hpar
  obtain ⟨i, hi, hch⟩ := child_of_nodeAt_snoc hparent hy
  have hloc : LocalCount parent := hT _ _ hparent
  have hpos : 0 < (Finset.univ.filter (fun j => (parent.childs j).isSome = true)).card :=
    Finset.card_pos.2 ⟨i, by simp [hch]⟩
  have hassert : parent.nonNullChilds - 1 > 0 ∨ ¬ parent.data.isEmpty = true ∨
      pr.isEmpty = true := by
    rcases h4 with h4 | h4
    · right; right; simp [h4]
    · have := h4 parent hparent
      by_cases hd : parent.data.isEmpty = true
      · left
        have hne1 : parent.nonNullChilds ≠ 1 := fun h => this ⟨h, hd⟩
        simp only [LocalCount] at hloc
        omega
      · right; left; exact hd
  refine ⟨updateAt
      (fun p => { p with
                    nonNullChilds := p.nonNullChilds - 1
                    childs := Function.update p.childs i none })
      T pr.reverse, ?_, ?_, ?_⟩
  · simp only [trieDeleteSubtree, h1, hparent, hi]
    have hnn : ¬ (parent.childs i).isNone = true := by
      cases hx : parent.childs i <;> simp [hx] at hch ⊢
    rw [if_neg hnn, if_neg (not_not.2 hassert)]
  · apply countOK_updateAt _ _ hT
    intro n hn
    rw [hparent] at hn
    simp only [Option.some.injEq] at hn
    subst hn
    have hsub := allNodes_nodeAt hT hparent
    rw [allNodes_iff] at hsub
    rw [CountOK, allNodes_iff]
    refine ⟨?_, ?_⟩
    · simp only [LocalCount] at hloc ⊢
      have := card_update_none_of_some (f := parent.childs) hch
      rw [hloc]
      omega
    · intro j nx hj
      by_cases hji : j = i
      · subst hji; simp at hj
      · simp only [Function.update_noteq hji] at hj
        exact hsub.2 j nx hj
  · intro q
    have hpre : pr.reverse <+: p := ⟨c :: tl, h2.symm⟩
    by_cases hq : pr.reverse <+: q
    · obtain ⟨r, rfl⟩ := hq
      rw [dataAt_updateAt_append _ r hparent]
      have hdata : dataAt T (pr.reverse ++ r) = dataAt parent r := by
        simp [dataAt, nodeAt_append, hparent]
      cases r with
      | nil =>
        have : ¬ p <+: pr.reverse ++ [] := by
          intro h
          have := h.length_le
          rw [h2] at this
          simp at this
        rw [if_neg this, hdata]; rfl
      | cons e es =>
        by_cases he : slot e = some i
        · obtain rfl := slot_inj hi he
          have hz : dataAt { parent with
              nonNullChilds := parent.nonNullChilds - 1
              childs := Function.update parent.childs i none } (c :: es) = [] :=
            dataAt_cons_none es hi (by simp)
          rw [hz]
          by_cases hpq : p <+: pr.reverse ++ c :: es
          · rw [if_pos hpq]
          · rw [if_neg hpq]
            exact (h3 _ ⟨es, by simp⟩ hpq).symm
        · have hz : dataAt { parent with
              nonNullChilds := parent.nonNullChilds - 1
              childs := Function.update parent.childs i none } (e :: es) =
                dataAt parent (e :: es) :=
            dataAt_childs_update_other rfl es he
          rw [hz, hdata]
          have : ¬ p <+: pr.reverse ++ e :: es := by
            intro h
            rw [h2] at h
            have h' := (List.prefix_append_right_inj _).1 h
            have := (List.cons_prefix_cons.1 h').1
            subst this
            exact he hi
          rw [if_neg this]
    · rw [dataAt_updateAt_off_path _ _ _ _ hq]
      have : ¬ p <+: q := fun h => hq (hpre.trans h)
      rw [if_neg this]

theorem nodeAt_of_mem_dataAt {T : TrieNode} {p a : List Char} (h : a ∈ dataAt T p) :
    ∃ n, nodeAt T p = some n ∧ a ∈ n.data := by
  unfold dataAt at h
  cases hn : nodeAt T p with
  | none => simp [hn] at h
  | some n => exact ⟨n, rfl, by simpa [hn] using h⟩

theorem dataAt_eq_of_nodeAt {T n : TrieNode} {p : List Char} (h : nodeAt T p = some n) :
    dataAt T p = n.data := by
  simp [dataAt, h]

/-- What `trieRemoveOneEntry` does when its precondition holds: it succeeds, keeps the
counters correct and unlinks the first entry equal to `a` from the list at `text`. -/
theorem trieRemoveOneEntry_spec {R : TrieNode} (hR : CountOK R) {text a : List Char}
    (htext : text ≠ []) (hmem : a ∈ dataAt R text) :
    ∃ R1, trieRemoveOneEntry R text a = some R1 ∧ CountOK R1 ∧
      ∀ q, dataAt R1 q = if q = text then (dataAt R text).erase a else dataAt R q := by
  obtain ⟨node, hnode, hin⟩ := nodeAt_of_mem_dataAt hmem
  have hdat := dataAt_eq_of_nodeAt hnode
  have hupd : ∀ (f : List (List Char) → List (List Char)) (q : List Char),
      dataAt (updateAt (fun n => { n with data := f n.data }) R text) q =
        if q = text then f node.data else dataAt R q := by
    intro f q
    rw [dataAt_updateAt_data, hnode]
  cases hd : node.data with
  | nil => rw [hd] at hin; simp at hin
  | cons t rest =>
    cases rest with
    | nil =>
      rw [hd] at hin
      have hta : t = a := by simpa using (List.mem_singleton.1 hin).symm
      subst hta
      by_cases hz : node.nonNullChilds = 0
      · have hR1 : CountOK (updateAt (fun n => { n with data := (fun _ => []) n.data }) R text) :=
          countOK_updateAt_data (fun _ => []) text hR
        have hsome : (nodeAt (updateAt (fun n => { n with data := (fun _ => []) n.data }) R text)
            text).isSome = true := by
          have := nodeAt_updateAt_append (fun n => { n with data := (fun _ => []) n.data })
            R text []
          rw [List.append_nil] at this
          rw [this, hnode]; rfl
        obtain ⟨R2, h1, h2, h3⟩ := trieDeleteSubtree_spec hR1 htext hsome
        refine ⟨R2, ?_, h2, ?_⟩
        · simp only [trieRemoveOneEntry, hnode, hd, if_pos, hz]
          exact h1
        · intro q
          rw [h3 q, hupd (fun _ => []) q, hdat, hd]
          by_cases hq : q = text
          · subst hq; simp
          · simp only [if_neg hq]
            by_cases hpre : text <+: q
            · rw [if_pos hpre]
              obtain ⟨r, rfl⟩ := hpre
              cases r with
              | nil => simp at hq
              | cons e es =>
                have : dataAt R (text ++ e :: es) = dataAt node (e :: es) := by
                  simp [dataAt, nodeAt_append, hnode]
                rw [this]
                cases hs : slot e with
                | none => exact (dataAt_cons_noslot es hs).symm
                | some j =>
                  have hloc : LocalCount node := hR _ _ hnode
                  simp only [LocalCount, hz] at hloc
                  have hc : (Finset.univ.filter
                      (fun j => (node.childs j).isSome = true)).card = 0 := by
                    exact_mod_cast hloc.symm
                  exact (dataAt_cons_none es hs (all_none_of_card_eq_zero j hc)).symm
            · rw [if_neg hpre]
      · refine ⟨updateAt (fun n => { n with data := (fun _ => []) n.data }) R text, ?_,
          countOK_updateAt_data (fun _ => []) text hR, ?_⟩
        · simp only [trieRemoveOneEntry, hnode, hd, if_pos, hz, if_false]
        · intro q
          rw [hupd (fun _ => []) q, hdat, hd]
          simp
    | cons u rest =>
      refine ⟨updateAt (fun n => { n with data := (fun d => d.erase a) n.data }) R text, ?_,
        countOK_updateAt_data (fun d => d.erase a) text hR, ?_⟩
      · rw [hd] at hin
        simp only [trieRemoveOneEntry, hnode, hd, if_pos hin]
      · intro q
        rw [hupd (fun d => d.erase a) q, hdat]

theorem localPruned_refl (dead : List Char → Prop) (n : TrieNode) : LocalPruned dead n n :=
  ⟨rfl, fun _ => rfl, List.Sublist.refl _, fun _ h1 h2 => absurd h1 h2⟩

theorem prunedBy_refl (dead : List Char → List Char → Prop) (T : TrieNode) :
    PrunedBy dead T T := by
  intro q
  cases h : nodeAt T q with
  | none => simp [optRel]
  | some n => simp only [optRel]; exact localPruned_refl _ n

theorem localPruned_trans {dead : List Char → Prop} {n n1 n2 : TrieNode}
    (h1 : LocalPruned dead n n1) (h2 : LocalPruned dead n1 n2) : LocalPruned dead n n2 := by
  refine ⟨h2.1.trans h1.1, fun i => (h2.2.1 i).trans (h1.2.1 i), h2.2.2.1.trans h1.2.2.1, ?_⟩
  intro a ha hna
  by_cases h : a ∈ n1.data
  · exact h2.2.2.2 a h hna
  · exact h1.2.2.2 a ha h

theorem prunedBy_trans {dead : List Char → List Char → Prop} {T T1 T2 : TrieNode}
    (h1 : PrunedBy dead T T1) (h2 : PrunedBy dead T1 T2) : PrunedBy dead T T2 := by
  intro q
  have a := h1 q
  have b := h2 q
  cases hx : nodeAt T q <;> cases hy : nodeAt T1 q <;> cases hz : nodeAt T2 q <;>
    simp only [hx, hy, hz, optRel] at a b ⊢
  exact localPruned_trans a b

theorem prunedBy_iff (dead : List Char → List Char → Prop) (T T1 : TrieNode) :
    PrunedBy dead T T1 ↔ LocalPruned (dead []) T T1 ∧
      ∀ c i, slot c = some i →
        optRel (PrunedBy (fun q => dead (c :: q))) (T.childs i) (T1.childs i) := by
  constructor
  · intro h
    have h0 : LocalPruned (dead []) T T1 := by simpa [optRel, nodeAt] using h []
    refine ⟨h0, ?_⟩
    intro c i hc
    have hs := h0.2.1 i
    cases hx : T.childs i with
    | none =>
      rw [hx] at hs
      cases hy : T1.childs i with
      | none => simp [optRel]
      | some m => rw [hy] at hs; simp at hs
    | some n =>
      rw [hx] at hs
      cases hy : T1.childs i with
      | none => rw [hy] at hs; simp at hs
      | some m =>
        simp only [optRel]
        intro q
        have := h (c :: q)
        rwa [nodeAt_cons_some q hc hx, nodeAt_cons_some q hc hy] at this
  · rintro ⟨h0, hch⟩ q
    cases q with
    | nil => simpa [optRel, nodeAt] using h0
    | cons c cs =>
      cases hs : slot c with
      | none => rw [nodeAt_cons_noslot cs hs, nodeAt_cons_noslot cs hs]; simp [optRel]
      | some i =>
        have := hch c i hs
        cases hx : T.childs i <;> cases hy : T1.childs i <;> simp only [hx, hy, optRel] at this
        · rw [nodeAt_cons_none cs hs hx, nodeAt_cons_none cs hs hy]; simp [optRel]
        · rw [nodeAt_cons_some cs hs hx, nodeAt_cons_some cs hs hy]; exact this cs

theorem PrunedBy.mem_of_mem {dead : List Char → List Char → Prop} {T T1 : TrieNode}
    (h : PrunedBy dead T T1) {q a : List Char} (ha : a ∈ dataAt T1 q) : a ∈ dataAt T q := by
  obtain ⟨n1, hn1, hin⟩ := nodeAt_of_mem_dataAt ha
  have := h q
  cases hx : nodeAt T q with
  | none => simp [hx, hn1, optRel] at this
  | some n =>
    simp only [hx, hn1, optRel] at this
    rw [dataAt_eq_of_nodeAt hx]
    exact this.2.2.1.subset hin

theorem PrunedBy.mem_of_not_dead {dead : List Char → List Char → Prop} {T T1 : TrieNode}
    (h : PrunedBy dead T T1) {q a : List Char} (ha : a ∈ dataAt T q) (hd : ¬ dead q a) :
    a ∈ dataAt T1 q := by
  obtain ⟨n, hn, hin⟩ := nodeAt_of_mem_dataAt ha
  have := h q
  cases hx : nodeAt T1 q with
  | none => simp [hx, hn, optRel] at this
  | some n1 =>
    simp only [hx, hn, optRel] at this
    rw [dataAt_eq_of_nodeAt hx]
    by_contra hcon
    exact hd (this.2.2.2 a hin hcon)

theorem PrunedBy.countOK {dead : List Char → List Char → Prop} {T T1 : TrieNode}
    (h : PrunedBy dead T T1) (hT : CountOK T) : CountOK T1 := by
  intro q n1 hn1
  have := h q
  cases hx : nodeAt T q with
  | none => simp [hx, hn1, optRel] at this
  | some n =>
    simp only [hx, hn1, optRel] at this
    have hloc : LocalCount n := hT q n hx
    simp only [LocalCount] at hloc ⊢
    rw [this.1, hloc]
    congr 2
    ext i
    simp [this.2.1 i]

theorem PrunedBy.mono {dead dead1 : List Char → List Char → Prop} {T T1 : TrieNode}
    (h : PrunedBy dead T T1) (hd : ∀ q a, dead q a → dead1 q a) : PrunedBy dead1 T T1 := by
  intro q
  have := h q
  cases hx : nodeAt T q <;> cases hy : nodeAt T1 q <;> simp only [hx, hy, optRel] at this ⊢
  exact ⟨this.1, this.2.1, this.2.2.1, fun a h1 h2 => hd q a (this.2.2.2 a h1 h2)⟩

theorem trieValueUnderPrefixExists_some (T : TrieNode) (p v : List Char) :
    trieValueUnderPrefixExists T p (some v) = true ↔ v ∈ dataAt T p := by
  induction p generalizing T with
  | nil => simp [trieValueUnderPrefixExists, dataAt_nil]
  | cons c cs ih =>
    cases hs : slot c with
    | none => simp [trieValueUnderPrefixExists, hs, dataAt_cons_noslot cs hs]
    | some i =>
      cases hn : T.childs i with
      | none => simp [trieValueUnderPrefixExists, hs, hn, dataAt_cons_none cs hs hn]
      | some next =>
        simp only [trieValueUnderPrefixExists, hs, hn, dataAt_cons_some cs hs hn]
        exact ih next

theorem trieValueUnderPrefixExists_none (T : TrieNode) (p : List Char) :
    trieValueUnderPrefixExists T p none = true ↔ dataAt T p ≠ [] := by
  induction p generalizing T with
  | nil => simp [trieValueUnderPrefixExists, dataAt_nil]
  | cons c cs ih =>
    cases hs : slot c with
    | none => simp [trieValueUnderPrefixExists, hs, dataAt_cons_noslot cs hs]
    | some i =>
      cases hn : T.childs i with
      | none => simp [trieValueUnderPrefixExists, hs, hn, dataAt_cons_none cs hs hn]
      | some next =>
        simp only [trieValueUnderPrefixExists, hs, hn, dataAt_cons_some cs hs hn]
        exact ih next

theorem phfwdReverseScan_eq (F : TrieNode) (pre suf : List Char) (l : List (List Char)) :
    phfwdReverseScan F pre suf l =
      (l.filter (fun a => trieValueUnderPrefixExists F a (some pre)),
       (l.filter (fun a => trieValueUnderPrefixExists F a (some pre))).map (fun a => a ++ suf)) := by
  induction l with
  | nil => rfl
  | cons t rest ih =>
    simp only [phfwdReverseScan, ih]
    by_cases h : trieValueUnderPrefixExists F t (some pre) = true
    · simp [h]
    · simp [h]

theorem optRel_self {α : Type} {r : α → α → Prop} (h : ∀ a, r a a) (x : Option α) :
    optRel r x x := by
  cases x with
  | none => simp [optRel]
  | some a => exact h a

/-- Replacing the data list of the root by a filtered list is a pruning step. -/
theorem prunedBy_filter_root (dead : List Char → List Char → Prop) (T : TrieNode)
    (keep : List Char → Bool) (h : ∀ a, keep a = false → dead [] a) :
    PrunedBy dead T { T with data := T.data.filter keep } := by
  rw [prunedBy_iff]
  refine ⟨⟨rfl, fun _ => rfl, List.filter_sublist _, ?_⟩, ?_⟩
  · intro a ha hna
    apply h
    by_contra hk
    exact hna (List.mem_filter.2 ⟨ha, by simpa using hk⟩)
  · intro c i _
    exact optRel_self (fun n => prunedBy_refl _ n) _

/-- Replacing one child by a pruned version of it is a pruning step. -/
theorem prunedBy_update_child {dead : List Char → List Char → Prop} {T child child1 : TrieNode}
    {c : Char} {i : Fin 12} (hc : slot c = some i) (hn : T.childs i = some child)
    (h : PrunedBy (fun q => dead (c :: q)) child child1) :
    PrunedBy dead T { T with childs := Function.update T.childs i (some child1) } := by
  rw [prunedBy_iff]
  refine ⟨⟨rfl, ?_, List.Sublist.refl _, fun _ h1 h2 => absurd h1 h2⟩, ?_⟩
  · intro j
    by_cases hj : j = i
    · subst hj; simp [hn]
    · simp [Function.update_noteq hj]
  · intro d j hd
    by_cases hj : j = i
    · subst hj
      obtain rfl := slot_inj hc hd
      simp only [Function.update_same, hn, optRel]
      exact h
    · simp only [Function.update_noteq hj]
      exact optRel_self (fun n => prunedBy_refl _ n) _

theorem dataAt_cons_data (T : TrieNode) (d : List (List Char)) (c : Char) (cs : List Char) :
    dataAt { T with data := d } (c :: cs) = dataAt T (c :: cs) :=
  dataAt_cons_congr rfl c cs

theorem take_eq_cons_of_pos {k : Nat} {cs : List Char} (h1 : 1 ≤ k) (h2 : k ≤ cs.length) :
    ∃ e es, cs.take k = e :: es := by
  cases hck : cs.take k with
  | nil =>
    have := congrArg List.length hck
    rw [List.length_take, List.length_nil] at this
    omega
  | cons e es => exact ⟨e, es, rfl⟩

theorem phfwdReverseWalk_spec (F : TrieNode) :
    ∀ (rest : List Char) (cur : TrieNode) (pre : List Char), AllSlots rest →
      ∃ cur1 out, phfwdReverseWalk F cur pre rest = some (cur1, out) ∧
        cur1.data = cur.data ∧
        PrunedBy (fun q a => pre ++ q ∉ dataAt F a) cur cur1 ∧
        (∀ x, x ∈ out ↔ ∃ k a, 1 ≤ k ∧ k ≤ rest.length ∧ a ∈ dataAt cur (rest.take k) ∧
          pre ++ rest.take k ∈ dataAt F a ∧ x = a ++ rest.drop k) := by
  intro rest
  induction rest with
  | nil =>
    intro cur pre _
    refine ⟨cur, [], rfl, rfl, prunedBy_refl _ _, ?_⟩
    intro x
    simp only [List.not_mem_nil, List.length_nil, false_iff, not_exists, not_and]
    intro k a h1 h2
    omega
  | cons c cs ih =>
    intro cur pre hs
    have hcs : AllSlots cs := fun d hd => hs d (List.mem_cons_of_mem _ hd)
    obtain ⟨i, hi⟩ := Option.isSome_iff_exists.1 (hs c (List.mem_cons_self _ _))
    cases hn : cur.childs i with
    | none =>
      refine ⟨cur, [], by simp [phfwdReverseWalk, hi, hn], rfl, prunedBy_refl _ _, ?_⟩
      intro x
      simp only [List.not_mem_nil, false_iff, not_exists, not_and]
      intro k a h1 _ h3
      obtain ⟨k, rfl⟩ : ∃ j, k = j + 1 := ⟨k - 1, by omega⟩
      rw [List.take_succ_cons, dataAt_cons_none _ hi hn] at h3
      simp at h3
    | some child =>
      obtain ⟨child1, more, hw, hdata, hpr, hout⟩ :=
        ih { child with data := (child.data.filter
              (fun a => trieValueUnderPrefixExists F a (some (pre ++ [c])))) } (pre ++ [c]) hcs
      refine ⟨{ cur with childs := Function.update cur.childs i (some child1) },
        (child.data.filter (fun a => trieValueUnderPrefixExists F a (some (pre ++ [c])))).map
          (fun a => a ++ cs) ++ more, ?_, rfl, ?_, ?_⟩
      · simp only [phfwdReverseWalk, hi, hn, phfwdReverseScan_eq, hw]
      · apply prunedBy_update_child hi hn
        refine @prunedBy_trans _ _ { child with data := (child.data.filter
              (fun a => trieValueUnderPrefixExists F a (some (pre ++ [c])))) } _ ?_ ?_
        · apply prunedBy_filter_root
          intro a ha
          rw [← trieValueUnderPrefixExists_some]
          simpa using ha
        · refine hpr.mono ?_
          intro q a h
          simpa using h
      · intro x
        rw [List.mem_append, List.mem_map, hout]
        constructor
        · rintro (⟨a, ha, rfl⟩ | ⟨k, a, h1, h2, h3, h4, rfl⟩)
          · rw [List.mem_filter, trieValueUnderPrefixExists_some] at ha
            refine ⟨1, a, le_refl _, by simp, ?_, ?_, by simp⟩
            · simpa [dataAt_cons_some [] hi hn, dataAt_nil] using ha.1
            · simpa using ha.2
          · refine ⟨k + 1, a, by omega, by simpa using h2, ?_, ?_, by simp⟩
            · rw [List.take_succ_cons, dataAt_cons_some _ hi hn]
              obtain ⟨e, es, hes⟩ := take_eq_cons_of_pos h1 h2
              rw [hes] at h3 ⊢
              rwa [dataAt_cons_data] at h3
            · simpa using h4
        · rintro ⟨k, a, h1, h2, h3, h4, rfl⟩
          obtain ⟨k, rfl⟩ : ∃ j, k = j + 1 := ⟨k - 1, by omega⟩
          rw [List.take_succ_cons, dataAt_cons_some _ hi hn] at h3
          rw [List.take_succ_cons] at h4
          by_cases hk : k = 0
          · subst hk
            left
            refine ⟨a, ?_, by simp⟩
            rw [List.mem_filter, trieValueUnderPrefixExists_some]
            exact ⟨by simpa [dataAt_nil] using h3, by simpa using h4⟩
          · right
            refine ⟨k, a, by omega, by simpa using h2, ?_, by simpa using h4, by simp⟩
            have h2' : k ≤ cs.length := by simpa using h2
            obtain ⟨e, es, hes⟩ := take_eq_cons_of_pos (Nat.pos_of_ne_zero hk) h2'
            rw [hes] at h3 ⊢
            rwa [dataAt_cons_data]

/-- Replacing the data list of the root by a sublist is a pruning step. -/
theorem prunedBy_data_root (dead : List Char → List Char → Prop) (T : TrieNode)
    (d : List (List Char)) (h1 : d.Sublist T.data) (h2 : ∀ a ∈ T.data, a ∉ d → dead [] a) :
    PrunedBy dead T { T with data := d } := by
  rw [prunedBy_iff]
  refine ⟨⟨rfl, fun _ => rfl, h1, h2⟩, ?_⟩
  intro c i _
  exact optRel_self (fun n => prunedBy_refl _ n) _

theorem dataListContaisEntryThatExistsLoop_spec (F : TrieNode) (l : List (List Char)) :
    (dataListContaisEntryThatExistsLoop F l).2.Sublist l ∧
      ∀ a ∈ l, a ∉ (dataListContaisEntryThatExistsLoop F l).2 → dataAt F a = [] := by
  induction l with
  | nil => simp [dataListContaisEntryThatExistsLoop]
  | cons t rest ih =>
    by_cases h : trieValueUnderPrefixExists F t none = true
    · simp only [dataListContaisEntryThatExistsLoop, h, if_true]
      exact ⟨List.Sublist.refl _, fun a h1 h2 => absurd h1 h2⟩
    · simp only [dataListContaisEntryThatExistsLoop, h, if_false]
      refine ⟨ih.1.cons _, ?_⟩
      intro a ha hna
      rcases List.mem_cons.1 ha with rfl | ha
      · rw [trieValueUnderPrefixExists_none] at h
        simpa using h
      · exact ih.2 a ha hna

theorem dataListContaisEntryThatExists_pruned (F cur : TrieNode) :
    PrunedBy (fun _ a => dataAt F a = []) cur (dataListContaisEntryThatExists F cur).2 := by
  have := dataListContaisEntryThatExistsLoop_spec F cur.data
  exact prunedBy_data_root _ cur _ this.1 this.2

theorem countChildStep_pruned {W : Nat} {ds : Fin 12 → Bool} {F : TrieNode}
    {recurse : TrieNode → Option (Nat × TrieNode)}
    (hrec : ∀ child n c1, recurse child = some (n, c1) →
      PrunedBy (fun _ a => dataAt F a = []) child c1)
    {acc res : Nat × TrieNode} {i : Fin 12}
    (h : countChildStep W ds recurse acc i = some res) :
    PrunedBy (fun _ a => dataAt F a = []) acc.2 res.2 := by
  unfold countChildStep at h
  cases hn : acc.2.childs i with
  | none =>
    simp only [hn, Option.some.injEq] at h
    subst h
    exact prunedBy_refl _ _
  | some child =>
    simp only [hn] at h
    by_cases hd : ds i = true
    · simp only [hd, if_true] at h
      cases hr : recurse child with
      | none => simp [hr] at h
      | some r =>
        obtain ⟨n, c1⟩ := r
        simp only [hr, Option.some.injEq] at h
        subst h
        exact @prunedBy_update_child (fun _ a => dataAt F a = []) _ _ _ _ _
          (slot_symbolOf i) hn (hrec child n c1 hr)
    · simp only [hd, Bool.false_eq_true, if_false, Option.some.injEq] at h
      subst h
      exact prunedBy_refl _ _

theorem foldlM_countChildStep_pruned {W : Nat} {ds : Fin 12 → Bool} {F : TrieNode}
    {recurse : TrieNode → Option (Nat × TrieNode)}
    (hrec : ∀ child n c1, recurse child = some (n, c1) →
      PrunedBy (fun _ a => dataAt F a = []) child c1) :
    ∀ (l : List (Fin 12)) (acc res : Nat × TrieNode),
      l.foldlM (countChildStep W ds recurse) acc = some res →
      PrunedBy (fun _ a => dataAt F a = []) acc.2 res.2 := by
  intro l
  induction l with
  | nil =>
    intro acc res h
    simp only [List.foldlM_nil] at h
    have : acc = res := by simpa using h
    subst this
    exact prunedBy_refl _ _
  | cons i l ih =>
    intro acc res h
    rw [List.foldlM_cons] at h
    cases hstep : countChildStep W ds recurse acc i with
    | none => simp [hstep] at h
    | some mid =>
      rw [hstep] at h
      exact prunedBy_trans (countChildStep_pruned hrec hstep) (ih mid res h)

theorem phfwdNonTrivialCountAux_pruned (W : Nat) (F : TrieNode) (ds : Fin 12 → Bool)
    (len : Nat) :
    ∀ (fuel : Nat) (cur : TrieNode) (deep n : Nat) (cur1 : TrieNode),
      phfwdNonTrivialCountAux W F ds len fuel cur deep = some (n, cur1) →
      PrunedBy (fun _ a => dataAt F a = []) cur cur1 := by
  intro fuel
  induction fuel with
  | zero => intro cur deep n cur1 h; simp [phfwdNonTrivialCountAux] at h
  | succ fuel ih =>
    intro cur deep n cur1 h
    have hp := dataListContaisEntryThatExists_pruned F cur
    unfold phfwdNonTrivialCountAux at h
    by_cases h1 : len < deep
    · simp [h1] at h
    · simp only [h1, if_false] at h
      by_cases h2 : (dataListContaisEntryThatExists F cur).1 = true
      · simp only [h2, if_true, Option.some.injEq, Prod.mk.injEq] at h
        rw [← h.2]; exact hp
      · simp only [h2, Bool.false_eq_true, if_false] at h
        by_cases h3 : len = deep
        · simp only [h3, if_true, Option.some.injEq, Prod.mk.injEq] at h
          rw [← h.2]; exact hp
        · simp only [h3, if_false] at h
          have := @foldlM_countChildStep_pruned W ds F _
            (fun child n c1 hc => ih child (deep + 1) n c1 hc) _ _ _ h
          exact prunedBy_trans hp this

theorem inv_phfwdNew : Inv phfwdNew where
  countF := allNodes_trieNodeNew localCount_trieNodeNew
  countR := allNodes_trieNodeNew localCount_trieNodeNew
  single := fun a => by simp [phfwdNew, dataAt_trieNodeNew]
  link := fun a t h => by simp [phfwdNew, dataAt_trieNodeNew] at h
  validF := fun a t h => by simp [phfwdNew, dataAt_trieNodeNew] at h
  validR := fun a t h => by simp [phfwdNew, dataAt_trieNodeNew] at h

theorem addedData_replace (old : List (List Char)) (d : List Char) :
    addedData old d false = [d] := by
  unfold addedData; split <;> simp

theorem addedData_append (old : List (List Char)) (d : List Char) :
    addedData old d true = old ++ [d] := by
  unfold addedData
  split
  · rename_i h; simp [List.isEmpty_iff.1 h]
  · simp

theorem phfwdAdd_spec {pf : PhoneForward} (hI : Inv pf) {num1 num2 : List Char}
    (h1 : isValidPhnum num1 = true) (h2 : isValidPhnum num2 = true) (hne : num1 ≠ num2) :
    ∃ F1 R1, phfwdAdd pf num1 num2 = some (true, { redirections := F1, prefixes := R1 }) ∧
      trieAddText pf.redirections num1 num2 false = some (F1, dataAt pf.redirections num1) ∧
      (∀ q, dataAt F1 q = if q = num1 then [num2] else dataAt pf.redirections q) ∧
      (∀ q, dataAt R1 q = unlinkedData pf num1 q ++ if q = num2 then [num1] else []) ∧
      Inv { redirections := F1, prefixes := R1 } := by
  obtain ⟨F1, hF1, hFd, hFc⟩ :=
    trieAddText_spec pf.redirections num1 num2 false (allSlots_of_valid h1)
  simp only [Bool.false_eq_true, if_false, addedData_replace] at hF1 hFd
  -- the tree `R` after the optional unlink
  have hmid : ∃ Rm, phfwdAddUnlink pf.prefixes (dataAt pf.redirections num1) num1 = some Rm ∧
      CountOK Rm ∧ ∀ q, dataAt Rm q = unlinkedData pf num1 q := by
    unfold phfwdAddUnlink
    cases hd : dataAt pf.redirections num1 with
    | nil =>
      refine ⟨pf.prefixes, rfl, hI.countR, ?_⟩
      intro q; simp [unlinkedData, hd]
    | cons t next =>
      have hlen := hI.single num1
      rw [hd] at hlen
      have hnext : next = [] := by
        cases next with
        | nil => rfl
        | cons _ _ => simp at hlen
      subst hnext
      have hmem : t ∈ dataAt pf.redirections num1 := by rw [hd]; simp
      have htv := (hI.validF num1 t hmem).2
      obtain ⟨Rm, hRm, hRc, hRd⟩ :=
        trieRemoveOneEntry_spec hI.countR (ne_nil_of_valid htv) (hI.link num1 t hmem)
      refine ⟨Rm, by simpa using hRm, hRc, ?_⟩
      intro q
      rw [hRd q]
      unfold unlinkedData
      rw [hd]
      by_cases hq : q = t
      · subst hq; simp
      · have : ¬ ([t] = [q]) := by
          intro h; injection h with h; exact hq h.symm
        rw [if_neg hq, if_neg this]
  obtain ⟨Rm, hRm, hRmc, hRmd⟩ := hmid
  obtain ⟨R1, hR1, hRd, hRc⟩ := trieAddText_spec Rm num2 num1 true (allSlots_of_valid h2)
  simp only [if_true, addedData_append] at hR1 hRd
  have hRd' : ∀ q, dataAt R1 q = unlinkedData pf num1 q ++ if q = num2 then [num1] else [] := by
    intro q
    rw [hRd q]
    by_cases hq : q = num2
    · subst hq; simp [hRmd]
    · simp [hq, hRmd]
  have hsub : ∀ q x, x ∈ unlinkedData pf num1 q → x ∈ dataAt pf.prefixes q := by
    intro q x hx
    unfold unlinkedData at hx
    split at hx
    · exact List.mem_of_mem_erase hx
    · exact hx
  refine ⟨F1, R1, ?_, hF1, hFd, hRd', ?_⟩
  · unfold phfwdAdd
    have hcond : (!isValidPhnum num1 || !isValidPhnum num2 || decide (num1 = num2)) = false := by
      simp [h1, h2, hne]
    simp only [hcond, Bool.false_eq_true, if_false, hF1, hRm, hR1]
  · refine ⟨hFc hI.countF, hRc hRmc, ?_, ?_, ?_, ?_⟩
    · intro q
      rw [hFd q]
      split
      · simp
      · exact hI.single q
    · intro a t ht
      rw [hFd a] at ht
      rw [hRd' t]
      by_cases ha : a = num1
      · subst ha
        simp only [if_true, List.mem_singleton] at ht
        subst ht
        simp
      · rw [if_neg ha] at ht
        apply List.mem_append_left
        have hold := hI.link a t ht
        unfold unlinkedData
        split
        · exact (List.mem_erase_of_ne ha).2 hold
        · exact hold
    · intro a t ht
      rw [hFd a] at ht
      by_cases ha : a = num1
      · subst ha
        simp only [if_true, List.mem_singleton] at ht
        subst ht
        exact ⟨h1, h2⟩
      · rw [if_neg ha] at ht
        exact hI.validF a t ht
    · intro t a ha
      rw [hRd' t] at ha
      rcases List.mem_append.1 ha with ha | ha
      · exact hI.validR t a (hsub t a ha)
      · by_cases ht : t = num2
        · subst ht
          simp only [if_true, List.mem_singleton] at ha
          subst ha
          exact ⟨h2, h1⟩
        · simp [ht] at ha

theorem phfwdAdd_invalid {pf : PhoneForward} {num1 num2 : List Char}
    (h : ¬ (isValidPhnum num1 = true ∧ isValidPhnum num2 = true ∧ num1 ≠ num2)) :
    phfwdAdd pf num1 num2 = some (false, pf) := by
  unfold phfwdAdd
  have hcond : (!isValidPhnum num1 || !isValidPhnum num2 || decide (num1 = num2)) = true := by
    by_cases h1 : isValidPhnum num1 = true
    · by_cases h2 : isValidPhnum num2 = true
      · by_cases h3 : num1 = num2
        · simp [h3]
        · exact absurd ⟨h1, h2, h3⟩ h
      · simp [h2]
    · simp [h1]
  simp only [hcond, if_true]

theorem phfwdRemoveWalk_spec {T : TrieNode} (hT : CountOK T) :
    ∀ p : List Char, AllSlots p → phfwdRemoveWalk T p = some (nodeAt T p).isSome := by
  intro p
  induction p generalizing T with
  | nil =>
    intro _
    have hloc : LocalCount T := hT [] T rfl
    simp only [LocalCount] at hloc
    simp only [phfwdRemoveWalk, nodeAt]
    rw [if_pos (by omega)]
    rfl
  | cons c cs ih =>
    intro hs
    have hcs : AllSlots cs := fun d hd => hs d (List.mem_cons_of_mem _ hd)
    obtain ⟨i, hi⟩ := Option.isSome_iff_exists.1 (hs c (List.mem_cons_self _ _))
    cases hn : T.childs i with
    | none => simp [phfwdRemoveWalk, hi, hn, nodeAt_cons_none cs hi hn]
    | some next =>
      have hloc : LocalCount T := hT [] T rfl
      have hpos : 0 < (Finset.univ.filter (fun j => (T.childs j).isSome = true)).card :=
        Finset.card_pos.2 ⟨i, by simp [hn]⟩
      simp only [LocalCount] at hloc
      have hT' := hT
      rw [CountOK, allNodes_iff] at hT'
      simp only [phfwdRemoveWalk, hi, hn, nodeAt_cons_some cs hi hn]
      rw [if_pos (by omega)]
      exact ih (hT'.2 i next hn) hcs

theorem dataAt_eq_nil_of_prefix_none {T : TrieNode} {p : List Char}
    (h : nodeAt T p = none) (r : List Char) : dataAt T (p ++ r) = [] := by
  simp [dataAt, nodeAt_append, h]

theorem phfwdRemove_spec {pf : PhoneForward} (hI : Inv pf) {num : List Char}
    (hv : isValidPhnum num = true) :
    ∃ F1, phfwdRemove pf num = some { redirections := F1, prefixes := pf.prefixes } ∧
      (∀ q, dataAt F1 q = if num <+: q then [] else dataAt pf.redirections q) ∧
      Inv { redirections := F1, prefixes := pf.prefixes } := by
  have hwalk := phfwdRemoveWalk_spec hI.countF num (allSlots_of_valid hv)
  have key : ∃ F1, phfwdRemove pf num = some { redirections := F1, prefixes := pf.prefixes } ∧
      CountOK F1 ∧ (∀ q, dataAt F1 q = if num <+: q then [] else dataAt pf.redirections q) := by
    cases hn : nodeAt pf.redirections num with
    | none =>
      refine ⟨pf.redirections, ?_, hI.countF, ?_⟩
      · unfold phfwdRemove
        simp [hv, hwalk, hn]
      · intro q
        split
        · rename_i hpre
          obtain ⟨r, rfl⟩ := hpre
          exact dataAt_eq_nil_of_prefix_none hn r
        · rfl
    | some node =>
      obtain ⟨F1, hF1, hc, hd⟩ :=
        trieDeleteSubtree_spec hI.countF (ne_nil_of_valid hv) (by rw [hn]; rfl)
      refine ⟨F1, ?_, hc, hd⟩
      unfold phfwdRemove
      simp [hv, hwalk, hn, hF1]
  obtain ⟨F1, hF1, hc, hd⟩ := key
  have hsub : ∀ q t, t ∈ dataAt F1 q → t ∈ dataAt pf.redirections q := by
    intro q t ht
    rw [hd q] at ht
    split at ht
    · simp at ht
    · exact ht
  refine ⟨F1, hF1, hd, ⟨hc, hI.countR, ?_, ?_, ?_, hI.validR⟩⟩
  · intro q
    rw [hd q]
    split
    · simp
    · exact hI.single q
  · intro a t ht
    exact hI.link a t (hsub a t ht)
  · intro a t ht
    exact hI.validF a t (hsub a t ht)

/-! ### Sorting and removing duplicates -/

theorem lexicographicalCompare_eq_zero (x y : List Char) :
    lexicographicalCompare x y = 0 ↔ x = y := by
  induction x generalizing y with
  | nil => cases y <;> simp [lexicographicalCompare]
  | cons a as ih =>
    cases y with
    | nil => simp [lexicographicalCompare]
    | cons b bs =>
      simp only [lexicographicalCompare, List.cons.injEq]
      by_cases h1 : a < b
      · simp [h1, ne_of_lt h1]
      · by_cases h2 : b < a
        · simp [h1, h2, ne_of_gt h2]
        · have : a = b := le_antisymm (not_lt.1 h2) (not_lt.1 h1)
          simp [h1, h2, this, ih]

theorem lexicographicalCompare_eq_neg_one (x y : List Char) :
    lexicographicalCompare x y = -1 ↔ List.Lex (· < ·) x y := by
  induction x generalizing y with
  | nil =>
    cases y with
    | nil => simp [lexicographicalCompare]
    | cons b bs => simp [lexicographicalCompare, List.Lex.nil]
  | cons a as ih =>
    cases y with
    | nil => simp [lexicographicalCompare]
    | cons b bs =>
      simp only [lexicographicalCompare]
      by_cases h1 : a < b
      · simp [h1, List.Lex.rel h1]
      · by_cases h2 : b < a
        · simp only [h1, h2, if_false, if_true]
          constructor
          · intro h; simp at h
          · intro h
            cases h with
            | cons h => exact absurd h2 (lt_irrefl _)
            | rel h => exact absurd h h1
        · have : a = b := le_antisymm (not_lt.1 h2) (not_lt.1 h1)
          subst this
          simp only [h1, if_false, ih]
          constructor
          · intro h; exact List.Lex.cons h
          · intro h
            cases h with
            | cons h => exact h
            | rel h => exact absurd h h1

theorem lexicographicalCompare_le_zero (x y : List Char) :
    lexicographicalCompare x y ≤ 0 ↔ x = y ∨ List.Lex (· < ·) x y := by
  rw [← lexicographicalCompare_eq_zero, ← lexicographicalCompare_eq_neg_one]
  have hval : ∀ x y : List Char, lexicographicalCompare x y = 0 ∨
      lexicographicalCompare x y = -1 ∨ lexicographicalCompare x y = 1 := by
    intro x
    induction x with
    | nil => intro y; cases y <;> simp [lexicographicalCompare]
    | cons a as ih =>
      intro y
      cases y with
      | nil => simp [lexicographicalCompare]
      | cons b bs =>
        simp only [lexicographicalCompare]
        split
        · simp
        · split
          · simp
          · exact ih bs
  rcases hval x y with h | h | h <;> simp [h]

theorem lexicographicalCompare_total (x y : List Char)
    (h : ¬ lexicographicalCompare x y ≤ 0) : List.Lex (· < ·) y x := by
  rw [lexicographicalCompare_le_zero] at h
  push_neg at h
  rcases (IsTrichotomous.trichotomous x y : List.Lex (· < ·) x y ∨ x = y ∨
      List.Lex (· < ·) y x) with h1 | h1 | h1
  · exact absurd h1 h.2
  · exact absurd h1 h.1
  · exact h1

theorem lexLe_trans {x y z : List Char} (h1 : LexLe x y) (h2 : LexLe y z) : LexLe x z := by
  rcases h1 with rfl | h1
  · exact h2
  · rcases h2 with rfl | h2
    · exact Or.inr h1
    · exact Or.inr (IsTrans.trans _ _ _ h1 h2)

theorem lex_of_lex_of_lexLe {x y z : List Char} (h1 : List.Lex (· < ·) x y) (h2 : LexLe y z) :
    List.Lex (· < ·) x z := by
  rcases h2 with rfl | h2
  · exact h1
  · exact IsTrans.trans _ _ _ h1 h2

theorem mem_qsortInsert (cmp : List Char → List Char → Int) (x y : List Char)
    (l : List (List Char)) : y ∈ qsortInsert cmp x l ↔ y = x ∨ y ∈ l := by
  induction l with
  | nil => simp [qsortInsert]
  | cons z zs ih =>
    simp only [qsortInsert]
    split
    · simp
    · simp [ih]; tauto

theorem mem_qsort (cmp : List Char → List Char → Int) (y : List Char) (l : List (List Char)) :
    y ∈ qsort cmp l ↔ y ∈ l := by
  induction l with
  | nil => simp [qsort]
  | cons z zs ih => simp [qsort, mem_qsortInsert, ih]

theorem pairwise_qsortInsert (x : List Char) (l : List (List Char))
    (h : l.Pairwise LexLe) : (qsortInsert lexicographicalCompare x l).Pairwise LexLe := by
  induction l with
  | nil => simp [qsortInsert]
  | cons z zs ih =>
    simp only [qsortInsert]
    rw [List.pairwise_cons] at h
    split
    · rename_i hle
      have hxz : LexLe x z := (lexicographicalCompare_le_zero x z).1 hle
      rw [List.pairwise_cons]
      refine ⟨?_, List.pairwise_cons.2 h⟩
      intro w hw
      rcases List.mem_cons.1 hw with rfl | hw
      · exact hxz
      · exact lexLe_trans hxz (h.1 w hw)
    · rename_i hle
      have hzx : LexLe z x := Or.inr (lexicographicalCompare_total x z hle)
      rw [List.pairwise_cons]
      refine ⟨?_, ih h.2⟩
      intro w hw
      rcases (mem_qsortInsert _ x w zs).1 hw with rfl | hw
      · exact hzx
      · exact h.1 w hw

theorem pairwise_qsort (l : List (List Char)) :
    (qsort lexicographicalCompare l).Pairwise LexLe := by
  induction l with
  | nil => simp [qsort]
  | cons z zs ih => exact pairwise_qsortInsert z _ ih

theorem mem_unique (y : List Char) : ∀ l : List (List Char), y ∈ unique l ↔ y ∈ l
  | [] => by simp [unique]
  | [x] => by simp [unique]
  | x :: z :: rest => by
    have ih := mem_unique y (z :: rest)
    simp only [unique]
    split
    · rename_i h; subst h; rw [ih]; simp
    · rw [List.mem_cons, ih]; simp

theorem pairwise_unique : ∀ l : List (List Char), l.Pairwise LexLe →
    (unique l).Pairwise (List.Lex (· < ·))
  | [], _ => by simp [unique]
  | [x], _ => by simp [unique]
  | x :: z :: rest, h => by
    have h' := List.pairwise_cons.1 h
    have ih := pairwise_unique (z :: rest) h'.2
    simp only [unique]
    split
    · exact ih
    · rename_i hne
      rw [List.pairwise_cons]
      refine ⟨?_, ih⟩
      intro w hw
      rw [mem_unique] at hw
      have hxz : List.Lex (· < ·) x z := by
        rcases h'.1 z (List.mem_cons_self _ _) with h1 | h1
        · exact absurd h1 hne
        · exact h1
      rcases List.mem_cons.1 hw with rfl | hw
      · exact hxz
      · exact lex_of_lex_of_lexLe hxz ((List.pairwise_cons.1 h'.2).1 w hw)

/-! ### `phfwdReverse` and `phfwdNonTrivialCount` as a whole -/

theorem phfwdReverse_spec (pf : PhoneForward) {num : List Char}
    (hv : isValidPhnum num = true) :
    ∃ res R1, phfwdReverse pf num =
        some (res, { redirections := pf.redirections, prefixes := R1 }) ∧
      PrunedBy (fun q a => q ∉ dataAt pf.redirections a) pf.prefixes R1 ∧
      (∀ x, x ∈ res.numbers ↔ x = num ∨ ∃ k a, 1 ≤ k ∧ k ≤ num.length ∧
        a ∈ dataAt pf.prefixes (num.take k) ∧ num.take k ∈ dataAt pf.redirections a ∧
        x = a ++ num.drop k) ∧
      res.numbers.Pairwise (List.Lex (· < ·)) ∧ res.size = res.numbers.length := by
  obtain ⟨R1, out, hw, _, hpr, hout⟩ :=
    phfwdReverseWalk_spec pf.redirections num pf.prefixes [] (allSlots_of_valid hv)
  refine ⟨{ size := (unique (qsort lexicographicalCompare (out ++ [num]))).length
            numbers := unique (qsort lexicographicalCompare (out ++ [num])) },
    R1, ?_, ?_, ?_, ?_, ?_⟩
  · unfold phfwdReverse
    simp only [hv, Bool.not_true, Bool.false_eq_true, if_false, hw]
  · exact hpr.mono (fun q a h => by simpa using h)
  · intro x
    simp only [mem_unique, mem_qsort, List.mem_append, List.mem_singleton, hout,
      List.nil_append]
    exact or_comm
  · exact pairwise_unique _ (pairwise_qsort _)
  · rfl

theorem inv_of_prunedBy {pf : PhoneForward} (hI : Inv pf)
    {dead : List Char → List Char → Prop} {R1 : TrieNode}
    (hp : PrunedBy dead pf.prefixes R1)
    (hd : ∀ a t, t ∈ dataAt pf.redirections a → ¬ dead t a) :
    Inv { redirections := pf.redirections, prefixes := R1 } where
  countF := hI.countF
  countR := hp.countOK hI.countR
  single := hI.single
  link := fun a t h => hp.mem_of_not_dead (hI.link a t h) (hd a t h)
  validF := hI.validF
  validR := fun t a h => hI.validR t a (hp.mem_of_mem h)

theorem phfwdNonTrivialCount_spec {W : Nat} {pf pf1 : PhoneForward} {set : Option (List Char)}
    {len n : Nat} (h : phfwdNonTrivialCount W (some pf) set len = some (n, some pf1)) :
    pf1.redirections = pf.redirections ∧
      PrunedBy (fun _ a => dataAt pf.redirections a = []) pf.prefixes pf1.prefixes := by
  unfold phfwdNonTrivialCount at h
  cases set with
  | none =>
    simp only [Option.some.injEq, Prod.mk.injEq] at h
    rw [← h.2]
    exact ⟨rfl, prunedBy_refl _ _⟩
  | some s =>
    simp only at h
    split at h
    · simp only [Option.some.injEq, Prod.mk.injEq] at h
      rw [← h.2]
      exact ⟨rfl, prunedBy_refl _ _⟩
    · split at h
      · simp only [Option.some.injEq, Prod.mk.injEq] at h
        rw [← h.2]
        exact ⟨rfl, prunedBy_refl _ _⟩
      · cases haux : phfwdNonTrivialCountAux W pf.redirections (numberMask s) len (len + 1)
            pf.prefixes 0 with
        | none => simp [haux] at h
        | some r =>
          obtain ⟨m, R1⟩ := r
          simp only [haux, Option.some.injEq, Prod.mk.injEq] at h
          rw [← h.2]
          exact ⟨rfl, phfwdNonTrivialCountAux_pruned W _ _ len _ _ _ _ _ haux⟩

/-- Every reachable container satisfies the invariant. -/
theorem reachable_inv {pf : PhoneForward} (h : Reachable pf) : Inv pf := by
  induction h with
  | new => exact inv_phfwdNew
  | @add pf pf1 num1 num2 r _ hadd ih =>
    by_cases hc : isValidPhnum num1 = true ∧ isValidPhnum num2 = true ∧ num1 ≠ num2
    · obtain ⟨F1, R1, h1, _, _, _, hI⟩ := phfwdAdd_spec ih hc.1 hc.2.1 hc.2.2
      rw [h1] at hadd
      simp only [Option.some.injEq, Prod.mk.injEq] at hadd
      rw [← hadd.2]; exact hI
    · rw [phfwdAdd_invalid hc] at hadd
      simp only [Option.some.injEq, Prod.mk.injEq] at hadd
      rw [← hadd.2]; exact ih
  | @remove pf pf1 num _ hrem ih =>
    by_cases hv : isValidPhnum num = true
    · obtain ⟨F1, h1, _, hI⟩ := phfwdRemove_spec ih hv
      rw [h1] at hrem
      simp only [Option.some.injEq] at hrem
      rw [← hrem]; exact hI
    · unfold phfwdRemove at hrem
      simp only [hv, Bool.not_false, if_true, Option.some.injEq] at hrem
      rw [← hrem]; exact ih
  | @reverse pf pf1 num res _ hrev ih =>
    by_cases hv : isValidPhnum num = true
    · obtain ⟨res1, R1, h1, hp, _⟩ := phfwdReverse_spec pf hv
      rw [h1] at hrev
      simp only [Option.some.injEq, Prod.mk.injEq] at hrev
      rw [← hrev.2]
      exact inv_of_prunedBy ih hp (fun a t h hd => hd h)
    · unfold phfwdReverse at hrev
      simp only [hv, Bool.not_false, if_true, Option.some.injEq, Prod.mk.injEq] at hrev
      rw [← hrev.2]; exact ih
  | @count pf pf1 W set len n _ hcnt ih =>
    obtain ⟨h1, hp⟩ := phfwdNonTrivialCount_spec hcnt
    have := inv_of_prunedBy ih hp (fun a t h hd => by rw [hd] at h; simp at h)
    rw [← h1] at this
    exact this

/-! ### `phfwdGet` -/

theorem phfwdGetWalk_spec :
    ∀ (rest : List Char) (cur : TrieNode) (i : Nat) (last : Option (TrieNode × Nat)),
      AllSlots rest →
      ∃ r, phfwdGetWalk cur rest i last = some r ∧
        ((r = last ∧ ∀ j, 1 ≤ j → j ≤ rest.length → dataAt cur (rest.take j) = []) ∨
         (∃ k n, 1 ≤ k ∧ k ≤ rest.length ∧ nodeAt cur (rest.take k) = some n ∧ n.data ≠ [] ∧
            r = some (n, i + k) ∧
            ∀ j, k < j → j ≤ rest.length → dataAt cur (rest.take j) = [])) := by
  intro rest
  induction rest with
  | nil =>
    intro cur i last _
    refine ⟨last, rfl, Or.inl ⟨rfl, ?_⟩⟩
    intro j h1 h2
    simp at h2
    omega
  | cons c cs ih =>
    intro cur i last hs
    have hcs : AllSlots cs := fun d hd => hs d (List.mem_cons_of_mem _ hd)
    obtain ⟨k0, hk0⟩ := Option.isSome_iff_exists.1 (hs c (List.mem_cons_self _ _))
    cases hn : cur.childs k0 with
    | none =>
      refine ⟨last, by simp [phfwdGetWalk, hk0, hn], Or.inl ⟨rfl, ?_⟩⟩
      intro j h1 _
      obtain ⟨j, rfl⟩ : ∃ m, j = m + 1 := ⟨j - 1, by omega⟩
      rw [List.take_succ_cons, dataAt_cons_none _ hk0 hn]
    | some next =>
      have hstep : ∀ j, (c :: cs).take (j + 1) = c :: cs.take j := fun j => List.take_succ_cons
      by_cases hd : next.data.isEmpty = true
      · obtain ⟨r, hr, hcase⟩ := ih next (i + 1) last hcs
        refine ⟨r, by simp [phfwdGetWalk, hk0, hn, hd, hr], ?_⟩
        rcases hcase with ⟨h1, h2⟩ | ⟨k, n, h1, h2, h3, h4, h5, h6⟩
        · left
          refine ⟨h1, ?_⟩
          intro j hj1 hj2
          obtain ⟨j, rfl⟩ : ∃ m, j = m + 1 := ⟨j - 1, by omega⟩
          rw [hstep, dataAt_cons_some _ hk0 hn]
          by_cases hj : j = 0
          · subst hj
            simpa [dataAt_nil] using List.isEmpty_iff.1 hd
          · exact h2 j (by omega) (by simpa using hj2)
        · right
          refine ⟨k + 1, n, by omega, by simpa using h2, ?_, h4, ?_, ?_⟩
          · rw [hstep, nodeAt_cons_some _ hk0 hn]; exact h3
          · rw [h5]; congr 2; omega
          · intro j hj1 hj2
            obtain ⟨j, rfl⟩ : ∃ m, j = m + 1 := ⟨j - 1, by omega⟩
            rw [hstep, dataAt_cons_some _ hk0 hn]
            exact h6 j (by omega) (by simpa using hj2)
      · obtain ⟨r, hr, hcase⟩ := ih next (i + 1) (some (next, i + 1)) hcs
        refine ⟨r, by simp [phfwdGetWalk, hk0, hn, hd, hr], ?_⟩
        right
        rcases hcase with ⟨h1, h2⟩ | ⟨k, n, h1, h2, h3, h4, h5, h6⟩
        · refine ⟨1, next, le_refl _, by simp, ?_, ?_, h1, ?_⟩
          · rw [hstep, nodeAt_cons_some _ hk0 hn]; rfl
          · intro h; exact hd (by simp [h])
          · intro j hj1 hj2
            obtain ⟨j, rfl⟩ : ∃ m, j = m + 1 := ⟨j - 1, by omega⟩
            rw [hstep, dataAt_cons_some _ hk0 hn]
            exact h2 j (by omega) (by simpa using hj2)
        · refine ⟨k + 1, n, by omega, by simpa using h2, ?_, h4, ?_, ?_⟩
          · rw [hstep, nodeAt_cons_some _ hk0 hn]; exact h3
          · rw [h5]; congr 2; omega
          · intro j hj1 hj2
            obtain ⟨j, rfl⟩ : ∃ m, j = m + 1 := ⟨j - 1, by omega⟩
            rw [hstep, dataAt_cons_some _ hk0 hn]
            exact h6 j (by omega) (by simpa using hj2)

/-- The result of `phfwdGet` on a valid number, for any container: either no prefix of
`num` holds a payload and the result is `num`, or the result is built from the head of
the data list at the longest prefix that holds one. -/
theorem phfwdGet_spec (pf : PhoneForward) {num : List Char} (hv : isValidPhnum num = true) :
    ∃ s, phfwdGet pf num = some { size := 1, numbers := [s] } ∧
      ((s = num ∧ ∀ j, j ≤ num.length → dataAt pf.redirections (num.take j) = []) ∨
       (∃ k, k ≤ num.length ∧ dataAt pf.redirections (num.take k) ≠ [] ∧
          s = (dataAt pf.redirections (num.take k)).headD [] ++ num.drop k ∧
          ∀ j, k < j → j ≤ num.length → dataAt pf.redirections (num.take j) = [])) := by
  obtain ⟨r, hr, hcase⟩ := phfwdGetWalk_spec num pf.redirections 0
    (if pf.redirections.data.isEmpty then none else some (pf.redirections, 0))
    (allSlots_of_valid hv)
  have hget : phfwdGet pf num = some { size := 1, numbers :=
      [(r.elim [] (fun p => p.1.data.headD [])) ++ num.drop (r.elim 0 (fun p => p.2))] } := by
    unfold phfwdGet
    simp only [hv, Bool.not_true, Bool.false_eq_true, if_false, hr]
    cases r with
    | none => rfl
    | some p => cases p; rfl
  refine ⟨_, hget, ?_⟩
  rcases hcase with ⟨h1, h2⟩ | ⟨k, n, h1, h2, h3, h4, h5, h6⟩
  · by_cases hd : pf.redirections.data.isEmpty = true
    · left
      rw [h1, if_pos hd]
      refine ⟨by simp, ?_⟩
      intro j hj
      by_cases hj0 : j = 0
      · subst hj0
        simpa [dataAt_nil] using List.isEmpty_iff.1 hd
      · exact h2 j (by omega) hj
    · right
      rw [h1, if_neg hd]
      refine ⟨0, by omega, ?_, ?_, ?_⟩
      · simpa [dataAt_nil] using hd
      · simp [dataAt_nil]
      · intro j hj1 hj2
        exact h2 j (by omega) hj2
  · right
    rw [h5]
    refine ⟨k, h2, ?_, ?_, h6⟩
    · rw [dataAt_eq_of_nodeAt h3]; exact h4
    · rw [dataAt_eq_of_nodeAt h3]; simp

/-- The longest-match rule in the form used below: if the data list at `num[0..k)` is
`[t]` and no longer prefix of `num` holds a payload, the result is `t ∥ num[k..]`. -/
theorem phfwdGet_of_longest (pf : PhoneForward) {num t : List Char}
    (hv : isValidPhnum num = true) {k : Nat} (hk : k ≤ num.length)
    (ht : (dataAt pf.redirections (num.take k)).head? = some t)
    (hmax : ∀ j, k < j → j ≤ num.length → dataAt pf.redirections (num.take j) = []) :
    phfwdGet pf num = some { size := 1, numbers := [t ++ num.drop k] } := by
  obtain ⟨s, hs, hcase⟩ := phfwdGet_spec pf hv
  rw [hs]
  rcases hcase with ⟨_, h2⟩ | ⟨k0, h1, h2, h3, h4⟩
  · rw [h2 k hk] at ht; simp at ht
  · have hkk : k = k0 := by
      rcases Nat.lt_trichotomy k k0 with h | h | h
      · exact absurd (hmax k0 h h1) h2
      · exact h
      · rw [h4 k h hk] at ht; simp at ht
    subst hkk
    rw [h3]
    cases hd : dataAt pf.redirections (num.take k) with
    | nil => exact absurd hd h2
    | cons u us =>
      rw [hd] at ht
      simp only [List.head?_cons, Option.some.injEq] at ht
      subst ht
      rfl

theorem phfwdGet_of_none (pf : PhoneForward) {num : List Char}
    (hv : isValidPhnum num = true)
    (hnone : ∀ j, j ≤ num.length → dataAt pf.redirections (num.take j) = []) :
    phfwdGet pf num = some { size := 1, numbers := [num] } := by
  obtain ⟨s, hs, hcase⟩ := phfwdGet_spec pf hv
  rw [hs]
  rcases hcase with ⟨h1, _⟩ | ⟨k0, h1, h2, _, _⟩
  · rw [h1]
  · exact absurd (hnone k0 h1) h2

theorem head?_of_mem_of_single {l : List (List Char)} {t : List Char} (hl : l.length ≤ 1)
    (ht : t ∈ l) : l.head? = some t := by
  cases l with
  | nil => simp at ht
  | cons u us =>
    cases us with
    | nil => simp at ht; simp [ht]
    | cons _ _ => simp at hl

theorem reachable_afterAdd {pf : PhoneForward} (h : Reachable pf) (a b : List Char) :
    Reachable (afterAdd pf a b) := by
  unfold afterAdd
  cases hadd : phfwdAdd pf a b with
  | none => exact h
  | some r => exact Reachable.add a b r.1 h hadd

theorem reachable_afterRemove {pf : PhoneForward} (h : Reachable pf) (a : List Char) :
    Reachable (afterRemove pf a) := by
  unfold afterRemove
  cases hrem : phfwdRemove pf a with
  | none => exact h
  | some r => exact Reachable.remove a h hrem

theorem reachable_demoLongest : Reachable demoLongest :=
  reachable_afterAdd (reachable_afterAdd Reachable.new _ _) _ _

theorem reachable_demoShadow : Reachable demoShadow :=
  reachable_afterAdd (reachable_afterAdd Reachable.new _ _) _ _

theorem reachable_demoSubtree : Reachable demoSubtree :=
  reachable_afterAdd (reachable_afterAdd Reachable.new _ _) _ _

theorem reachable_demoSorted : Reachable demoSorted :=
  reachable_afterAdd (reachable_afterAdd Reachable.new _ _) _ _

theorem reachable_demoStale : Reachable demoStale :=
  reachable_afterAdd (reachable_afterRemove (reachable_afterAdd Reachable.new _ _) _) _ _

theorem phfwdAdd_of_success {pf pf1 : PhoneForward} {a b : List Char}
    (h : phfwdAdd pf a b = some (true, pf1)) :
    isValidPhnum a = true ∧ isValidPhnum b = true ∧ a ≠ b ∧
      ∀ q, dataAt pf1.redirections q = if q = a then [b] else dataAt pf.redirections q := by
  by_cases hc : isValidPhnum a = true ∧ isValidPhnum b = true ∧ a ≠ b
  · refine ⟨hc.1, hc.2.1, hc.2.2, ?_⟩
    obtain ⟨F1, hF1, hFd, _⟩ :=
      trieAddText_spec pf.redirections a b false (allSlots_of_valid hc.1)
    simp only [Bool.false_eq_true, if_false, addedData_replace] at hF1 hFd
    unfold phfwdAdd at h
    have hcond : (!isValidPhnum a || !isValidPhnum b || decide (a = b)) = false := by
      simp [hc.1, hc.2.1, hc.2.2]
    simp only [hcond, Bool.false_eq_true, if_false, hF1] at h
    split at h
    · simp at h
    · split at h
      · simp at h
      · simp only [Option.some.injEq, Prod.mk.injEq, true_and] at h
        rw [← h]
        exact hFd
  · rw [phfwdAdd_invalid hc] at h
    simp at h

theorem take_append_length (a s : List Char) : (a ++ s).take a.length = a := by
  simp

theorem isValidPhnum_append {a s : List Char} (ha : isValidPhnum a = true)
    (hs : AllSlots s) : isValidPhnum (a ++ s) = true := by
  rw [isValidPhnum_iff]
  refine ⟨by simp [ne_nil_of_valid ha], ?_⟩
  intro c hc
  rcases List.mem_append.1 hc with h | h
  · exact allSlots_of_valid ha c h
  · exact hs c h

theorem allSlots_drop {n : List Char} (h : AllSlots n) (k : Nat) : AllSlots (n.drop k) :=
  fun c hc => h c (List.mem_of_mem_drop hc)

/-- Adding a forwarding for the same source twice leaves the trie that the second
addition alone produces. -/
theorem trieAddText_replace_twice :
    ∀ (text : List Char) (T T1 T2 T3 : TrieNode) (b c : List Char)
      (p1 p2 p3 : List (List Char)),
      trieAddText T text b false = some (T1, p1) →
      trieAddText T1 text c false = some (T2, p2) →
      trieAddText T text c false = some (T3, p3) → T2 = T3 := by
  intro text
  induction text with
  | nil =>
    intro T T1 T2 T3 b c p1 p2 p3 h1 h2 h3
    have e1 : T1 = { T with data := [b] } := by
      simp only [trieAddText] at h1
      split at h1
      · simp only [Option.some.injEq, Prod.mk.injEq] at h1; exact h1.1.symm
      · simp only [Bool.false_eq_true, if_false, Option.some.injEq, Prod.mk.injEq] at h1
        exact h1.1.symm
    have e3 : T3 = { T with data := [c] } := by
      simp only [trieAddText] at h3
      split at h3
      · simp only [Option.some.injEq, Prod.mk.injEq] at h3; exact h3.1.symm
      · simp only [Bool.false_eq_true, if_false, Option.some.injEq, Prod.mk.injEq] at h3
        exact h3.1.symm
    have e2 : T2 = { T1 with data := [c] } := by
      simp only [trieAddText] at h2
      split at h2
      · simp only [Option.some.injEq, Prod.mk.injEq] at h2; exact h2.1.symm
      · simp only [Bool.false_eq_true, if_false, Option.some.injEq, Prod.mk.injEq] at h2
        exact h2.1.symm
    rw [e2, e3, e1]
  | cons d ds ih =>
    intro T T1 T2 T3 b c p1 p2 p3 h1 h2 h3
    cases hs : slot d with
    | none => simp [trieAddText, hs] at h1
    | some i =>
      cases hn : T.childs i with
      | none =>
        simp only [trieAddText, hs, hn] at h1 h3
        cases hN1 : trieAddText trieNodeNew ds b false with
        | none => simp [hN1] at h1
        | some r1 =>
          obtain ⟨N1, q1⟩ := r1
          cases hN3 : trieAddText trieNodeNew ds c false with
          | none => simp [hN3] at h3
          | some r3 =>
            obtain ⟨N3, q3⟩ := r3
            simp only [hN1, Option.some.injEq, Prod.mk.injEq] at h1
            simp only [hN3, Option.some.injEq, Prod.mk.injEq] at h3
            have hT1 : T1.childs i = some N1 := by rw [← h1.1]; simp
            simp only [trieAddText, hs, hT1] at h2
            cases hN2 : trieAddText N1 ds c false with
            | none => simp [hN2] at h2
            | some r2 =>
              obtain ⟨N2, q2⟩ := r2
              simp only [hN2, Option.some.injEq, Prod.mk.injEq] at h2
              have := ih trieNodeNew N1 N2 N3 b c q1 q2 q3 hN1 hN2 hN3
              rw [← h2.1, ← h3.1, ← h1.1, this]
              simp
      | some next =>
        simp only [trieAddText, hs, hn] at h1 h3
        cases hN1 : trieAddText next ds b false with
        | none => simp [hN1] at h1
        | some r1 =>
          obtain ⟨N1, q1⟩ := r1
          cases hN3 : trieAddText next ds c false with
          | none => simp [hN3] at h3
          | some r3 =>
            obtain ⟨N3, q3⟩ := r3
            simp only [hN1, Option.some.injEq, Prod.mk.injEq] at h1
            simp only [hN3, Option.some.injEq, Prod.mk.injEq] at h3
            have hT1 : T1.childs i = some N1 := by rw [← h1.1]; simp
            simp only [trieAddText, hs, hT1] at h2
            cases hN2 : trieAddText N1 ds c false with
            | none => simp [hN2] at h2
            | some r2 =>
              obtain ⟨N2, q2⟩ := r2
              simp only [hN2, Option.some.injEq, Prod.mk.injEq] at h2
              have := ih next N1 N2 N3 b c q1 q2 q3 hN1 hN2 hN3
              rw [← h2.1, ← h3.1, ← h1.1, this]
              simp

/-! ## Properties of the public operations -/

/-- C1: in every reachable container and for every valid number `n`, `phfwdGet` returns
a sequence of exactly one string.  If `k` is the length of the longest prefix of `n` at
which the forward trie holds a payload and `t` is that payload, the string is
`t ∥ n[k..]`; if no prefix of `n` holds a payload, the string is `n`. -/
theorem phfwdGet_longest_match (pf : PhoneForward) (hR : Reachable pf) (n : List Char)
    (hv : isValidPhnum n = true) :
    (∃ s, phfwdGet pf n = some { size := 1, numbers := [s] }) ∧
    (∀ k t, k ≤ n.length → t ∈ dataAt pf.redirections (n.take k) →
      (∀ j, k < j → j ≤ n.length → dataAt pf.redirections (n.take j) = []) →
      phfwdGet pf n = some { size := 1, numbers := [t ++ n.drop k] }) ∧
    ((∀ j, j ≤ n.length → dataAt pf.redirections (n.take j) = []) →
      phfwdGet pf n = some { size := 1, numbers := [n] }) := by
  have hI := reachable_inv hR
  refine ⟨?_, ?_, ?_⟩
  · obtain ⟨s, hs, _⟩ := phfwdGet_spec pf hv
    exact ⟨s, hs⟩
  · intro k t hk ht hmax
    exact phfwdGet_of_longest pf hv hk (head?_of_mem_of_single (hI.single _) ht) hmax
  · exact phfwdGet_of_none pf hv

/-- Witness for C1: with `12 → 500` and `1234 → 900`, the number `123456` is rewritten at
its longest stored prefix `1234`. -/
theorem phfwdGet_longest_match_witness :
    Reachable demoLongest ∧ isValidPhnum "123456".toList = true ∧
      phfwdGet demoLongest "123456".toList =
        some { size := 1, numbers := ["900".toList ++ "123456".toList.drop 4] } :=
  ⟨reachable_demoLongest, by decide,
    (phfwdGet_longest_match demoLongest reachable_demoLongest "123456".toList
      (by decide)).2.1 4 "900".toList (by decide) (by decide)
      (by intro j h1 h2
          have h3 : j ≤ 6 := h2
          interval_cases j <;> rfl)⟩

/-- C2: immediately after a successful `phfwdAdd(pf, a, b)`, for every string `s` such
that `a ∥ s` is a valid number and no source stored in `F` that is longer than `a` is a
prefix of `a ∥ s`, `phfwdGet(pf, a ∥ s)` returns `[b ∥ s]`; in particular
`phfwdGet(pf, a)` returns `[b]`. -/
theorem phfwdGet_after_phfwdAdd (pf pf1 : PhoneForward) (a b : List Char)
    (hadd : phfwdAdd pf a b = some (true, pf1)) :
    (∀ s, isValidPhnum (a ++ s) = true →
      (∀ j, a.length < j → j ≤ (a ++ s).length →
        dataAt pf1.redirections ((a ++ s).take j) = []) →
      phfwdGet pf1 (a ++ s) = some { size := 1, numbers := [b ++ s] }) ∧
    phfwdGet pf1 a = some { size := 1, numbers := [b] } := by
  obtain ⟨ha, _, _, hd⟩ := phfwdAdd_of_success hadd
  have main : ∀ s, isValidPhnum (a ++ s) = true →
      (∀ j, a.length < j → j ≤ (a ++ s).length →
        dataAt pf1.redirections ((a ++ s).take j) = []) →
      phfwdGet pf1 (a ++ s) = some { size := 1, numbers := [b ++ s] } := by
    intro s hs hlong
    have := phfwdGet_of_longest pf1 (t := b) hs (k := a.length) (by simp)
      (by rw [take_append_length, hd a]; simp) hlong
    simpa using this
  refine ⟨main, ?_⟩
  have := main [] (by simpa using ha) (by
    intro j h1 h2
    simp at h2
    omega)
  simpa using this

/-- Witness for C2: after adding `12 → 500` to the empty container, `1299` is forwarded
to `50099`. -/
theorem phfwdGet_after_phfwdAdd_witness :
    phfwdAdd phfwdNew "12".toList "500".toList =
        some (true, afterAdd phfwdNew "12".toList "500".toList) ∧
      phfwdGet (afterAdd phfwdNew "12".toList "500".toList) ("12".toList ++ "99".toList) =
        some { size := 1, numbers := ["500".toList ++ "99".toList] } :=
  ⟨rfl,
    (phfwdGet_after_phfwdAdd phfwdNew (afterAdd phfwdNew "12".toList "500".toList)
      "12".toList "500".toList rfl).1 "99".toList (by decide)
      (by intro j h1 h2
          have h3 : 2 < j := h1
          have h4 : j ≤ 4 := h2
          interval_cases j <;> rfl)⟩

/-- C3: in every reachable container, for all valid numbers `x` and `n`, if
`phfwdGet(pf, x)` returns `[n]` then `x` is an element of `phfwdReverse(pf, n)`. -/
theorem phfwdReverse_contains_sources (pf : PhoneForward) (hR : Reachable pf)
    (x n : List Char) (hx : isValidPhnum x = true) (hn : isValidPhnum n = true)
    (hget : phfwdGet pf x = some { size := 1, numbers := [n] }) :
    ∃ res pf1, phfwdReverse pf n = some (res, pf1) ∧ x ∈ res.numbers := by
  have hI := reachable_inv hR
  obtain ⟨res, R1, hrev, _, hmem, _, _⟩ := phfwdReverse_spec pf hn
  refine ⟨res, _, hrev, ?_⟩
  rw [hmem]
  obtain ⟨s, hs, hcase⟩ := phfwdGet_spec pf hx
  rw [hs] at hget
  have hsn : s = n := by simpa using hget
  subst hsn
  rcases hcase with ⟨h1, _⟩ | ⟨k, hk, hne, hs', _⟩
  · left; exact h1.symm
  · right
    cases hd : dataAt pf.redirections (x.take k) with
    | nil => exact absurd hd hne
    | cons t rest =>
      rw [hd] at hs'
      simp only [List.headD_cons] at hs'
      have htm : t ∈ dataAt pf.redirections (x.take k) := by rw [hd]; simp
      have htv := (hI.validF _ _ htm).2
      have hlen : 1 ≤ t.length := by
        have := ne_nil_of_valid htv
        cases t with
        | nil => exact absurd rfl this
        | cons _ _ => simp
      refine ⟨t.length, x.take k, hlen, by rw [hs']; simp, ?_, ?_, ?_⟩
      · rw [hs', take_append_length]; exact hI.link _ _ htm
      · rw [hs', take_append_length]; exact htm
      · rw [hs']; simp

/-- Witness for C3: with `12 → 500` and `1234 → 900`, `1299` is forwarded to `50099` and
is found by the reverse lookup of `50099`. -/
theorem phfwdReverse_contains_sources_witness :
    Reachable demoLongest ∧
      phfwdGet demoLongest "1299".toList = some { size := 1, numbers := ["50099".toList] } ∧
      ∃ res pf1, phfwdReverse demoLongest "50099".toList = some (res, pf1) ∧
        "1299".toList ∈ res.numbers :=
  ⟨reachable_demoLongest, by decide,
    phfwdReverse_contains_sources demoLongest reachable_demoLongest "1299".toList
      "50099".toList (by decide) (by decide) (by decide)⟩

/-- C4, as stated, fails.  With the single forwarding `1 → 2` the reverse lookup of `1`
contains `1` itself, which is forwarded to `2`; with `1 → 2` and `11 → 3` the reverse
lookup of `21` contains `11`, which the longer source `11` forwards to `3`. -/
theorem phfwdReverse_elements_forward_counterexample :
    (Reachable (afterAdd phfwdNew "1".toList "2".toList) ∧
      isValidPhnum "1".toList = true ∧
      (∃ res pf1, phfwdReverse (afterAdd phfwdNew "1".toList "2".toList) "1".toList =
          some (res, pf1) ∧ "1".toList ∈ res.numbers) ∧
      phfwdGet (afterAdd phfwdNew "1".toList "2".toList) "1".toList =
        some { size := 1, numbers := ["2".toList] } ∧
      phfwdGet (afterAdd phfwdNew "1".toList "2".toList) "1".toList ≠
        some { size := 1, numbers := ["1".toList] }) ∧
    (Reachable demoShadow ∧ isValidPhnum "21".toList = true ∧
      (∃ res pf1, phfwdReverse demoShadow "21".toList = some (res, pf1) ∧
        "11".toList ∈ res.numbers) ∧
      phfwdGet demoShadow "11".toList = some { size := 1, numbers := ["3".toList] } ∧
      phfwdGet demoShadow "11".toList ≠ some { size := 1, numbers := ["21".toList] }) :=
  ⟨⟨reachable_afterAdd Reachable.new _ _, by decide,
      ⟨_, _, rfl, by decide⟩, by decide, by decide⟩,
    ⟨reachable_demoShadow, by decide, ⟨_, _, rfl, by decide⟩, by decide, by decide⟩⟩

/-- C4 amended: in every reachable container, for every valid `n`, every `x` in
`phfwdReverse(pf, n)` is either `n` itself or of the form `a ∥ s` with `n = p ∥ s` for a
forwarding `a → p` stored in `F`.  In the second case `phfwdGet(pf, x)` returns `[n]`
whenever no source stored in `F` that is longer than `a` is a prefix of `x`; in the
first case `phfwdGet(pf, n)` returns `[n]` whenever no prefix of `n` is a source stored
in `F`. -/
theorem phfwdReverse_elements_forward (pf : PhoneForward) (hR : Reachable pf)
    (n : List Char) (hv : isValidPhnum n = true) :
    ∃ res pf1, phfwdReverse pf n = some (res, pf1) ∧ ∀ x ∈ res.numbers,
      (x = n ∧ ((∀ j, j ≤ n.length → dataAt pf.redirections (n.take j) = []) →
        phfwdGet pf x = some { size := 1, numbers := [n] })) ∨
      (∃ a p s, x = a ++ s ∧ n = p ++ s ∧ p ∈ dataAt pf.redirections a ∧
        ((∀ j, a.length < j → j ≤ x.length → dataAt pf.redirections (x.take j) = []) →
          phfwdGet pf x = some { size := 1, numbers := [n] })) := by
  have hI := reachable_inv hR
  obtain ⟨res, R1, hrev, _, hmem, _, _⟩ := phfwdReverse_spec pf hv
  refine ⟨res, _, hrev, ?_⟩
  intro x hx
  rcases (hmem x).1 hx with rfl | ⟨k, a, _, _, _, hst, rfl⟩
  · left
    exact ⟨rfl, phfwdGet_of_none pf hv⟩
  · right
    refine ⟨a, n.take k, n.drop k, rfl, (List.take_append_drop k n).symm, hst, ?_⟩
    intro hlong
    have hav := (hI.validF _ _ hst).1
    have hxv : isValidPhnum (a ++ n.drop k) = true :=
      isValidPhnum_append hav (allSlots_drop (allSlots_of_valid hv) k)
    have := phfwdGet_of_longest pf (t := n.take k) hxv (k := a.length) (by simp)
      (by rw [take_append_length]; exact head?_of_mem_of_single (hI.single _) hst) hlong
    simpa using this

/-- Witness for C4 amended: the reverse lookup of `21` with `1 → 2` and `11 → 3`. -/
theorem phfwdReverse_elements_forward_witness :
    Reachable demoShadow ∧ isValidPhnum "21".toList = true ∧
      ∃ res pf1, phfwdReverse demoShadow "21".toList = some (res, pf1) ∧ ∀ x ∈ res.numbers,
        (x = "21".toList ∧
          ((∀ j, j ≤ "21".toList.length →
              dataAt demoShadow.redirections ("21".toList.take j) = []) →
            phfwdGet demoShadow x = some { size := 1, numbers := ["21".toList] })) ∨
        (∃ a p s, x = a ++ s ∧ "21".toList = p ++ s ∧ p ∈ dataAt demoShadow.redirections a ∧
          ((∀ j, a.length < j → j ≤ x.length →
              dataAt demoShadow.redirections (x.take j) = []) →
            phfwdGet demoShadow x = some { size := 1, numbers := ["21".toList] })) :=
  ⟨reachable_demoShadow, by decide,
    phfwdReverse_elements_forward demoShadow reachable_demoShadow "21".toList (by decide)⟩

/-- C5: for every valid `n` (in every container, reachable or not), each element of
`phfwdReverse(pf, n)` is either `n` itself or `a ∥ n[k..]` where `p = n[0..k)` is a
non-empty prefix of `n` and `F`, at the time of the call, stores the payload `p` at path
`a`.  So no result comes from a source whose forwarding is no longer in `F` or has a
different target. -/
theorem phfwdReverse_sound (pf : PhoneForward) (n : List Char)
    (hv : isValidPhnum n = true) :
    ∃ res pf1, phfwdReverse pf n = some (res, pf1) ∧ ∀ x ∈ res.numbers,
      x = n ∨ ∃ k a, 1 ≤ k ∧ k ≤ n.length ∧ n.take k ∈ dataAt pf.redirections a ∧
        x = a ++ n.drop k := by
  obtain ⟨res, R1, hrev, _, hmem, _, _⟩ := phfwdReverse_spec pf hv
  refine ⟨res, _, hrev, ?_⟩
  intro x hx
  rcases (hmem x).1 hx with h | ⟨k, a, h1, h2, _, h4, h5⟩
  · exact Or.inl h
  · exact Or.inr ⟨k, a, h1, h2, h4, h5⟩

/-- Witness for C5: the reverse lookup of `900` with `12 → 500` and `1234 → 900`. -/
theorem phfwdReverse_sound_witness :
    isValidPhnum "900".toList = true ∧
      ∃ res pf1, phfwdReverse demoLongest "900".toList = some (res, pf1) ∧ ∀ x ∈ res.numbers,
        x = "900".toList ∨ ∃ k a, 1 ≤ k ∧ k ≤ "900".toList.length ∧
          "900".toList.take k ∈ dataAt demoLongest.redirections a ∧
          x = a ++ "900".toList.drop k :=
  ⟨by decide, phfwdReverse_sound demoLongest "900".toList (by decide)⟩

/-- C6: in every reachable container, for every forwarding `a → p` stored in `F` and
every valid `n` that has `p` as a prefix, `a ∥ n[|p|..]` is an element of
`phfwdReverse(pf, n)`. -/
theorem phfwdReverse_complete (pf : PhoneForward) (hR : Reachable pf) (a p n : List Char)
    (hst : p ∈ dataAt pf.redirections a) (hv : isValidPhnum n = true) (hpre : p <+: n) :
    ∃ res pf1, phfwdReverse pf n = some (res, pf1) ∧ a ++ n.drop p.length ∈ res.numbers := by
  have hI := reachable_inv hR
  obtain ⟨res, R1, hrev, _, hmem, _, _⟩ := phfwdReverse_spec pf hv
  refine ⟨res, _, hrev, ?_⟩
  rw [hmem]
  right
  have hpv := (hI.validF _ _ hst).2
  have hlen : 1 ≤ p.length := by
    have := ne_nil_of_valid hpv
    cases p with
    | nil => exact absurd rfl this
    | cons _ _ => simp
  have htake : n.take p.length = p := List.prefix_iff_eq_take.1 hpre ▸ rfl
  refine ⟨p.length, a, hlen, hpre.length_le, ?_, ?_, rfl⟩
  · rw [htake]; exact hI.link _ _ hst
  · rw [htake]; exact hst

/-- Witness for C6: `12 → 500` is stored, so `127` is in the reverse lookup of `5007`. -/
theorem phfwdReverse_complete_witness :
    Reachable demoLongest ∧ "500".toList ∈ dataAt demoLongest.redirections "12".toList ∧
      isValidPhnum "5007".toList = true ∧ "500".toList <+: "5007".toList ∧
      ∃ res pf1, phfwdReverse demoLongest "5007".toList = some (res, pf1) ∧
        "12".toList ++ "5007".toList.drop "500".toList.length ∈ res.numbers :=
  ⟨reachable_demoLongest, by decide, by decide, ⟨"7".toList, rfl⟩,
    phfwdReverse_complete demoLongest reachable_demoLongest "12".toList "500".toList
      "5007".toList (by decide) (by decide) ⟨"7".toList, rfl⟩⟩

/-- C7: in every reachable container and for every valid `p`, `phfwdRemove(pf, p)`
leaves in `F` exactly the previous forwardings whose source does not have `p` as a
prefix: the data list at every path below `p` (`p` included) is empty and the data list
at every other path is unchanged. -/
theorem phfwdRemove_restricts (pf : PhoneForward) (hR : Reachable pf) (p : List Char)
    (hv : isValidPhnum p = true) :
    ∃ pf1, phfwdRemove pf p = some pf1 ∧
      ∀ q, dataAt pf1.redirections q = if p <+: q then [] else dataAt pf.redirections q := by
  obtain ⟨F1, h1, h2, _⟩ := phfwdRemove_spec (reachable_inv hR) hv
  exact ⟨_, h1, h2⟩

/-- Witness for C7: removing `12` from the container with `12 → 34` and `125 → 99`. -/
theorem phfwdRemove_restricts_witness :
    Reachable demoSubtree ∧ isValidPhnum "12".toList = true ∧
      ∃ pf1, phfwdRemove demoSubtree "12".toList = some pf1 ∧
        ∀ q, dataAt pf1.redirections q =
          if "12".toList <+: q then [] else dataAt demoSubtree.redirections q :=
  ⟨reachable_demoSubtree, by decide,
    phfwdRemove_restricts demoSubtree reachable_demoSubtree "12".toList (by decide)⟩

/-- C8: for all valid `a`, `b`, `c` with `a ≠ b` and `a ≠ c` and every reachable
container, both sequences of additions succeed and the forward trie after
`phfwdAdd(pf, a, b); phfwdAdd(pf, a, c)` equals the forward trie after
`phfwdAdd(pf, a, c)` alone. -/
theorem phfwdAdd_replaces (pf : PhoneForward) (hR : Reachable pf) (a b c : List Char)
    (ha : isValidPhnum a = true) (hb : isValidPhnum b = true) (hc : isValidPhnum c = true)
    (hab : a ≠ b) (hac : a ≠ c) :
    ∃ pf1 pf2 pf3, phfwdAdd pf a b = some (true, pf1) ∧
      phfwdAdd pf1 a c = some (true, pf2) ∧ phfwdAdd pf a c = some (true, pf3) ∧
      pf2.redirections = pf3.redirections := by
  have hI := reachable_inv hR
  obtain ⟨F1, R1, h1, t1, _, _, hI1⟩ := phfwdAdd_spec hI ha hb hab
  obtain ⟨F2, R2, h2, t2, _, _, _⟩ := phfwdAdd_spec hI1 ha hc hac
  obtain ⟨F3, R3, h3, t3, _, _, _⟩ := phfwdAdd_spec hI ha hc hac
  exact ⟨_, _, _, h1, h2, h3, trieAddText_replace_twice a _ _ _ _ b c _ _ _ t1 t2 t3⟩

/-- Witness for C8: `5 → 77` replaced by `5 → 88` in the empty container. -/
theorem phfwdAdd_replaces_witness :
    Reachable phfwdNew ∧ isValidPhnum "5".toList = true ∧ isValidPhnum "77".toList = true ∧
      isValidPhnum "88".toList = true ∧ "5".toList ≠ "77".toList ∧
      "5".toList ≠ "88".toList ∧
      ∃ pf1 pf2 pf3, phfwdAdd phfwdNew "5".toList "77".toList = some (true, pf1) ∧
        phfwdAdd pf1 "5".toList "88".toList = some (true, pf2) ∧
        phfwdAdd phfwdNew "5".toList "88".toList = some (true, pf3) ∧
        pf2.redirections = pf3.redirections :=
  ⟨Reachable.new, by decide, by decide, by decide, by decide, by decide,
    phfwdAdd_replaces phfwdNew Reachable.new "5".toList "77".toList "88".toList
      (by decide) (by decide) (by decide) (by decide) (by decide)⟩

/-- C10: for every valid `n` (in every container), the sequence returned by
`phfwdReverse(pf, n)` is strictly ascending in the lexicographic order of the symbols,
hence without duplicates. -/
theorem phfwdReverse_strictly_ascending (pf : PhoneForward) (n : List Char)
    (hv : isValidPhnum n = true) :
    ∃ res pf1, phfwdReverse pf n = some (res, pf1) ∧
      res.numbers.Pairwise (List.Lex (· < ·)) ∧ res.numbers.Nodup := by
  obtain ⟨res, R1, hrev, _, _, hsorted, _⟩ := phfwdReverse_spec pf hv
  refine ⟨res, _, hrev, hsorted, ?_⟩
  exact hsorted.imp (fun {x y} h hxy => by
    subst hxy
    exact IsAsymm.asymm (r := List.Lex (· < ·)) x x h h)

/-- Witness for C10: the reverse lookup of `2` with `1 → 2` and `11 → 2`. -/
theorem phfwdReverse_strictly_ascending_witness :
    isValidPhnum "2".toList = true ∧
      ∃ res pf1, phfwdReverse demoSorted "2".toList = some (res, pf1) ∧
        res.numbers.Pairwise (List.Lex (· < ·)) ∧ res.numbers.Nodup :=
  ⟨by decide, phfwdReverse_strictly_ascending demoSorted "2".toList (by decide)⟩

theorem dataAt_afterRemove {pf : PhoneForward} (hI : Inv pf) {p : List Char}
    (hv : isValidPhnum p = true) (q : List Char) :
    dataAt (afterRemove pf p).redirections q =
      if p <+: q then [] else dataAt pf.redirections q := by
  obtain ⟨F1, h1, h2, _⟩ := phfwdRemove_spec hI hv
  unfold afterRemove
  rw [h1]
  exact h2 q

theorem dataAt_demoStale (a : List Char) :
    dataAt demoStale.redirections a = if a = "1".toList then ["3".toList] else [] := by
  have h3 : phfwdAdd (afterRemove (afterAdd phfwdNew "1".toList "2".toList) "1".toList)
      "1".toList "3".toList = some (true, demoStale) := rfl
  have h1 : phfwdAdd phfwdNew "1".toList "2".toList =
      some (true, afterAdd phfwdNew "1".toList "2".toList) := rfl
  rw [(phfwdAdd_of_success h3).2.2.2 a]
  by_cases ha : a = "1".toList
  · rw [if_pos ha, if_pos ha]
  · rw [if_neg ha, if_neg ha,
      dataAt_afterRemove (reachable_inv (reachable_afterAdd Reachable.new _ _)) (by decide)]
    split
    · rfl
    · rw [(phfwdAdd_of_success h1).2.2.2 a, if_neg ha]
      exact dataAt_trieNodeNew a

/-- C9 at its failing input.  After `phfwdAdd(1, 2)`, `phfwdRemove(1)`, `phfwdAdd(1, 3)`
the only forwarding stored in `F` is `1 → 3`, so no string of length 1 over the set `2`
has the target of a stored forwarding as a prefix and the number of non-trivial numbers
is 0; `phfwdNonTrivialCount(pf, "2", 1)` returns 1, because the entry `1` left in `R` at
path `2` passes the test "`F` stores some payload at path `1`". -/
theorem phfwdNonTrivialCount_counts_stale_entry :
    Reachable demoStale ∧
    (∀ a, dataAt demoStale.redirections a = if a = "1".toList then ["3".toList] else []) ∧
    (∀ s : List Char, s.length = 1 → (∀ c ∈ s, c ∈ "2".toList) →
      ¬ ∃ a t, t ∈ dataAt demoStale.redirections a ∧ t <+: s) ∧
    (phfwdNonTrivialCount 64 (some demoStale) (some "2".toList) 1).map Prod.fst = some 1 := by
  refine ⟨reachable_demoStale, dataAt_demoStale, ?_, by decide⟩
  rintro s hlen hs ⟨a, t, ht, hpre⟩
  rw [dataAt_demoStale] at ht
  split at ht
  · simp only [List.mem_singleton] at ht
    subst ht
    cases s with
    | nil => simp at hlen
    | cons c cs =>
      have hc := hs c (List.mem_cons_self _ _)
      have hc2 : c = '2' := by simpa using hc
      subst hc2
      have := (List.cons_prefix_cons.1 hpre).1
      exact absurd this (by decide)
  · simp at ht

theorem symbolOf_mem_alphabet (i : Fin 12) : symbolOf i ∈ alphabet := by
  revert i; decide

theorem slot_isSome_iff_mem_alphabet (c : Char) : (slot c).isSome = true ↔ c ∈ alphabet := by
  constructor
  · intro h
    obtain ⟨i, hi⟩ := Option.isSome_iff_exists.1 h
    rw [slot_inj hi (slot_symbolOf i)]
    exact symbolOf_mem_alphabet i
  · intro h
    have hall : ∀ d ∈ alphabet, (slot d).isSome = true := by decide
    exact hall c h

theorem inRange_symbol_iff (c : Char) : inRange c.toNat 48 59 = true ↔ c ∈ alphabet := by
  rw [← slot_isSome_iff_mem_alphabet]
  unfold slot inRange
  simp only [Bool.and_eq_true, decide_eq_true_eq]
  split
  · rename_i h; simp; omega
  · rename_i h; simp; omega

theorem isValidPhnum_iff_alphabet (s : List Char) :
    isValidPhnum s = true ↔ s ≠ [] ∧ ∀ c ∈ s, c ∈ alphabet := by
  rw [isValidPhnum_iff]
  constructor
  · rintro ⟨h1, h2⟩
    exact ⟨h1, fun c hc => (slot_isSome_iff_mem_alphabet c).1 (h2 c hc)⟩
  · rintro ⟨h1, h2⟩
    exact ⟨h1, fun c hc => (slot_isSome_iff_mem_alphabet c).2 (h2 c hc)⟩

theorem isValidPhnum_eq_false_of {s : List Char}
    (h : s = [] ∨ ∃ c ∈ s, c ∉ alphabet) : isValidPhnum s = false := by
  cases hv : isValidPhnum s with
  | false => rfl
  | true =>
    rw [isValidPhnum_iff_alphabet] at hv
    rcases h with h | ⟨c, hc, hn⟩
    · exact absurd h hv.1
    · exact absurd (hv.2 c hc) hn

theorem phfwdRemove_of_invalid (pf : PhoneForward) {num : List Char}
    (h : isValidPhnum num = false) : phfwdRemove pf num = some pf := by
  unfold phfwdRemove
  simp [h]

theorem phfwdRemove_of_no_node {pf : PhoneForward} (hI : Inv pf) {num : List Char}
    (h : nodeAt pf.redirections num = none) : phfwdRemove pf num = some pf := by
  cases hv : isValidPhnum num with
  | false => exact phfwdRemove_of_invalid pf hv
  | true =>
    have hwalk := phfwdRemoveWalk_spec hI.countF num (allSlots_of_valid hv)
    unfold phfwdRemove
    simp [hv, hwalk, h]

theorem phfwdRemove_prefixes {pf pf1 : PhoneForward} {num : List Char}
    (h : phfwdRemove pf num = some pf1) : pf1.prefixes = pf.prefixes := by
  unfold phfwdRemove at h
  split at h
  · simp only [Option.some.injEq] at h; rw [← h]
  · split at h
    · simp at h
    · simp only [Option.some.injEq] at h; rw [← h]
    · split at h
      · simp at h
      · simp only [Option.some.injEq] at h; rw [← h]

theorem phfwdRemove_total {pf : PhoneForward} (hI : Inv pf) (num : List Char) :
    ∃ pf1, phfwdRemove pf num = some pf1 := by
  cases hv : isValidPhnum num with
  | false => exact ⟨pf, phfwdRemove_of_invalid pf hv⟩
  | true =>
    obtain ⟨F1, h1, _, _⟩ := phfwdRemove_spec hI hv
    exact ⟨_, h1⟩

theorem trieDeleteSubtree_nodeAt_none {T T1 : TrieNode} (hT : CountOK T) {p : List Char}
    (hp : p ≠ []) (hnode : (nodeAt T p).isSome = true)
    (hdel : trieDeleteSubtree T p = some T1) : nodeAt T1 p = none := by
  have hrp : p.reverse ≠ [] := by simpa using hp
  have hnode' : (nodeAt T p.reverse.reverse).isSome = true := by simpa using hnode
  obtain ⟨c, pr, tl, h1, h2, _, _⟩ := climb_spec hT p.reverse hrp hnode'
  rw [List.reverse_reverse] at h2
  have hy : (nodeAt T (pr.reverse ++ [c])).isSome = true := by
    apply nodeAt_prefix_isSome (r := tl)
    rw [List.append_assoc]; simpa [← h2] using hnode
  have hpar := nodeAt_prefix_isSome hy
  obtain ⟨parent, hparent⟩ := Option.isSome_iff_exists.1 hpar
  obtain ⟨i, hi, _⟩ := child_of_nodeAt_snoc hparent hy
  simp only [trieDeleteSubtree, h1, hparent, hi] at hdel
  split at hdel
  · simp at hdel
  · split at hdel
    · simp at hdel
    · simp only [Option.some.injEq] at hdel
      rw [← hdel, h2, nodeAt_updateAt_append, hparent]
      simp only [Option.some_bind]
      exact nodeAt_cons_none tl hi (by simp)

theorem phfwdRemove_twice {pf : PhoneForward} (hI : Inv pf) (num : List Char) :
    ∃ pf1, phfwdRemove pf num = some pf1 ∧ phfwdRemove pf1 num = some pf1 := by
  cases hv : isValidPhnum num with
  | false => exact ⟨pf, phfwdRemove_of_invalid pf hv, phfwdRemove_of_invalid pf hv⟩
  | true =>
    cases hn : nodeAt pf.redirections num with
    | none =>
      exact ⟨pf, phfwdRemove_of_no_node hI hn, phfwdRemove_of_no_node hI hn⟩
    | some node =>
      obtain ⟨F1, h1, _, hI1⟩ := phfwdRemove_spec hI hv
      refine ⟨_, h1, ?_⟩
      apply phfwdRemove_of_no_node hI1
      have hwalk := phfwdRemoveWalk_spec hI.countF num (allSlots_of_valid hv)
      have hsome : (nodeAt pf.redirections num).isSome = true := by rw [hn]; rfl
      unfold phfwdRemove at h1
      simp only [hv, Bool.not_true, Bool.false_eq_true, if_false, hwalk, hn,
        Option.isSome_some] at h1
      cases hdel : trieDeleteSubtree pf.redirections num with
      | none => simp [hdel] at h1
      | some T1 =>
        simp only [hdel, Option.some.injEq, PhoneForward.mk.injEq, and_true] at h1
        subst h1
        exact trieDeleteSubtree_nodeAt_none hI.countF (ne_nil_of_valid hv) hsome hdel

theorem phfwdReverseWalk_data {F cur cur1 : TrieNode} {pre rest : List Char}
    {out : List (List Char)} (h : phfwdReverseWalk F cur pre rest = some (cur1, out)) :
    cur1.data = cur.data := by
  cases rest with
  | nil =>
    simp only [phfwdReverseWalk, Option.some.injEq, Prod.mk.injEq] at h
    rw [← h.1]
  | cons c cs =>
    simp only [phfwdReverseWalk] at h
    split at h
    · simp at h
    · split at h
      · simp only [Option.some.injEq, Prod.mk.injEq] at h
        rw [← h.1]
      · split at h
        · simp at h
        · simp only [Option.some.injEq, Prod.mk.injEq] at h
          rw [← h.1]

/-- After the walk of `phfwdReverse`, every entry left in a visited node is live. -/
theorem phfwdReverseWalk_live (F : TrieNode) :
    ∀ (rest : List Char) (cur : TrieNode) (pre : List Char) (cur1 : TrieNode)
      (out : List (List Char)),
      phfwdReverseWalk F cur pre rest = some (cur1, out) →
      ∀ k a, 1 ≤ k → k ≤ rest.length → a ∈ dataAt cur1 (rest.take k) →
        pre ++ rest.take k ∈ dataAt F a := by
  intro rest
  induction rest with
  | nil =>
    intro cur pre cur1 out _ k a h1 h2
    simp at h2
    omega
  | cons c cs ih =>
    intro cur pre cur1 out h k a h1 h2 ha
    obtain ⟨k, rfl⟩ : ∃ j, k = j + 1 := ⟨k - 1, by omega⟩
    rw [List.take_succ_cons] at ha ⊢
    cases hs : slot c with
    | none => simp [phfwdReverseWalk, hs] at h
    | some i =>
      cases hn : cur.childs i with
      | none =>
        simp only [phfwdReverseWalk, hs, hn, Option.some.injEq, Prod.mk.injEq] at h
        rw [← h.1, dataAt_cons_none _ hs hn] at ha
        simp at ha
      | some child =>
        simp only [phfwdReverseWalk, hs, hn, phfwdReverseScan_eq] at h
        cases hw : phfwdReverseWalk F
            { child with data := (child.data.filter
              (fun a => trieValueUnderPrefixExists F a (some (pre ++ [c])))) }
            (pre ++ [c]) cs with
        | none => simp [hw] at h
        | some r =>
          obtain ⟨child1, more⟩ := r
          simp only [hw, Option.some.injEq, Prod.mk.injEq] at h
          rw [← h.1, dataAt_childs_update_same rfl _ hs] at ha
          by_cases hk : k = 0
          · subst hk
            rw [List.take_zero, dataAt_nil, phfwdReverseWalk_data hw] at ha
            have := (List.mem_filter.1 ha).2
            rw [trieValueUnderPrefixExists_some] at this
            simpa using this
          · have := ih _ _ _ _ hw k a (Nat.pos_of_ne_zero hk) (by simpa using h2) ha
            simpa using this

theorem numbers_eq_nil_of_invalid_get (pf : PhoneForward) {num : List Char}
    (h : isValidPhnum num = false) : phfwdGet pf num = some { size := 0, numbers := [] } := by
  unfold phfwdGet
  simp [h]

theorem numbers_eq_nil_of_invalid_reverse (pf : PhoneForward) {num : List Char}
    (h : isValidPhnum num = false) :
    phfwdReverse pf num = some ({ size := 0, numbers := [] }, pf) := by
  unfold phfwdReverse
  simp [h]

/-! ## Properties of the public operations, continued -/

/-- C11: for every valid number `n` (in every container, reachable or not), `n` itself is
an element of `phfwdReverse(pf, n)`. -/
theorem phfwdReverse_contains_self (pf : PhoneForward) (n : List Char)
    (hv : isValidPhnum n = true) :
    ∃ res pf1, phfwdReverse pf n = some (res, pf1) ∧ n ∈ res.numbers := by
  obtain ⟨res, R1, hrev, _, hmem, _, _⟩ := phfwdReverse_spec pf hv
  exact ⟨res, _, hrev, (hmem n).2 (Or.inl rfl)⟩

/-- Witness for C11: `900` is in its own reverse lookup with `12 → 500`, `1234 → 900`. -/
theorem phfwdReverse_contains_self_witness :
    isValidPhnum "900".toList = true ∧
      ∃ res pf1, phfwdReverse demoLongest "900".toList = some (res, pf1) ∧
        "900".toList ∈ res.numbers :=
  ⟨by decide, phfwdReverse_contains_self demoLongest "900".toList (by decide)⟩

/-- C12: in every reachable container `phfwdAdd(pf, a, b)` returns, and the flag it
returns is `false` if and only if `a` is not a valid number, `b` is not a valid number or
`a` equals `b`; otherwise it is `true`. -/
theorem phfwdAdd_returns_false_iff (pf : PhoneForward) (hR : Reachable pf)
    (a b : List Char) :
    ∃ r pf1, phfwdAdd pf a b = some (r, pf1) ∧
      (r = false ↔ (isValidPhnum a = false ∨ isValidPhnum b = false ∨ a = b)) ∧
      (r = true ↔ (isValidPhnum a = true ∧ isValidPhnum b = true ∧ a ≠ b)) := by
  by_cases hc : isValidPhnum a = true ∧ isValidPhnum b = true ∧ a ≠ b
  · obtain ⟨F1, R1, h1, _⟩ := phfwdAdd_spec (reachable_inv hR) hc.1 hc.2.1 hc.2.2
    refine ⟨true, _, h1, ?_, ?_⟩
    · simp [hc.1, hc.2.1, hc.2.2]
    · simp [hc.1, hc.2.1, hc.2.2]
  · refine ⟨false, pf, phfwdAdd_invalid hc, ?_, ?_⟩
    · simp only [true_iff]
      by_cases h1 : isValidPhnum a = true
      · by_cases h2 : isValidPhnum b = true
        · right; right
          by_contra h3
          exact hc ⟨h1, h2, h3⟩
        · right; left; simpa using h2
      · left; simpa using h1
    · simp only [Bool.false_eq_true, false_iff]
      exact hc

/-- Witness for C12: the empty container, source `123` and target `123`. -/
theorem phfwdAdd_returns_false_iff_witness :
    Reachable phfwdNew ∧
      ∃ r pf1, phfwdAdd phfwdNew "123".toList "123".toList = some (r, pf1) ∧
        (r = false ↔ (isValidPhnum "123".toList = false ∨ isValidPhnum "123".toList = false ∨
          "123".toList = "123".toList)) ∧
        (r = true ↔ (isValidPhnum "123".toList = true ∧ isValidPhnum "123".toList = true ∧
          "123".toList ≠ "123".toList)) :=
  ⟨Reachable.new, phfwdAdd_returns_false_iff phfwdNew Reachable.new "123".toList "123".toList⟩

/-- C13: for every string `num` that is not a valid number, that is, `num` is empty or
contains a character outside the 12-symbol alphabet, `phfwdGet(pf, num)` and
`phfwdReverse(pf, num)` both return a sequence of size 0 (and `isValidPhnum` rejects
`num`). -/
theorem phfwdGet_phfwdReverse_invalid (pf : PhoneForward) (num : List Char)
    (h : num = [] ∨ ∃ c ∈ num, c ∉ alphabet) :
    isValidPhnum num = false ∧
    phfwdGet pf num = some { size := 0, numbers := [] } ∧
    phfwdReverse pf num = some ({ size := 0, numbers := [] }, pf) := by
  have hv := isValidPhnum_eq_false_of h
  exact ⟨hv, numbers_eq_nil_of_invalid_get pf hv, numbers_eq_nil_of_invalid_reverse pf hv⟩

/-- Witness for C13: the string `1<2` in the container with `12 → 500`, `1234 → 900`. -/
theorem phfwdGet_phfwdReverse_invalid_witness :
    ("1<2".toList = [] ∨ ∃ c ∈ "1<2".toList, c ∉ alphabet) ∧
    isValidPhnum "1<2".toList = false ∧
    phfwdGet demoLongest "1<2".toList = some { size := 0, numbers := [] } ∧
    phfwdReverse demoLongest "1<2".toList = some ({ size := 0, numbers := [] }, demoLongest) :=
  ⟨Or.inr ⟨'<', by decide, by decide⟩,
    phfwdGet_phfwdReverse_invalid demoLongest "1<2".toList
      (Or.inr ⟨'<', by decide, by decide⟩)⟩

/-- C14: after `phfwdReverse(pf, n)` for a valid `n` (in every container), for every
non-empty prefix `p` of `n` at which the reverse trie has a node, every payload `a` left
in the data list of that node is such that `F` stores the payload `p` at path `a`; `F`
itself is not changed by the call. -/
theorem phfwdReverse_prunes_visited (pf : PhoneForward) (n : List Char)
    (hv : isValidPhnum n = true) :
    ∃ res pf1, phfwdReverse pf n = some (res, pf1) ∧
      pf1.redirections = pf.redirections ∧
      ∀ p, p ≠ [] → p <+: n → ∀ node, nodeAt pf1.prefixes p = some node →
        ∀ a ∈ node.data, p ∈ dataAt pf1.redirections a := by
  obtain ⟨R1, out, hw, _, _, _⟩ :=
    phfwdReverseWalk_spec pf.redirections n pf.prefixes [] (allSlots_of_valid hv)
  have hlive := phfwdReverseWalk_live pf.redirections n pf.prefixes [] R1 out hw
  refine ⟨{ size := (unique (qsort lexicographicalCompare (out ++ [n]))).length
            numbers := unique (qsort lexicographicalCompare (out ++ [n])) },
    { redirections := pf.redirections, prefixes := R1 }, ?_, rfl, ?_⟩
  · unfold phfwdReverse
    simp only [hv, Bool.not_true, Bool.false_eq_true, if_false, hw]
  · intro p hp hpre node hnode a ha
    have htake : n.take p.length = p := List.prefix_iff_eq_take.1 hpre ▸ rfl
    have hlen : 1 ≤ p.length := by
      cases p with
      | nil => exact absurd rfl hp
      | cons _ _ => simp
    have := hlive p.length a hlen hpre.length_le
      (by rw [htake, dataAt_eq_of_nodeAt hnode]; exact ha)
    simpa [htake] using this

/-- Witness for C14: the reverse lookup of `2` after `1 → 2` was replaced through a
removal by `1 → 3`, which leaves a stale entry at path `2`. -/
theorem phfwdReverse_prunes_visited_witness :
    isValidPhnum "2".toList = true ∧
      ∃ res pf1, phfwdReverse demoStale "2".toList = some (res, pf1) ∧
        pf1.redirections = demoStale.redirections ∧
        ∀ p, p ≠ [] → p <+: "2".toList → ∀ node, nodeAt pf1.prefixes p = some node →
          ∀ a ∈ node.data, p ∈ dataAt pf1.redirections a :=
  ⟨by decide, phfwdReverse_prunes_visited demoStale "2".toList (by decide)⟩

/-- C15: in every reachable container and for every string `a`, `phfwdRemove(pf, a)`
returns, and a second `phfwdRemove(pf, a)` leaves the container (both tries) exactly as
the first call left it. -/
theorem phfwdRemove_idempotent (pf : PhoneForward) (hR : Reachable pf) (a : List Char) :
    ∃ pf1, phfwdRemove pf a = some pf1 ∧ phfwdRemove pf1 a = some pf1 :=
  phfwdRemove_twice (reachable_inv hR) a

/-- Witness for C15: removing `12` twice from the container with `12 → 34`, `125 → 99`. -/
theorem phfwdRemove_idempotent_witness :
    Reachable demoSubtree ∧
      ∃ pf1, phfwdRemove demoSubtree "12".toList = some pf1 ∧
        phfwdRemove pf1 "12".toList = some pf1 :=
  ⟨reachable_demoSubtree, phfwdRemove_idempotent demoSubtree reachable_demoSubtree "12".toList⟩

/-- C16: `phfwdRemove(pf, num)` returns the container unchanged (both tries) when `num`
is not a valid number, in every container, and when the forward trie of a reachable
container has no node at the path spelled by `num`. -/
theorem phfwdRemove_noop (pf : PhoneForward) (num : List Char) :
    (isValidPhnum num = false → phfwdRemove pf num = some pf) ∧
    (Reachable pf → nodeAt pf.redirections num = none → phfwdRemove pf num = some pf) :=
  ⟨fun h => phfwdRemove_of_invalid pf h,
    fun hR h => phfwdRemove_of_no_node (reachable_inv hR) h⟩

/-- Witness for C16: in the container with `12 → 34`, `125 → 99` neither the invalid
string `1/2` nor the absent path `13` changes anything. -/
theorem phfwdRemove_noop_witness :
    (isValidPhnum "1/2".toList = false ∧
      phfwdRemove demoSubtree "1/2".toList = some demoSubtree) ∧
    (Reachable demoSubtree ∧ nodeAt demoSubtree.redirections "13".toList = none ∧
      phfwdRemove demoSubtree "13".toList = some demoSubtree) :=
  ⟨⟨by decide, (phfwdRemove_noop demoSubtree "1/2".toList).1 (by decide)⟩,
    ⟨reachable_demoSubtree, rfl,
      (phfwdRemove_noop demoSubtree "13".toList).2 reachable_demoSubtree rfl⟩⟩

/-- C17: for every container and every string `num`, a `phfwdRemove(pf, num)` that returns
leaves the reverse trie exactly as it was; in every reachable container the call does
return. -/
theorem phfwdRemove_keeps_reverse_trie (pf : PhoneForward) (num : List Char) :
    (∀ pf1, phfwdRemove pf num = some pf1 → pf1.prefixes = pf.prefixes) ∧
    (Reachable pf → ∃ pf1, phfwdRemove pf num = some pf1 ∧ pf1.prefixes = pf.prefixes) := by
  refine ⟨fun pf1 h => phfwdRemove_prefixes h, ?_⟩
  intro hR
  obtain ⟨pf1, h⟩ := phfwdRemove_total (reachable_inv hR) num
  exact ⟨pf1, h, phfwdRemove_prefixes h⟩

/-- Witness for C17: removing `12` from the container with `12 → 34`, `125 → 99`. -/
theorem phfwdRemove_keeps_reverse_trie_witness :
    Reachable demoSubtree ∧
      ∃ pf1, phfwdRemove demoSubtree "12".toList = some pf1 ∧
        pf1.prefixes = demoSubtree.prefixes :=
  ⟨reachable_demoSubtree,
    (phfwdRemove_keeps_reverse_trie demoSubtree "12".toList).2 reachable_demoSubtree⟩

/-- C18: `phfwdNonTrivialCount(pf, set, len)` returns 0, and leaves the container as it
is, whenever `pf` is null, `set` is null, `set` is the empty string, `set` contains no
symbol of the alphabet, or `len` is 0, whatever forwardings are stored. -/
theorem phfwdNonTrivialCount_zero (W : Nat) (pf : Option PhoneForward)
    (set : Option (List Char)) (len : Nat)
    (h : pf = none ∨ set = none ∨ set = some [] ∨
      (∃ s, set = some s ∧ ∀ c ∈ s, c ∉ alphabet) ∨ len = 0) :
    phfwdNonTrivialCount W pf set len = some (0, pf) := by
  cases pf with
  | none => cases set <;> rfl
  | some p =>
    cases set with
    | none => rfl
    | some s =>
      unfold phfwdNonTrivialCount
      simp only
      by_cases h1 : (s.isEmpty || decide (len = 0)) = true
      · rw [if_pos h1]
      · rw [if_neg h1]
        have hcase : ∀ c ∈ s, c ∉ alphabet := by
          rcases h with h | h | h | ⟨t, ht, hall⟩ | h
          · simp at h
          · simp at h
          · simp only [Option.some.injEq] at h
            subst h
            simp at h1
          · simp only [Option.some.injEq] at ht
            subst ht
            exact hall
          · subst h
            simp at h1
        have hany : s.any (fun c => inRange c.toNat 48 59) = false := by
          rw [List.any_eq_false]
          intro c hc
          have := hcase c hc
          rw [← inRange_symbol_iff] at this
          simpa using this
        simp [hany]

/-- Witness for C18: length 0 in the container with `12 → 500`, `1234 → 900`. -/
theorem phfwdNonTrivialCount_zero_witness :
    phfwdNonTrivialCount 64 (some demoLongest) (some "0123456789".toList) 0 =
      some (0, some demoLongest) :=
  phfwdNonTrivialCount_zero 64 (some demoLongest) (some "0123456789".toList) 0
    (Or.inr (Or.inr (Or.inr (Or.inr rfl))))

/-! ### `power` and the digit mask -/

theorem powerLoop_spec (W : Nat) :
    ∀ (fuel value exp result : Nat), exp ≤ fuel → result % 2 ^ W = result →
      powerLoop W fuel value exp result = (result * value ^ exp) % 2 ^ W := by
  intro fuel
  induction fuel with
  | zero =>
    intro value exp result he hr
    have : exp = 0 := by omega
    subst this
    simp [powerLoop, hr]
  | succ fuel ih =>
    intro value exp result he hr
    by_cases h0 : exp = 0
    · subst h0
      simp [powerLoop, hr]
    · simp only [powerLoop, h0, if_false]
      have hfuel : exp / 2 ≤ fuel := by omega
      have hexp : exp = 2 * (exp / 2) + exp % 2 := by omega
      have hsq : ((value * value) % 2 ^ W) ^ (exp / 2) % 2 ^ W =
          value ^ (2 * (exp / 2)) % 2 ^ W := by
        rw [← Nat.pow_mod, pow_mul, ← pow_two]
      by_cases hodd : exp % 2 = 1
      · rw [if_pos hodd, ih _ _ _ hfuel (Nat.mod_mod _ _)]
        conv_rhs => rw [hexp, hodd, pow_succ, ← mul_assoc, mul_right_comm]
        rw [Nat.mul_mod, hsq, Nat.mod_mod, ← Nat.mul_mod]
      · rw [if_neg hodd, ih _ _ _ hfuel hr]
        have heven : exp % 2 = 0 := by omega
        conv_rhs => rw [hexp, heven, Nat.add_zero]
        rw [Nat.mul_mod, hsq, ← Nat.mul_mod]

theorem power_eq (W value exp : Nat) : power W value exp = value ^ exp % 2 ^ W := by
  unfold power
  rw [powerLoop_spec W exp _ exp _ (le_refl _) (Nat.mod_mod _ _)]
  rw [Nat.mul_mod, Nat.mod_mod, ← Nat.pow_mod, ← Nat.mul_mod, Nat.one_mul]

theorem numberMask_eq_foldl (set : List Char) :
    numberMask set = set.foldl numberMaskStep (fun _ => false) := rfl

theorem numberMask_foldl (set : List Char) (m : Fin 12 → Bool) (i : Fin 12) :
    (set.foldl numberMaskStep m) i = (m i || decide (symbolOf i ∈ set)) := by
  induction set generalizing m with
  | nil => simp
  | cons c cs ih =>
    rw [List.foldl_cons, ih]
    by_cases hc : c ∈ alphabet
    · obtain ⟨j, hj⟩ := Option.isSome_iff_exists.1 ((slot_isSome_iff_mem_alphabet c).2 hc)
      have hcj : c = symbolOf j := slot_inj hj (slot_symbolOf j)
      simp only [numberMaskStep, (inRange_symbol_iff c).2 hc, if_true, hj]
      by_cases hji : i = j
      · subst hji
        simp [hcj]
      · have hne : symbolOf i ≠ c := by
          intro h
          rw [hcj] at h
          have h1 := slot_symbolOf i
          rw [h, slot_symbolOf j] at h1
          exact hji (Option.some.inj h1).symm
        simp [Function.update_noteq hji, hne]
    · have hin : ¬ (inRange c.toNat 48 59 = true) := fun h => hc ((inRange_symbol_iff c).1 h)
      have hne : symbolOf i ≠ c := by
        intro h
        exact hc (h ▸ symbolOf_mem_alphabet i)
      simp [numberMaskStep, hin, hne]

theorem numberMask_eq (set : List Char) (i : Fin 12) :
    numberMask set i = decide (symbolOf i ∈ set) := by
  rw [numberMask_eq_foldl, numberMask_foldl]
  simp

theorem alphabet_eq_map : alphabet = (List.finRange 12).map symbolOf := by decide

theorem countP_numberMask (set : List Char) :
    (List.finRange 12).countP (numberMask set) = symbolCount set := by
  unfold symbolCount
  rw [alphabet_eq_map, List.filter_map, List.length_map, List.countP_eq_length_filter]
  congr 2
  funext i
  simp [numberMask_eq]

/-! ### Counting along a single path -/

theorem countChildStep_of_none {W : Nat} {ds : Fin 12 → Bool}
    {recurse : TrieNode → Option (Nat × TrieNode)} {acc : Nat × TrieNode} {j : Fin 12}
    (h : acc.2.childs j = none) : countChildStep W ds recurse acc j = some acc := by
  simp [countChildStep, h]

theorem countChildStep_keeps_none {W : Nat} {ds : Fin 12 → Bool}
    {recurse : TrieNode → Option (Nat × TrieNode)} {acc res : Nat × TrieNode} {i : Fin 12}
    (hacc : ∀ j, j ≠ i → acc.2.childs j = none)
    (h : countChildStep W ds recurse acc i = some res) :
    ∀ j, j ≠ i → res.2.childs j = none := by
  unfold countChildStep at h
  split at h
  · simp only [Option.some.injEq] at h; subst h; exact hacc
  · split at h
    · split at h
      · simp at h
      · simp only [Option.some.injEq] at h
        subst h
        intro j hj
        simp [Function.update_noteq hj, hacc j hj]
    · simp only [Option.some.injEq] at h; subst h; exact hacc

/-- The loop over the children when at most the child in slot `i` is present. -/
theorem foldlM_countChildStep_single {W : Nat} {ds : Fin 12 → Bool}
    {recurse : TrieNode → Option (Nat × TrieNode)} {i : Fin 12} :
    ∀ (l : List (Fin 12)), l.Nodup → ∀ acc : Nat × TrieNode,
      (∀ j, j ≠ i → acc.2.childs j = none) →
      l.foldlM (countChildStep W ds recurse) acc =
        if i ∈ l then countChildStep W ds recurse acc i else some acc := by
  intro l
  induction l with
  | nil => intro _ acc _; simp
  | cons j l ih =>
    intro hnd acc hacc
    rw [List.nodup_cons] at hnd
    rw [List.foldlM_cons]
    by_cases hji : j = i
    · subst hji
      rw [if_pos (List.mem_cons_self _ _)]
      cases hstep : countChildStep W ds recurse acc j with
      | none => rfl
      | some res =>
        simp only [bind, Option.bind]
        rw [ih hnd.2 res (countChildStep_keeps_none hacc hstep), if_neg hnd.1]
    · rw [countChildStep_of_none (hacc j hji)]
      simp only [bind, Option.bind]
      rw [ih hnd.2 acc hacc]
      have : (i ∈ j :: l) ↔ i ∈ l := by
        simp [List.mem_cons, Ne.symm hji]
      simp only [this]

theorem dataListContaisEntryThatExists_nil (F N : TrieNode) (h : N.data = []) :
    dataListContaisEntryThatExists F N = (false, N) := by
  cases N
  simp only at h
  subst h
  rfl

theorem phfwdNonTrivialCountAux_chain (W : Nat) (F : TrieNode) (ds : Fin 12 → Bool)
    (len : Nat) (a : List Char) (hlive : trieValueUnderPrefixExists F a none = true) :
    ∀ (rest : List Char) (N : TrieNode) (prev : List (List Char)),
      trieAddText trieNodeNew rest a true = some (N, prev) →
      ∀ fuel deep, deep ≤ len → len - deep < fuel →
        ∃ N1, phfwdNonTrivialCountAux W F ds len fuel N deep =
          some (if deep + rest.length ≤ len ∧ allInMask ds rest = true then
                  power W ((List.finRange 12).countP ds) (len - (deep + rest.length))
                else 0, N1) := by
  intro rest
  induction rest with
  | nil =>
    intro N prev hN fuel deep hd hf
    obtain ⟨fuel, rfl⟩ : ∃ m, fuel = m + 1 := ⟨fuel - 1, by omega⟩
    simp only [trieAddText, trieNodeNew, List.isEmpty_nil, if_true, Option.some.injEq,
      Prod.mk.injEq] at hN
    have hdl : dataListContaisEntryThatExists F N = (true, N) := by
      rw [← hN.1]
      simp [dataListContaisEntryThatExists, dataListContaisEntryThatExistsLoop, hlive]
    refine ⟨N, ?_⟩
    unfold phfwdNonTrivialCountAux
    have hnl : ¬ len < deep := by omega
    have hall : allInMask ds [] = true := rfl
    simp only [hnl, if_false, hdl, if_true, List.length_nil, Nat.add_zero]
    rw [if_pos ⟨hd, hall⟩]
  | cons ch cs ih =>
    intro N prev hN fuel deep hd hf
    obtain ⟨fuel, rfl⟩ : ∃ m, fuel = m + 1 := ⟨fuel - 1, by omega⟩
    cases hs : slot ch with
    | none => simp [trieAddText, hs] at hN
    | some i =>
      have hnone : trieNodeNew.childs i = none := rfl
      simp only [trieAddText, hs, hnone] at hN
      cases hN2 : trieAddText trieNodeNew cs a true with
      | none => simp [hN2] at hN
      | some r =>
        obtain ⟨N2, prev2⟩ := r
        simp only [hN2, Option.some.injEq, Prod.mk.injEq] at hN
        have hNdata : N.data = [] := by rw [← hN.1]; rfl
        have hNi : N.childs i = some N2 := by rw [← hN.1]; simp
        have hNj : ∀ j, j ≠ i → N.childs j = none := by
          intro j hj
          rw [← hN.1]
          simp [Function.update_noteq hj, trieNodeNew]
        have hdl := dataListContaisEntryThatExists_nil F N hNdata
        have hnl : ¬ len < deep := by omega
        have hmask : allInMask ds (ch :: cs) = true ↔
            ds i = true ∧ allInMask ds cs = true := by
          simp [allInMask, hs]
        unfold phfwdNonTrivialCountAux
        simp only [hnl, if_false, hdl, Bool.false_eq_true]
        by_cases hld : len = deep
        · refine ⟨N, ?_⟩
          rw [if_pos hld]
          have : ¬ (deep + (ch :: cs).length ≤ len ∧ allInMask ds (ch :: cs) = true) := by
            simp only [List.length_cons]
            intro h; omega
          rw [if_neg this]
        · rw [if_neg hld]
          rw [foldlM_countChildStep_single (List.finRange 12) (List.nodup_finRange 12)
            (0, N) hNj, if_pos (List.mem_finRange i)]
          simp only [countChildStep, hNi]
          by_cases hdi : ds i = true
          · obtain ⟨N3, hN3⟩ := ih N2 prev2 hN2 fuel (deep + 1) (by omega) (by omega)
            rw [if_pos hdi, hN3]
            refine ⟨{ N with childs := Function.update N.childs i (some N3) }, ?_⟩
            simp only [Option.some.injEq, Prod.mk.injEq, and_true, Nat.zero_add]
            have hlen : deep + 1 + cs.length = deep + (ch :: cs).length := by
              simp only [List.length_cons]; omega
            rw [hlen]
            by_cases hcond : deep + (ch :: cs).length ≤ len ∧ allInMask ds cs = true
            · rw [if_pos hcond, if_pos ⟨hcond.1, hmask.2 ⟨hdi, hcond.2⟩⟩, power_eq,
                Nat.mod_mod]
            · rw [if_neg hcond, if_neg (fun h => hcond ⟨h.1, (hmask.1 h.2).2⟩)]
              simp
          · rw [if_neg hdi]
            refine ⟨N, ?_⟩
            rw [if_neg (fun h => hdi (hmask.1 h.2).1)]

theorem phfwdAdd_new_of_success {pf1 : PhoneForward} {a b : List Char}
    (h : phfwdAdd phfwdNew a b = some (true, pf1)) :
    ∃ prev, trieAddText trieNodeNew b a true = some (pf1.prefixes, prev) := by
  obtain ⟨ha, hb, hne, _⟩ := phfwdAdd_of_success h
  obtain ⟨F1, hF1, _, _⟩ := trieAddText_spec trieNodeNew a b false (allSlots_of_valid ha)
  obtain ⟨R1, hR1, _, _⟩ := trieAddText_spec trieNodeNew b a true (allSlots_of_valid hb)
  simp only [Bool.false_eq_true, if_false, dataAt_trieNodeNew] at hF1
  unfold phfwdAdd at h
  have hcond : (!isValidPhnum a || !isValidPhnum b || decide (a = b)) = false := by
    simp [ha, hb, hne]
  have hnew1 : phfwdNew.redirections = trieNodeNew := rfl
  have hnew2 : phfwdNew.prefixes = trieNodeNew := rfl
  simp only [hcond, Bool.false_eq_true, if_false, hnew1, hnew2, hF1, phfwdAddUnlink, hR1,
    Option.some.injEq, Prod.mk.injEq, true_and] at h
  rw [← h]
  exact ⟨_, hR1⟩

theorem allInMask_numberMask {set b : List Char} (hb : AllSlots b) :
    allInMask (numberMask set) b = true ↔ ∀ ch ∈ b, ch ∈ set := by
  unfold allInMask
  rw [List.all_eq_true]
  constructor
  · intro h ch hch
    obtain ⟨i, hi⟩ := Option.isSome_iff_exists.1 (hb ch hch)
    have := h ch hch
    rw [hi] at this
    simp only [Option.elim, numberMask_eq, decide_eq_true_eq] at this
    rwa [slot_inj hi (slot_symbolOf i)]
  · intro h ch hch
    obtain ⟨i, hi⟩ := Option.isSome_iff_exists.1 (hb ch hch)
    rw [hi]
    simp only [Option.elim, numberMask_eq, decide_eq_true_eq]
    rw [← slot_inj hi (slot_symbolOf i)]
    exact h ch hch

theorem exists_symbol_of_symbolCount_pos {set : List Char} (h : 1 ≤ symbolCount set) :
    ∃ ch, ch ∈ alphabet ∧ ch ∈ set := by
  unfold symbolCount at h
  cases hf : alphabet.filter (fun ch => decide (ch ∈ set)) with
  | nil => rw [hf] at h; simp at h
  | cons ch rest =>
    have : ch ∈ alphabet.filter (fun ch => decide (ch ∈ set)) := by rw [hf]; simp
    rw [List.mem_filter] at this
    exact ⟨ch, this.1, by simpa using this.2⟩

/-- C19: starting from the empty container, after one successful `phfwdAdd(pf, a, b)`,
for every `set` with `c ≥ 1` distinct alphabet symbols and every `len ≥ 1`,
`phfwdNonTrivialCount(pf, set, len)` returns `c ^ (len - |b|)` modulo `2 ^ W` when
`|b| ≤ len` and every symbol of `b` occurs in `set`, and 0 otherwise. -/
theorem phfwdNonTrivialCount_single_forwarding (W : Nat) (a b set : List Char) (len : Nat)
    (pf1 : PhoneForward) (hadd : phfwdAdd phfwdNew a b = some (true, pf1))
    (hc : 1 ≤ symbolCount set) (hlen : 1 ≤ len) :
    ∃ pf2, phfwdNonTrivialCount W (some pf1) (some set) len =
      some (if b.length ≤ len ∧ ∀ ch ∈ b, ch ∈ set then
              symbolCount set ^ (len - b.length) % 2 ^ W
            else 0, some pf2) := by
  obtain ⟨_, hb, _, hFd⟩ := phfwdAdd_of_success hadd
  obtain ⟨prev, hR⟩ := phfwdAdd_new_of_success hadd
  have hlive : trieValueUnderPrefixExists pf1.redirections a none = true := by
    rw [trieValueUnderPrefixExists_none, hFd a]
    simp
  obtain ⟨N1, hN1⟩ := phfwdNonTrivialCountAux_chain W pf1.redirections (numberMask set) len a
    hlive b pf1.prefixes prev hR (len + 1) 0 (Nat.zero_le _) (by omega)
  obtain ⟨ch, hch1, hch2⟩ := exists_symbol_of_symbolCount_pos hc
  have hne : set.isEmpty = false := by
    cases set with
    | nil => simp at hch2
    | cons _ _ => rfl
  have hany : set.any (fun c => inRange c.toNat 48 59) = true := by
    rw [List.any_eq_true]
    exact ⟨ch, hch2, (inRange_symbol_iff ch).2 hch1⟩
  have hlen0 : decide (len = 0) = false := by
    simp only [decide_eq_false_iff_not]; omega
  refine ⟨{ pf1 with prefixes := N1 }, ?_⟩
  unfold phfwdNonTrivialCount
  simp only [hne, hlen0, Bool.or_self, Bool.false_eq_true, if_false, hany, Bool.not_true, hN1,
    Nat.zero_add, countP_numberMask, power_eq]
  by_cases hcond : b.length ≤ len ∧ ∀ ch ∈ b, ch ∈ set
  · rw [if_pos hcond, if_pos ⟨hcond.1, (allInMask_numberMask (allSlots_of_valid hb)).2 hcond.2⟩]
  · rw [if_neg hcond,
      if_neg (fun h => hcond ⟨h.1, (allInMask_numberMask (allSlots_of_valid hb)).1 h.2⟩)]

/-- Witness for C19: forwarding `07 → 99`, set `89`, length 3, on a 64-bit `size_t`. -/
theorem phfwdNonTrivialCount_single_forwarding_witness :
    phfwdAdd phfwdNew "07".toList "99".toList = some (true, demoSingle) ∧
      1 ≤ symbolCount "89".toList ∧ 1 ≤ 3 ∧
      ∃ pf2, phfwdNonTrivialCount 64 (some demoSingle) (some "89".toList) 3 =
        some (if "99".toList.length ≤ 3 ∧ ∀ ch ∈ "99".toList, ch ∈ "89".toList then
                symbolCount "89".toList ^ (3 - "99".toList.length) % 2 ^ 64
              else 0, some pf2) :=
  ⟨rfl, by decide, by decide,
    phfwdNonTrivialCount_single_forwarding 64 "07".toList "99".toList "89".toList 3
      demoSingle rfl (by decide) (by decide)⟩

theorem eq_of_pairwise_lex_of_mem {l1 l2 : List (List Char)}
    (h1 : l1.Pairwise (List.Lex (· < ·))) (h2 : l2.Pairwise (List.Lex (· < ·)))
    (hmem : ∀ x, x ∈ l1 ↔ x ∈ l2) : l1 = l2 := by
  have hirr : ∀ {x y : List Char}, List.Lex (· < ·) x y → x ≠ y := by
    intro x y h hxy
    subst hxy
    exact IsAsymm.asymm (r := List.Lex (· < ·)) x x h h
  have n1 : l1.Nodup := h1.imp hirr
  have n2 : l2.Nodup := h2.imp hirr
  have hp : l1.Perm l2 := (List.perm_ext_iff_of_nodup n1 n2).2 hmem
  haveI : IsAntisymm (List Char) (List.Lex (· < ·)) :=
    ⟨fun x y hxy hyx => absurd hyx (IsAsymm.asymm (r := List.Lex (· < ·)) x y hxy)⟩
  exact List.eq_of_perm_of_sorted hp h1 h2

theorem onlyForwarding_after_two_adds {a b c : List Char} (ha : isValidPhnum a = true)
    (hb : isValidPhnum b = true) (hc : isValidPhnum c = true) (hab : a ≠ b) (hac : a ≠ c) :
    ∃ pf1 pf2, phfwdAdd phfwdNew a b = some (true, pf1) ∧
      phfwdAdd pf1 a c = some (true, pf2) ∧ OnlyForwarding pf2 a c := by
  obtain ⟨F1, R1, h1, _, hF1, hR1, hI1⟩ := phfwdAdd_spec inv_phfwdNew ha hb hab
  obtain ⟨F2, R2, h2, _, hF2, hR2, _⟩ := phfwdAdd_spec hI1 ha hc hac
  refine ⟨_, _, h1, h2, ?_, ?_⟩
  · intro q
    rw [hF2 q]
    by_cases hq : q = a
    · simp [hq]
    · simp only [hq, if_false]
      rw [hF1 q, if_neg hq]
      exact dataAt_trieNodeNew q
  · have hnewF : ∀ q, dataAt phfwdNew.redirections q = [] := dataAt_trieNodeNew
    have hnewR : ∀ q, dataAt phfwdNew.prefixes q = [] := dataAt_trieNodeNew
    have hR1' : ∀ q, dataAt R1 q = if q = b then [a] else [] := by
      intro q
      rw [hR1 q]
      simp [unlinkedData, hnewF, hnewR]
    have hunl : ∀ q, unlinkedData { redirections := F1, prefixes := R1 } a q = [] := by
      intro q
      unfold unlinkedData
      simp only [hF1 a, if_true, hR1' q]
      by_cases hq : q = b
      · subst hq; simp
      · have : ¬ ([b] = [q]) := by
          intro h; injection h with h; exact hq h.symm
        simp [hq, this]
    intro q x
    rw [hR2 q, hunl q]
    by_cases hq : q = c
    · subst hq; simp
    · simp [hq]

theorem phfwdGet_of_onlyForwarding {pf : PhoneForward} {a c : List Char}
    (h : OnlyForwarding pf a c) (ha : isValidPhnum a = true) :
    phfwdGet pf a = some { size := 1, numbers := [c] } := by
  have := phfwdGet_of_longest pf (t := c) ha (k := a.length) (le_refl _)
    (by rw [List.take_length, h.1 a]; simp)
    (by intro j h1 h2; omega)
  simpa using this

theorem onlyForwarding_after_reverse {pf pf1 : PhoneForward} {a c n : List Char}
    {res : PhoneNumbers} (h : OnlyForwarding pf a c) (hn : isValidPhnum n = true)
    (hrev : phfwdReverse pf n = some (res, pf1)) : OnlyForwarding pf1 a c := by
  obtain ⟨res1, R1, h1, hp, _⟩ := phfwdReverse_spec pf hn
  rw [h1] at hrev
  simp only [Option.some.injEq, Prod.mk.injEq] at hrev
  rw [← hrev.2]
  refine ⟨h.1, ?_⟩
  intro q x
  constructor
  · intro hx
    exact (h.2 q x).1 (hp.mem_of_mem hx)
  · rintro ⟨rfl, rfl⟩
    apply hp.mem_of_not_dead ((h.2 q x).2 ⟨rfl, rfl⟩)
    intro hdead
    apply hdead
    rw [h.1 x]
    simp

theorem phfwdReverse_of_onlyForwarding_other {pf : PhoneForward} {a c n : List Char}
    (h : OnlyForwarding pf a c) (hn : isValidPhnum n = true) (hpre : ¬ c <+: n) :
    ∃ pf1, phfwdReverse pf n = some ({ size := 1, numbers := [n] }, pf1) := by
  obtain ⟨res, R1, hrev, _, hmem, hsorted, hsize⟩ := phfwdReverse_spec pf hn
  have hnum : res.numbers = [n] := by
    apply eq_of_pairwise_lex_of_mem hsorted (List.pairwise_singleton _ _)
    intro x
    rw [hmem x, List.mem_singleton]
    constructor
    · rintro (hx | ⟨k, y, _, _, hy, _, _⟩)
      · exact hx
      · have := ((h.2 _ _).1 hy).1
        exact absurd (this ▸ List.take_prefix k n) hpre
    · intro hx; exact Or.inl hx
  refine ⟨{ redirections := pf.redirections, prefixes := R1 }, ?_⟩
  rw [hrev]
  cases res
  simp only at hnum hsize
  subst hnum
  subst hsize
  rfl

theorem phfwdReverse_of_onlyForwarding_target {pf : PhoneForward} {a c : List Char}
    (h : OnlyForwarding pf a c) (hc : isValidPhnum c = true) (hac : a ≠ c) :
    ∃ res pf1, phfwdReverse pf c = some (res, pf1) ∧ res.size = 2 ∧
      ((List.Lex (· < ·) a c ∧ res.numbers = [a, c]) ∨
       (List.Lex (· < ·) c a ∧ res.numbers = [c, a])) := by
  obtain ⟨res, R1, hrev, _, hmem, hsorted, hsize⟩ := phfwdReverse_spec pf hc
  have hmem' : ∀ x, x ∈ res.numbers ↔ x = c ∨ x = a := by
    intro x
    rw [hmem x]
    constructor
    · rintro (hx | ⟨k, y, _, _, hy, _, hxy⟩)
      · exact Or.inl hx
      · obtain ⟨h1, h2⟩ := (h.2 _ _).1 hy
        right
        have hk : c.length ≤ k := by
          by_contra hlt
          have := congrArg List.length h1
          rw [List.length_take] at this
          omega
        rw [hxy, h2, List.drop_eq_nil_of_le hk, List.append_nil]
    · rintro (hx | hx)
      · exact Or.inl hx
      · right
        have hlen : 1 ≤ c.length := by
          have := ne_nil_of_valid hc
          cases c with
          | nil => exact absurd rfl this
          | cons _ _ => simp
        refine ⟨c.length, a, hlen, le_refl _, ?_, ?_, ?_⟩
        · rw [List.take_length]; exact (h.2 c a).2 ⟨rfl, rfl⟩
        · rw [List.take_length, h.1 a]; simp
        · rw [hx, List.drop_length, List.append_nil]
  refine ⟨res, _, hrev, ?_, ?_⟩
  · rcases (IsTrichotomous.trichotomous a c : List.Lex (· < ·) a c ∨ a = c ∨
        List.Lex (· < ·) c a) with hl | he | hl
    · have : res.numbers = [a, c] := by
        apply eq_of_pairwise_lex_of_mem hsorted (by simp [hl])
        intro x; rw [hmem' x]; simp [or_comm]
      rw [hsize, this]; rfl
    · exact absurd he hac
    · have : res.numbers = [c, a] := by
        apply eq_of_pairwise_lex_of_mem hsorted (by simp [hl])
        intro x; rw [hmem' x]; simp
      rw [hsize, this]; rfl
  · rcases (IsTrichotomous.trichotomous a c : List.Lex (· < ·) a c ∨ a = c ∨
        List.Lex (· < ·) c a) with hl | he | hl
    · left
      refine ⟨hl, ?_⟩
      apply eq_of_pairwise_lex_of_mem hsorted (by simp [hl])
      intro x; rw [hmem' x]; simp [or_comm]
    · exact absurd he hac
    · right
      refine ⟨hl, ?_⟩
      apply eq_of_pairwise_lex_of_mem hsorted (by simp [hl])
      intro x; rw [hmem' x]; simp

/-- C20: starting from the empty container, for all valid `a`, `b`, `c` with `a ≠ b`,
`a ≠ c`, `b ≠ c` and `c` not a prefix of `b`, both `phfwdAdd(pf, a, b)` and the following
`phfwdAdd(pf, a, c)` succeed; afterwards `phfwdGet(pf, a)` returns `[c]`,
`phfwdReverse(pf, b)` returns exactly `[b]`, and `phfwdReverse(pf, c)`, asked before or
after the reverse lookup of `b`, returns exactly the two strings `a` and `c` in
lexicographic order. -/
theorem phfwdAdd_replace_then_query (a b c : List Char) (ha : isValidPhnum a = true)
    (hb : isValidPhnum b = true) (hc : isValidPhnum c = true) (hab : a ≠ b) (hac : a ≠ c)
    (_ : b ≠ c) (hpre : ¬ c <+: b) :
    ∃ pf1 pf2, phfwdAdd phfwdNew a b = some (true, pf1) ∧
      phfwdAdd pf1 a c = some (true, pf2) ∧
      phfwdGet pf2 a = some { size := 1, numbers := [c] } ∧
      (∃ pf3, phfwdReverse pf2 b = some ({ size := 1, numbers := [b] }, pf3) ∧
        ∃ rc pf4, phfwdReverse pf3 c = some (rc, pf4) ∧ rc.size = 2 ∧
          ((List.Lex (· < ·) a c ∧ rc.numbers = [a, c]) ∨
           (List.Lex (· < ·) c a ∧ rc.numbers = [c, a]))) ∧
      (∃ rc pf4, phfwdReverse pf2 c = some (rc, pf4) ∧ rc.size = 2 ∧
        ((List.Lex (· < ·) a c ∧ rc.numbers = [a, c]) ∨
         (List.Lex (· < ·) c a ∧ rc.numbers = [c, a]))) := by
  obtain ⟨pf1, pf2, h1, h2, hO⟩ := onlyForwarding_after_two_adds ha hb hc hab hac
  obtain ⟨pf3, h3⟩ := phfwdReverse_of_onlyForwarding_other hO hb hpre
  have hO3 := onlyForwarding_after_reverse hO hb h3
  exact ⟨pf1, pf2, h1, h2, phfwdGet_of_onlyForwarding hO ha,
    ⟨pf3, h3, phfwdReverse_of_onlyForwarding_target hO3 hc hac⟩,
    phfwdReverse_of_onlyForwarding_target hO hc hac⟩

/-- Witness for C20: `a = 5`, `b = 77`, `c = 88`. -/
theorem phfwdAdd_replace_then_query_witness :
    isValidPhnum "5".toList = true ∧ isValidPhnum "77".toList = true ∧
      isValidPhnum "88".toList = true ∧ "5".toList ≠ "77".toList ∧
      "5".toList ≠ "88".toList ∧ "77".toList ≠ "88".toList ∧
      ¬ "88".toList <+: "77".toList ∧
      ∃ pf1 pf2, phfwdAdd phfwdNew "5".toList "77".toList = some (true, pf1) ∧
        phfwdAdd pf1 "5".toList "88".toList = some (true, pf2) ∧
        phfwdGet pf2 "5".toList = some { size := 1, numbers := ["88".toList] } ∧
        (∃ pf3, phfwdReverse pf2 "77".toList =
            some ({ size := 1, numbers := ["77".toList] }, pf3) ∧
          ∃ rc pf4, phfwdReverse pf3 "88".toList = some (rc, pf4) ∧ rc.size = 2 ∧
            ((List.Lex (· < ·) "5".toList "88".toList ∧
                rc.numbers = ["5".toList, "88".toList]) ∨
             (List.Lex (· < ·) "88".toList "5".toList ∧
                rc.numbers = ["88".toList, "5".toList]))) ∧
        (∃ rc pf4, phfwdReverse pf2 "88".toList = some (rc, pf4) ∧ rc.size = 2 ∧
          ((List.Lex (· < ·) "5".toList "88".toList ∧
              rc.numbers = ["5".toList, "88".toList]) ∨
           (List.Lex (· < ·) "88".toList "5".toList ∧
              rc.numbers = ["88".toList, "5".toList]))) :=
  ⟨by decide, by decide, by decide, by decide, by decide, by decide, by decide,
    phfwdAdd_replace_then_query "5".toList "77".toList "88".toList (by decide) (by decide)
      (by decide) (by decide) (by decide) (by decide) (by decide)⟩

/-! ## Properties of the public operations, third part -/

/-- C23: in every reachable state, every node of the forward trie `F` and of the reverse
trie `R` has its counter `nonNullChilds` equal to the number of non-null child slots. -/
theorem reachable_counters_exact (pf : PhoneForward) (h : Reachable pf) :
    (∀ path node, nodeAt pf.redirections path = some node →
      node.nonNullChilds =
        ((Finset.univ.filter (fun i => (node.childs i).isSome = true)).card : Int)) ∧
    (∀ path node, nodeAt pf.prefixes path = some node →
      node.nonNullChilds =
        ((Finset.univ.filter (fun i => (node.childs i).isSome = true)).card : Int)) :=
  ⟨fun path node hn => (reachable_inv h).countF path node hn,
   fun path node hn => (reachable_inv h).countR path node hn⟩

theorem reachable_counters_exact_witness :
    Reachable demoStale ∧
    ((∀ path node, nodeAt demoStale.redirections path = some node →
      node.nonNullChilds =
        ((Finset.univ.filter (fun i => (node.childs i).isSome = true)).card : Int)) ∧
    (∀ path node, nodeAt demoStale.prefixes path = some node →
      node.nonNullChilds =
        ((Finset.univ.filter (fun i => (node.childs i).isSome = true)).card : Int))) :=
  ⟨reachable_demoStale, reachable_counters_exact demoStale reachable_demoStale⟩

/-- C24: in every reachable state the data list of every node of the forward trie `F`
holds at most one payload. -/
theorem reachable_forward_single_payload (pf : PhoneForward) (h : Reachable pf) :
    ∀ path node, nodeAt pf.redirections path = some node → node.data.length ≤ 1 := by
  intro path node hn
  have := (reachable_inv h).single path
  simpa [dataAt, hn] using this

theorem reachable_forward_single_payload_witness :
    Reachable demoStale ∧
    ∀ path node, nodeAt demoStale.redirections path = some node → node.data.length ≤ 1 :=
  ⟨reachable_demoStale, reachable_forward_single_payload demoStale reachable_demoStale⟩

/-- C27: the call `isValidPhnum(str)` returns true exactly when `str` is non-null,
non-empty and every character is one of the twelve symbols `0123456789:;`; the empty
string and every string that contains `/` or `<` are rejected. -/
theorem isValidPhnum_characterisation :
    (∀ str : Option (List Char), isValidPhnumPtr str = true ↔
      ∃ s, str = some s ∧ s ≠ [] ∧ ∀ c ∈ s, c ∈ "0123456789:;".toList) ∧
    isValidPhnumPtr none = false ∧
    isValidPhnumPtr (some []) = false ∧
    (∀ s : List Char, '/' ∈ s ∨ '<' ∈ s → isValidPhnumPtr (some s) = false) := by
  refine ⟨?_, rfl, rfl, ?_⟩
  · intro str
    cases str with
    | none => simp [isValidPhnumPtr]
    | some s =>
      simp only [isValidPhnumPtr, isValidPhnum_iff_alphabet, Option.some.injEq,
        exists_eq_left']
      rfl
  · intro s hs
    cases hv : isValidPhnumPtr (some s) with
    | false => rfl
    | true =>
      exfalso
      have h2 := ((isValidPhnum_iff_alphabet s).1 hv).2
      rcases hs with hs | hs
      · exact absurd (h2 _ hs) (by decide)
      · exact absurd (h2 _ hs) (by decide)

theorem isValidPhnum_characterisation_witness :
    isValidPhnumPtr (some "12:;".toList) = true ∧
    isValidPhnumPtr (some "1/2".toList) = false ∧
    isValidPhnumPtr (some "<".toList) = false :=
  ⟨(isValidPhnum_characterisation.1 (some "12:;".toList)).2
     ⟨"12:;".toList, rfl, by decide, by decide⟩,
   isValidPhnum_characterisation.2.2.2 "1/2".toList (Or.inl (by decide)),
   isValidPhnum_characterisation.2.2.2 "<".toList (Or.inr (by decide))⟩

/-- C28: for a result sequence `seq` (its array holds exactly `size` strings), the call
`phnumGet(seq, i)` returns the `i`-th string when `i < size` and `NULL` when
`i ≥ size`. -/
theorem phnumGet_index (seq : PhoneNumbers) (i : Nat)
    (hsize : seq.size = seq.numbers.length) :
    (∀ h : i < seq.numbers.length, phnumGet seq i = some (seq.numbers.get ⟨i, h⟩)) ∧
    (i < seq.size → (phnumGet seq i).isSome = true) ∧
    (seq.size ≤ i → phnumGet seq i = none) := by
  refine ⟨?_, ?_, ?_⟩
  · intro h
    unfold phnumGet
    rw [if_neg (by omega)]
    exact List.get?_eq_get h
  · intro h
    unfold phnumGet
    rw [if_neg (by omega)]
    rw [List.get?_eq_get (by omega)]
    rfl
  · intro h
    unfold phnumGet
    rw [if_pos h]

theorem phnumGet_index_witness :
    (({ size := 2, numbers := ["12".toList, "7".toList] } : PhoneNumbers).size =
      ({ size := 2, numbers := ["12".toList, "7".toList] } : PhoneNumbers).numbers.length) ∧
    phnumGet { size := 2, numbers := ["12".toList, "7".toList] } 1 = some "7".toList ∧
    phnumGet { size := 2, numbers := ["12".toList, "7".toList] } 2 = none :=
  ⟨rfl,
   (phnumGet_index { size := 2, numbers := ["12".toList, "7".toList] } 1 rfl).1 (by decide),
   (phnumGet_index { size := 2, numbers := ["12".toList, "7".toList] } 2 rfl).2.2
     (Nat.le_refl 2)⟩

/-- C29: on a null sequence pointer the body of `phnumGet` dereferences `pnum` for its
`size` field before any test, so the call does not return `NULL` (nor anything else),
whatever the index; the header promises `NULL` for this case. -/
theorem phnumGet_null_pointer (idx : Nat) :
    phnumGetPtr none idx = none ∧ phnumGetPtr none idx ≠ some none ∧
    ∀ p : PhoneNumbers, phnumGetPtr (some p) idx = some (phnumGet p idx) :=
  ⟨rfl, by simp [phnumGetPtr], fun _ => rfl⟩

/-! ### The comparison function as an order -/

theorem lexBefore_cons {a : Char} {x y : List Char} (h : LexBefore x y) :
    LexBefore (a :: x) (a :: y) := by
  rcases h with ⟨d, s, rfl⟩ | ⟨u, c, e, xs, ys, rfl, rfl, hlt⟩
  · exact Or.inl ⟨d, s, rfl⟩
  · exact Or.inr ⟨a :: u, c, e, xs, ys, rfl, rfl, hlt⟩

theorem lexBefore_iff_lex (x y : List Char) : LexBefore x y ↔ List.Lex (· < ·) x y := by
  constructor
  · rintro (⟨d, s, rfl⟩ | ⟨u, c, e, xs, ys, rfl, rfl, hlt⟩)
    · induction x with
      | nil => exact List.Lex.nil
      | cons a as ih => exact List.Lex.cons ih
    · induction u with
      | nil => exact List.Lex.rel hlt
      | cons a as ih => exact List.Lex.cons ih
  · intro h
    induction h with
    | nil => exact Or.inl ⟨_, _, rfl⟩
    | cons _ ih => exact lexBefore_cons ih
    | rel hlt => exact Or.inr ⟨[], _, _, _, _, rfl, rfl, hlt⟩

theorem lexicographicalCompare_values (x y : List Char) :
    lexicographicalCompare x y = 0 ∨ lexicographicalCompare x y = -1 ∨
      lexicographicalCompare x y = 1 := by
  induction x generalizing y with
  | nil => cases y <;> simp [lexicographicalCompare]
  | cons a as ih =>
    cases y with
    | nil => simp [lexicographicalCompare]
    | cons b bs =>
      simp only [lexicographicalCompare]
      split
      · simp
      · split
        · simp
        · exact ih bs

theorem lexicographicalCompare_neg (x y : List Char) :
    lexicographicalCompare x y = - lexicographicalCompare y x := by
  induction x generalizing y with
  | nil => cases y <;> simp [lexicographicalCompare]
  | cons a as ih =>
    cases y with
    | nil => simp [lexicographicalCompare]
    | cons b bs =>
      simp only [lexicographicalCompare]
      by_cases h1 : a < b
      · have h2 : ¬ b < a := not_lt.2 (le_of_lt h1)
        simp [h1, h2]
      · by_cases h2 : b < a
        · simp [h1, h2]
        · simp [h1, h2, ih bs]

/-- C26: on strings over the twelve-symbol alphabet `lexicographicalCompare` is the
standard lexicographic order: it returns 0 exactly for equal strings, -1 exactly when the
first string is a proper prefix of the second or holds the smaller symbol at the first
position where they differ, and 1 otherwise; hence `compare(x, y) = -compare(y, x)` and a
proper prefix is strictly less than every extension of it. -/
theorem lexicographicalCompare_standard (x y : List Char)
    (_ : ∀ c ∈ x, c ∈ alphabet) (_ : ∀ c ∈ y, c ∈ alphabet) :
    (lexicographicalCompare x y = 0 ↔ x = y) ∧
    (lexicographicalCompare x y = -1 ↔ LexBefore x y) ∧
    (lexicographicalCompare x y = 1 ↔ x ≠ y ∧ ¬ LexBefore x y) ∧
    lexicographicalCompare x y = - lexicographicalCompare y x ∧
    (∀ d s, d ∈ alphabet → (∀ c ∈ s, c ∈ alphabet) →
      lexicographicalCompare x (x ++ d :: s) = -1 ∧
      lexicographicalCompare (x ++ d :: s) x = 1) := by
  have h0 := lexicographicalCompare_eq_zero x y
  have h1 : lexicographicalCompare x y = -1 ↔ LexBefore x y := by
    rw [lexicographicalCompare_eq_neg_one, lexBefore_iff_lex]
  have hpre : ∀ d s, lexicographicalCompare x (x ++ d :: s) = -1 := fun d s =>
    (lexicographicalCompare_eq_neg_one _ _).2
      ((lexBefore_iff_lex _ _).1 (Or.inl ⟨d, s, rfl⟩))
  refine ⟨h0, h1, ?_, lexicographicalCompare_neg x y, ?_⟩
  · rw [Ne, ← not_congr h0, ← not_congr h1]
    rcases lexicographicalCompare_values x y with h | h | h <;> simp [h]
  · intro d s _ _
    refine ⟨hpre d s, ?_⟩
    rw [lexicographicalCompare_neg, hpre d s]
    rfl

theorem lexicographicalCompare_standard_witness :
    (lexicographicalCompare "12".toList "125".toList = -1 ↔
      LexBefore "12".toList "125".toList) ∧
    lexicographicalCompare "12".toList "125".toList =
      - lexicographicalCompare "125".toList "12".toList ∧
    lexicographicalCompare "12".toList ("12".toList ++ '5' :: []) = -1 :=
  have h := lexicographicalCompare_standard "12".toList "125".toList (by decide) (by decide)
  ⟨h.2.1, h.2.2.2.1, (h.2.2.2.2 '5' [] (by decide) (by decide)).1⟩

/-! ### Forwardings below a common prefix -/

theorem addedBelow_reachable {p : List Char} {pf : PhoneForward} (h : AddedBelow p pf) :
    Reachable pf := by
  induction h with
  | new => exact Reachable.new
  | add num1 num2 _ _ hadd ih => exact Reachable.add num1 num2 true ih hadd

theorem addedBelow_sources {p : List Char} {pf : PhoneForward} (h : AddedBelow p pf) :
    ∀ q, dataAt pf.redirections q ≠ [] → p <+: q := by
  induction h with
  | new =>
    intro q hq
    exact absurd (dataAt_trieNodeNew q) hq
  | add num1 num2 _ hpre hadd ih =>
    intro q hq
    rw [(phfwdAdd_of_success hadd).2.2.2 q] at hq
    by_cases hqa : q = num1
    · rw [hqa]; exact hpre
    · rw [if_neg hqa] at hq
      exact ih q hq

theorem phfwdGet_of_forward_empty {pf : PhoneForward}
    (hF : ∀ q, dataAt pf.redirections q = []) {n : List Char}
    (hn : isValidPhnum n = true) :
    phfwdGet pf n = some { size := 1, numbers := [n] } :=
  phfwdGet_of_none pf hn (fun _ _ => hF _)

theorem phfwdReverse_of_forward_empty {pf : PhoneForward}
    (hF : ∀ q, dataAt pf.redirections q = []) {n : List Char}
    (hn : isValidPhnum n = true) :
    ∃ pf1, phfwdReverse pf n = some ({ size := 1, numbers := [n] }, pf1) ∧
      pf1.redirections = pf.redirections := by
  obtain ⟨res, R1, hrev, _, hmem, hsorted, hsize⟩ := phfwdReverse_spec pf hn
  have hnum : res.numbers = [n] := by
    refine eq_of_pairwise_lex_of_mem hsorted (List.pairwise_singleton _ _) ?_
    intro x
    rw [hmem x, List.mem_singleton]
    constructor
    · rintro (h | ⟨k, a, _, _, _, hl, _⟩)
      · exact h
      · rw [hF a] at hl
        exact absurd hl (List.not_mem_nil _)
    · exact Or.inl
  have hres : res = { size := 1, numbers := [n] } := by
    cases res with
    | mk size numbers =>
      simp only at hnum hsize
      subst hnum
      simp [hsize]
  refine ⟨{ redirections := pf.redirections, prefixes := R1 }, ?_, rfl⟩
  rw [hrev, hres]

/-- C21: starting from the empty container, after any finite sequence of successful
`phfwdAdd` calls whose sources all have the valid number `p` as a prefix, the call
`phfwdRemove(pf, p)` returns, and afterwards (also after any number of further reverse
lookups, which leave the forward trie as it is) for every valid `n` the call
`phfwdGet(pf, n)` returns `[n]` and `phfwdReverse(pf, n)` returns `[n]`. -/
theorem phfwdRemove_common_prefix_clears (p : List Char) (hp : isValidPhnum p = true)
    (pf : PhoneForward) (h : AddedBelow p pf) :
    ∃ pf1, phfwdRemove pf p = some pf1 ∧
      ∀ pf2, pf2.redirections = pf1.redirections →
        ∀ n, isValidPhnum n = true →
          phfwdGet pf2 n = some { size := 1, numbers := [n] } ∧
          ∃ pf3, phfwdReverse pf2 n = some ({ size := 1, numbers := [n] }, pf3) ∧
            pf3.redirections = pf1.redirections := by
  obtain ⟨F1, hrem, hd, _⟩ := phfwdRemove_spec (reachable_inv (addedBelow_reachable h)) hp
  refine ⟨{ redirections := F1, prefixes := pf.prefixes }, hrem, ?_⟩
  have hempty : ∀ q, dataAt F1 q = [] := by
    intro q
    rw [hd q]
    by_cases hpq : p <+: q
    · rw [if_pos hpq]
    · rw [if_neg hpq]
      by_contra hne
      exact hpq (addedBelow_sources h q hne)
  intro pf2 h2 n hn
  have hF : ∀ q, dataAt pf2.redirections q = [] := by
    intro q; rw [h2]; exact hempty q
  refine ⟨phfwdGet_of_forward_empty hF hn, ?_⟩
  obtain ⟨pf3, hrev, h3⟩ := phfwdReverse_of_forward_empty hF hn
  exact ⟨pf3, hrev, h3.trans h2⟩

theorem phfwdRemove_common_prefix_clears_witness :
    isValidPhnum "12".toList = true ∧ AddedBelow "12".toList demoSubtree ∧
    ∃ pf1, phfwdRemove demoSubtree "12".toList = some pf1 ∧
      ∀ pf2, pf2.redirections = pf1.redirections →
        ∀ n, isValidPhnum n = true →
          phfwdGet pf2 n = some { size := 1, numbers := [n] } ∧
          ∃ pf3, phfwdReverse pf2 n = some ({ size := 1, numbers := [n] }, pf3) ∧
            pf3.redirections = pf1.redirections :=
  have hb : AddedBelow "12".toList demoSubtree :=
    AddedBelow.add "125".toList "99".toList
      (AddedBelow.add "12".toList "34".toList AddedBelow.new (by decide) rfl)
      (by decide) rfl
  ⟨by decide, hb, phfwdRemove_common_prefix_clears "12".toList (by decide) demoSubtree hb⟩

/-! ### Which nodes exist after an insertion or a deletion -/

theorem nodeAt_trieNodeNew_cons (c : Char) (cs : List Char) :
    nodeAt trieNodeNew (c :: cs) = none := by
  cases hs : slot c with
  | none => exact nodeAt_cons_noslot cs hs
  | some i => exact nodeAt_cons_none cs hs rfl

theorem trieAddText_nodes {text data : List Char} {append : Bool} :
    ∀ {T T1 : TrieNode} {prev : List (List Char)},
      trieAddText T text data append = some (T1, prev) →
      ∀ q, (nodeAt T1 q).isSome = true → (nodeAt T q).isSome = true ∨ q <+: text := by
  induction text with
  | nil =>
    intro T T1 prev h q hq
    have hch : T1.childs = T.childs := by
      simp only [trieAddText] at h
      split at h
      · simp only [Option.some.injEq, Prod.mk.injEq] at h; rw [← h.1]
      · split at h <;>
          (simp only [Option.some.injEq, Prod.mk.injEq] at h; rw [← h.1])
    cases q with
    | nil => exact Or.inl rfl
    | cons d ds =>
      left
      rw [← nodeAt_cons_congr hch d ds]
      exact hq
  | cons c cs ih =>
    intro T T1 prev h q hq
    cases q with
    | nil => exact Or.inl rfl
    | cons d ds =>
      simp only [trieAddText] at h
      cases hi : slot c with
      | none => simp [hi] at h
      | some i =>
        simp only [hi] at h
        cases hn : T.childs i with
        | none =>
          simp only [hn] at h
          cases hrec : trieAddText trieNodeNew cs data append with
          | none => simp [hrec] at h
          | some res =>
            obtain ⟨next, prev1⟩ := res
            simp only [hrec, Option.some.injEq, Prod.mk.injEq] at h
            have hch : T1.childs = Function.update T.childs i (some next) := by
              rw [← h.1]
            by_cases hd : slot d = some i
            · obtain rfl := slot_inj hi hd
              rw [nodeAt_childs_update_same hch ds hd] at hq
              right
              rcases ih hrec ds hq with h1 | h1
              · cases ds with
                | nil => exact ⟨cs, rfl⟩
                | cons e es => simp [nodeAt_trieNodeNew_cons] at h1
              · exact List.cons_prefix_cons.2 ⟨rfl, h1⟩
            · left
              rw [nodeAt_childs_update_other hch ds hd] at hq
              exact hq
        | some nx =>
          simp only [hn] at h
          cases hrec : trieAddText nx cs data append with
          | none => simp [hrec] at h
          | some res =>
            obtain ⟨next, prev1⟩ := res
            simp only [hrec, Option.some.injEq, Prod.mk.injEq] at h
            have hch : T1.childs = Function.update T.childs i (some next) := by
              rw [← h.1]
            by_cases hd : slot d = some i
            · obtain rfl := slot_inj hi hd
              rw [nodeAt_childs_update_same hch ds hd] at hq
              rcases ih hrec ds hq with h1 | h1
              · left
                rw [nodeAt_cons_some ds hi hn]
                exact h1
              · right
                exact List.cons_prefix_cons.2 ⟨rfl, h1⟩
            · left
              rw [nodeAt_childs_update_other hch ds hd] at hq
              exact hq

theorem nodeAt_updateAt_shrink (g : TrieNode → TrieNode)
    (hg : ∀ n q, (nodeAt (g n) q).isSome = true → (nodeAt n q).isSome = true) :
    ∀ (p : List Char) (T : TrieNode) (q : List Char),
      (nodeAt (updateAt g T p) q).isSome = true → (nodeAt T q).isSome = true := by
  intro p
  induction p with
  | nil =>
    intro T q hq
    exact hg T q hq
  | cons c cs ih =>
    intro T q hq
    cases hi : slot c with
    | none =>
      simp only [updateAt, hi] at hq
      exact hq
    | some i =>
      cases hn : T.childs i with
      | none =>
        simp only [updateAt, hi, hn] at hq
        exact hq
      | some next =>
        simp only [updateAt, hi, hn] at hq
        cases q with
        | nil => rfl
        | cons d ds =>
          by_cases hd : slot d = some i
          · rw [nodeAt_childs_update_same rfl ds hd] at hq
            rw [nodeAt_cons_some ds hd hn]
            exact ih next ds hq
          · rw [nodeAt_childs_update_other rfl ds hd] at hq
            exact hq

theorem nodeAt_data_isSome (n : TrieNode) (f : List (List Char) → List (List Char))
    (q : List Char) :
    (nodeAt { n with data := f n.data } q).isSome = (nodeAt n q).isSome := by
  cases q with
  | nil => rfl
  | cons d ds => exact congrArg Option.isSome (nodeAt_cons_congr rfl d ds)

theorem nodeAt_clear_slot_isSome (n : TrieNode) (i : Fin 12) (q : List Char)
    (h : (nodeAt { n with
                     nonNullChilds := n.nonNullChilds - 1
                     childs := Function.update n.childs i none } q).isSome = true) :
    (nodeAt n q).isSome = true := by
  cases q with
  | nil => rfl
  | cons d ds =>
    by_cases hd : slot d = some i
    · rw [nodeAt_childs_update_same (T := n) rfl ds hd] at h
      simp at h
    · rw [nodeAt_childs_update_other (T := n) rfl ds hd] at h
      exact h

theorem exists_other_child {n : TrieNode} (hloc : LocalCount n) {i : Fin 12}
    (hi : (n.childs i).isSome = true) (hne : n.nonNullChilds ≠ 1) :
    ∃ j, j ≠ i ∧ (n.childs j).isSome = true := by
  by_contra hcon
  push_neg at hcon
  apply hne
  rw [hloc]
  have : Finset.univ.filter (fun j => (n.childs j).isSome = true) = {i} := by
    ext j
    simp only [Finset.mem_filter, Finset.mem_univ, true_and, Finset.mem_singleton]
    constructor
    · intro hj
      by_contra hji
      exact hcon j hji hj
    · rintro rfl
      exact hi
  rw [this]
  rfl

theorem exists_child {n : TrieNode} (hloc : LocalCount n) (hne : n.nonNullChilds ≠ 0) :
    ∃ j, (n.childs j).isSome = true := by
  by_contra hcon
  push_neg at hcon
  apply hne
  rw [hloc]
  have : Finset.univ.filter (fun j => (n.childs j).isSome = true) = ∅ := by
    ext j
    simp only [Finset.mem_filter, Finset.mem_univ, true_and, Finset.not_mem_empty,
      iff_false]
    exact hcon j
  rw [this]
  rfl

theorem nodeAt_snoc_symbolOf {T n : TrieNode} {p : List Char} (hp : nodeAt T p = some n)
    {j : Fin 12} (hj : (n.childs j).isSome = true) :
    (nodeAt T (p ++ [symbolOf j])).isSome = true := by
  obtain ⟨nx, hnx⟩ := Option.isSome_iff_exists.1 hj
  rw [nodeAt_append, hp]
  simp only [Option.some_bind]
  rw [nodeAt_cons_some [] (slot_symbolOf j) hnx]
  rfl

/-! ### Dead chains are trimmed -/

theorem trieDeleteSubtree_shape {T : TrieNode} (hT : CountOK T) {p : List Char} (hp : p ≠ [])
    (hnode : (nodeAt T p).isSome = true) :
    ∃ c pp tl parent i, p = pp ++ c :: tl ∧ nodeAt T pp = some parent ∧
      slot c = some i ∧ (parent.childs i).isSome = true ∧
      (∀ q, (pp ++ [c]) <+: q → ¬ p <+: q → dataAt T q = []) ∧
      (pp = [] ∨ ¬ (parent.nonNullChilds = 1 ∧ parent.data.isEmpty = true)) ∧
      trieDeleteSubtree T p = some (updateAt
        (fun n => { n with
                      nonNullChilds := n.nonNullChilds - 1
                      childs := Function.update n.childs i none })
        T pp) := by
  have hrp : p.reverse ≠ [] := by simpa using hp
  have hnode' : (nodeAt T p.reverse.reverse).isSome = true := by simpa using hnode
  obtain ⟨c, pr, tl, h1, h2, h3, h4⟩ := climb_spec hT p.reverse hrp hnode'
  rw [List.reverse_reverse] at h2 h3
  have hy : (nodeAt T (pr.reverse ++ [c])).isSome = true := by
    apply nodeAt_prefix_isSome (r := tl)
    rw [List.append_assoc]; simpa [← h2] using hnode
  have hpar := nodeAt_prefix_isSome hy
  obtain ⟨parent, hparent⟩ := Option.isSome_iff_exists.1 hpar
  obtain ⟨i, hi, hch⟩ := child_of_nodeAt_snoc hparent hy
  have hloc : LocalCount parent := hT _ _ hparent
  have hpos : 0 < (Finset.univ.filter (fun j => (parent.childs j).isSome = true)).card :=
    Finset.card_pos.2 ⟨i, by simp [hch]⟩
  have hstop : pr.reverse = [] ∨ ¬ (parent.nonNullChilds = 1 ∧ parent.data.isEmpty = true) := by
    rcases h4 with h4 | h4
    · left; simp [h4]
    · right; exact h4 parent hparent
  have hassert : parent.nonNullChilds - 1 > 0 ∨ ¬ parent.data.isEmpty = true ∨
      pr.isEmpty = true := by
    rcases hstop with h5 | h5
    · right; right; simpa using h5
    · by_cases hd : parent.data.isEmpty = true
      · left
        have hne1 : parent.nonNullChilds ≠ 1 := fun h => h5 ⟨h, hd⟩
        simp only [LocalCount] at hloc
        omega
      · right; left; exact hd
  refine ⟨c, pr.reverse, tl, parent, i, h2, hparent, hi, hch, h3, hstop, ?_⟩
  simp only [trieDeleteSubtree, h1, hparent, hi]
  have hnn : ¬ (parent.childs i).isNone = true := by
    cases hx : parent.childs i <;> simp [hx] at hch ⊢
  rw [if_neg hnn, if_neg (not_not.2 hassert)]

theorem not_prefix_of_snoc_ne {pp tl r : List Char} {c d : Char} (h : c ≠ d) :
    ¬ (pp ++ c :: tl) <+: (pp ++ d :: r) := by
  intro hpre
  rw [List.prefix_append_right_inj] at hpre
  exact h (List.cons_prefix_cons.1 hpre).1

theorem noDead_trieDeleteSubtree {T T1 : TrieNode} (hT : CountOK T) {p : List Char}
    (hp : p ≠ []) (hnode : (nodeAt T p).isSome = true)
    (hdel : trieDeleteSubtree T p = some T1)
    (hlive : ∀ q, q ≠ [] → (nodeAt T q).isSome = true → ¬ q <+: p → ¬ p <+: q →
      ∃ r, dataAt T (q ++ r) ≠ []) :
    NoDead T1 := by
  obtain ⟨c, pp, tl, parent, i, hpeq, hparent, hi, hch, _, hstop, heq⟩ :=
    trieDeleteSubtree_shape hT hp hnode
  obtain ⟨T2, hT2, _, hdata⟩ := trieDeleteSubtree_spec hT hp hnode
  have hT12 : T2 = T1 := by rw [hT2] at hdel; exact Option.some.inj hdel
  subst hT12
  have hT1 : T2 = updateAt
      (fun n => { n with
                    nonNullChilds := n.nonNullChilds - 1
                    childs := Function.update n.childs i none }) T pp := by
    rw [hT2] at heq; exact Option.some.inj heq
  intro q hq hex
  -- the node exists in the old tree and does not lie below the detached node
  have hexT : (nodeAt T q).isSome = true := by
    rw [hT1] at hex
    exact nodeAt_updateAt_shrink _ (fun n r h => nodeAt_clear_slot_isSome n i r h) pp T q hex
  have hnoty : ¬ (pp ++ [c]) <+: q := by
    rintro ⟨r, rfl⟩
    rw [hT1, List.append_assoc, nodeAt_updateAt_append, hparent] at hex
    simp only [Option.some_bind, List.singleton_append] at hex
    rw [nodeAt_childs_update_same (T := parent) rfl r hi] at hex
    simp at hex
  have hkeep : ∀ r, ¬ p <+: r → dataAt T r ≠ [] → dataAt T2 r ≠ [] := by
    intro r hr hd
    rw [hdata r, if_neg hr]; exact hd
  by_cases hqpp : q <+: pp
  · -- an ancestor of the detached node: the parent justifies it
    obtain ⟨r0, hr0⟩ := hqpp
    have hppne : pp ≠ [] := by
      intro h
      rw [h] at hr0
      exact hq (List.append_eq_nil.1 hr0).1
    have hstop2 : ¬ (parent.nonNullChilds = 1 ∧ parent.data.isEmpty = true) := by
      rcases hstop with h | h
      · exact absurd h hppne
      · exact h
    by_cases hd : parent.data.isEmpty = true
    · have hne1 : parent.nonNullChilds ≠ 1 := fun h => hstop2 ⟨h, hd⟩
      obtain ⟨j, hji, hj⟩ := exists_other_child (hT _ _ hparent) hch hne1
      have hcj : c ≠ symbolOf j := by
        intro h
        rw [h, slot_symbolOf] at hi
        exact hji (Option.some.inj hi)
      have hz := nodeAt_snoc_symbolOf hparent hj
      have hz1 : ¬ (pp ++ [symbolOf j]) <+: p := by
        rw [hpeq]
        exact not_prefix_of_snoc_ne (Ne.symm hcj)
      have hz2 : ¬ p <+: (pp ++ [symbolOf j]) := by
        rw [hpeq]
        exact not_prefix_of_snoc_ne hcj
      obtain ⟨r, hr⟩ := hlive (pp ++ [symbolOf j]) (by simp) hz hz1 hz2
      refine ⟨r0 ++ symbolOf j :: r, ?_⟩
      have hstr : q ++ (r0 ++ symbolOf j :: r) = pp ++ [symbolOf j] ++ r := by
        rw [← List.append_assoc, hr0]; simp
      rw [hstr]
      apply hkeep _ _ hr
      rw [hpeq, List.append_assoc]
      exact not_prefix_of_snoc_ne hcj
    · refine ⟨r0, ?_⟩
      rw [hr0]
      apply hkeep
      · intro h
        have := h.length_le
        rw [hpeq] at this
        simp at this
      · rw [dataAt_eq_of_nodeAt hparent]
        intro h
        exact hd (by rw [h]; rfl)
  · -- not comparable with the deleted node: its own descendants are untouched
    have hnp : ¬ p <+: q := by
      intro h
      apply hnoty
      refine List.IsPrefix.trans ?_ h
      rw [hpeq]
      exact ⟨tl, by simp⟩
    have hnq : ¬ q <+: p := by
      intro h
      have hy : (pp ++ [c]) <+: p := by rw [hpeq]; exact ⟨tl, by simp⟩
      have hpp : pp <+: p := by rw [hpeq]; exact ⟨c :: tl, rfl⟩
      rcases List.prefix_or_prefix_of_prefix h hy with h1 | h1
      · rcases List.prefix_or_prefix_of_prefix h hpp with h2 | h2
        · exact hqpp h2
        · -- `pp <+: q <+: pp ++ [c]`
          have hl1 := h1.length_le
          have hl2 := h2.length_le
          simp only [List.length_append, List.length_singleton] at hl1
          by_cases hlen : q.length = pp.length
          · exact hqpp (by rw [List.IsPrefix.eq_of_length h2 hlen.symm])
          · have hlen2 : q.length = (pp ++ [c]).length := by
              simp only [List.length_append, List.length_singleton]; omega
            exact hnoty (by rw [List.IsPrefix.eq_of_length h1 hlen2])
      · exact hnoty h1
    obtain ⟨r, hr⟩ := hlive q hq hexT hnq hnp
    refine ⟨r, hkeep _ ?_ hr⟩
    intro h
    rcases List.prefix_or_prefix_of_prefix h (List.prefix_append q r) with h1 | h1
    · exact hnp h1
    · exact hnq h1

theorem noDead_trieAddText {T T1 : TrieNode} {text data : List Char} {append : Bool}
    {prev : List (List Char)} (hs : AllSlots text)
    (h : trieAddText T text data append = some (T1, prev)) (hN : NoDead T) : NoDead T1 := by
  obtain ⟨T2, hT2, hdata, _⟩ := trieAddText_spec T text data append hs
  have hT12 : T2 = T1 := by
    rw [hT2] at h
    exact (Prod.mk.inj (Option.some.inj h)).1
  subst hT12
  have hadded : dataAt T2 text ≠ [] := by
    rw [hdata text, if_pos rfl]
    unfold addedData
    split
    · simp
    · split <;> simp
  intro q hq hex
  rcases trieAddText_nodes h q hex with h1 | ⟨r, hr⟩
  · obtain ⟨r, hr⟩ := hN q hq h1
    refine ⟨r, ?_⟩
    by_cases hqt : q ++ r = text
    · rw [hqt]; exact hadded
    · rw [hdata, if_neg hqt]; exact hr
  · exact ⟨r, by rw [hr]; exact hadded⟩

theorem noDead_trieNodeNew : NoDead trieNodeNew := by
  intro q hq hex
  cases q with
  | nil => exact absurd rfl hq
  | cons c cs => simp [nodeAt_trieNodeNew_cons] at hex

/-! ### The forward trie has no dead chains -/

theorem phfwdRemove_cases {pf pf1 : PhoneForward} {num : List Char}
    (h : phfwdRemove pf num = some pf1) :
    pf1 = pf ∨ (isValidPhnum num = true ∧ phfwdRemoveWalk pf.redirections num = some true ∧
      ∃ F1, trieDeleteSubtree pf.redirections num = some F1 ∧
        pf1 = { redirections := F1, prefixes := pf.prefixes }) := by
  unfold phfwdRemove at h
  cases hv : isValidPhnum num with
  | false =>
    simp only [hv, Bool.not_false, if_true, Option.some.injEq] at h
    exact Or.inl h.symm
  | true =>
    simp only [hv, Bool.not_true, Bool.false_eq_true, if_false] at h
    cases hw : phfwdRemoveWalk pf.redirections num with
    | none => simp [hw] at h
    | some b =>
      cases b with
      | false =>
        simp only [hw, Option.some.injEq] at h
        exact Or.inl h.symm
      | true =>
        simp only [hw] at h
        cases hd : trieDeleteSubtree pf.redirections num with
        | none => simp [hd] at h
        | some F1 =>
          simp only [hd, Option.some.injEq] at h
          exact Or.inr ⟨rfl, rfl, F1, rfl, h.symm⟩

theorem noDead_phfwdRemove {pf pf1 : PhoneForward} (hI : Inv pf) {num : List Char}
    (h : phfwdRemove pf num = some pf1) (hN : NoDead pf.redirections) :
    NoDead pf1.redirections := by
  rcases phfwdRemove_cases h with rfl | ⟨hv, hw, F1, hF1, rfl⟩
  · exact hN
  · have hwalk := phfwdRemoveWalk_spec hI.countF num (allSlots_of_valid hv)
    rw [hw] at hwalk
    have hnode : (nodeAt pf.redirections num).isSome = true :=
      (Option.some.inj hwalk).symm
    exact noDead_trieDeleteSubtree hI.countF (ne_nil_of_valid hv) hnode hF1
      (fun q hq hex _ _ => hN q hq hex)

theorem noDead_phfwdAdd {pf pf1 : PhoneForward} (hI : Inv pf) {num1 num2 : List Char}
    {r : Bool} (h : phfwdAdd pf num1 num2 = some (r, pf1)) (hN : NoDead pf.redirections) :
    NoDead pf1.redirections := by
  by_cases hc : isValidPhnum num1 = true ∧ isValidPhnum num2 = true ∧ num1 ≠ num2
  · obtain ⟨F1, R1, hadd, hF1, _⟩ := phfwdAdd_spec hI hc.1 hc.2.1 hc.2.2
    rw [hadd] at h
    have : pf1 = { redirections := F1, prefixes := R1 } :=
      ((Prod.mk.inj (Option.some.inj h)).2).symm
    rw [this]
    exact noDead_trieAddText (allSlots_of_valid hc.1) hF1 hN
  · rw [phfwdAdd_invalid hc] at h
    have : pf1 = pf := ((Prod.mk.inj (Option.some.inj h)).2).symm
    rw [this]
    exact hN

theorem phfwdReverse_redirections {pf pf1 : PhoneForward} {num : List Char}
    {res : PhoneNumbers} (h : phfwdReverse pf num = some (res, pf1)) :
    pf1.redirections = pf.redirections := by
  cases hv : isValidPhnum num with
  | true =>
    obtain ⟨res2, R1, hrev, _⟩ := phfwdReverse_spec pf hv
    rw [hrev] at h
    rw [← (Prod.mk.inj (Option.some.inj h)).2]
  | false =>
    unfold phfwdReverse at h
    simp only [hv, Bool.not_false, if_true, Option.some.injEq, Prod.mk.injEq] at h
    rw [← h.2]

theorem reachable_noDead {pf : PhoneForward} (h : Reachable pf) : NoDead pf.redirections := by
  induction h with
  | new => exact noDead_trieNodeNew
  | add num1 num2 r hr hadd ih => exact noDead_phfwdAdd (reachable_inv hr) hadd ih
  | remove num hr hrem ih => exact noDead_phfwdRemove (reachable_inv hr) hrem ih
  | reverse num res _ hrev ih => rw [phfwdReverse_redirections hrev]; exact ih
  | count W set len n _ hcount ih => rw [(phfwdNonTrivialCount_spec hcount).1]; exact ih

/-- C22: no dead chains in `F`: in every state reachable from the empty container by
`phfwdAdd`, `phfwdRemove`, `phfwdGet`, `phfwdReverse` and `phfwdNonTrivialCount`, every
non-root node of the forward trie either holds a payload or has a descendant that holds
one. -/
theorem reachable_forward_no_dead_chain (pf : PhoneForward) (h : Reachable pf) :
    ∀ path node, path ≠ [] → nodeAt pf.redirections path = some node →
      node.data ≠ [] ∨
      ∃ below desc, below ≠ [] ∧ nodeAt pf.redirections (path ++ below) = some desc ∧
        desc.data ≠ [] := by
  intro path node hpath hnode
  obtain ⟨r, hr⟩ := reachable_noDead h path hpath (by rw [hnode]; rfl)
  cases hd : nodeAt pf.redirections (path ++ r) with
  | none => simp [dataAt, hd] at hr
  | some desc =>
    have hdesc : desc.data ≠ [] := by simpa [dataAt, hd] using hr
    cases r with
    | nil =>
      left
      rw [List.append_nil, hnode] at hd
      rw [Option.some.inj hd]
      exact hdesc
    | cons e es => exact Or.inr ⟨e :: es, desc, by simp, hd, hdesc⟩

theorem reachable_forward_no_dead_chain_witness :
    Reachable (afterRemove demoSubtree "125".toList) ∧
    ∀ path node, path ≠ [] →
      nodeAt (afterRemove demoSubtree "125".toList).redirections path = some node →
      node.data ≠ [] ∨
      ∃ below desc, below ≠ [] ∧
        nodeAt (afterRemove demoSubtree "125".toList).redirections (path ++ below) =
          some desc ∧ desc.data ≠ [] :=
  ⟨reachable_afterRemove reachable_demoSubtree _,
   reachable_forward_no_dead_chain _ (reachable_afterRemove reachable_demoSubtree _)⟩

/-! ### Dead chains in the reverse trie -/

theorem nodeAt_updateAt_data_isSome (f : List (List Char) → List (List Char)) (T : TrieNode)
    (p q : List Char)
    (h : (nodeAt (updateAt (fun n => { n with data := f n.data }) T p) q).isSome = true) :
    (nodeAt T q).isSome = true :=
  nodeAt_updateAt_shrink _
    (fun n r hr => by rw [nodeAt_data_isSome n f r] at hr; exact hr) p T q h

theorem noDead_updateAt_data (f : List (List Char) → List (List Char)) {T cur : TrieNode}
    {text : List Char} (hT : CountOK T) (hN : NoDead T) (hcur : nodeAt T text = some cur)
    (hlive : f cur.data ≠ [] ∨ cur.nonNullChilds ≠ 0) :
    NoDead (updateAt (fun n => { n with data := f n.data }) T text) := by
  intro q hq hex
  have hexT := nodeAt_updateAt_data_isSome f T text q hex
  obtain ⟨r, hr⟩ := hN q hq hexT
  by_cases hqt : q ++ r = text
  · by_cases hf : f cur.data ≠ []
    · refine ⟨r, ?_⟩
      rw [dataAt_updateAt_data, if_pos hqt, hcur]
      exact hf
    · have hne : cur.nonNullChilds ≠ 0 := by
        rcases hlive with h | h
        · exact absurd h hf
        · exact h
      obtain ⟨j, hj⟩ := exists_child (hT _ _ hcur) hne
      have hz := nodeAt_snoc_symbolOf hcur hj
      obtain ⟨r2, hr2⟩ := hN (text ++ [symbolOf j]) (by simp) hz
      refine ⟨r ++ symbolOf j :: r2, ?_⟩
      have hstr : q ++ (r ++ symbolOf j :: r2) = text ++ [symbolOf j] ++ r2 := by
        rw [← List.append_assoc, hqt]; simp
      rw [hstr, dataAt_updateAt_data, if_neg]
      · exact hr2
      · intro h
        have := congrArg List.length h
        simp at this
  · refine ⟨r, ?_⟩
    rw [dataAt_updateAt_data, if_neg hqt]
    exact hr

theorem noDead_trieRemoveOneEntry {R R1 : TrieNode} (hR : CountOK R) (hN : NoDead R)
    {text a : List Char} (htext : text ≠ [])
    (h : trieRemoveOneEntry R text a = some R1) : NoDead R1 := by
  unfold trieRemoveOneEntry at h
  cases hcur : nodeAt R text with
  | none => simp [hcur] at h
  | some cur =>
    simp only [hcur] at h
    cases hdat : cur.data with
    | nil => simp [hdat] at h
    | cons t rest =>
      cases rest with
      | nil =>
        simp only [hdat] at h
        by_cases hta : t = a
        · simp only [hta, if_true] at h
          by_cases hz : cur.nonNullChilds = 0
          · simp only [hz, if_true] at h
            have hC1 := countOK_updateAt_data (fun _ => []) text hR
            have hnode : (nodeAt (updateAt (fun n => { n with data := [] }) R text)
                text).isSome = true := by
              have := nodeAt_updateAt_append (fun n => { n with data := [] }) R text []
              rw [List.append_nil, hcur] at this
              rw [this]; rfl
            refine noDead_trieDeleteSubtree hC1 htext hnode h ?_
            intro q hq hex hq1 _
            have hexT := nodeAt_updateAt_data_isSome (fun _ => []) R text q hex
            obtain ⟨r, hr⟩ := hN q hq hexT
            refine ⟨r, ?_⟩
            have hne : q ++ r ≠ text := fun he => hq1 ⟨r, he⟩
            rw [dataAt_updateAt_data (fun _ => []) R text (q ++ r), if_neg hne]
            exact hr
          · simp only [hz, if_false, Option.some.injEq] at h
            rw [← h]
            exact noDead_updateAt_data (fun _ => []) hR hN hcur (Or.inr hz)
        · simp [hta] at h
      | cons u rest2 =>
        simp only [hdat] at h
        by_cases hmem : a ∈ t :: u :: rest2
        · simp only [hmem, if_true, Option.some.injEq] at h
          rw [← h]
          refine noDead_updateAt_data (fun d => d.erase a) hR hN hcur (Or.inl ?_)
          intro he
          have := congrArg List.length he
          rw [hdat, List.length_erase_of_mem hmem] at this
          simp at this
        · simp [hmem] at h

theorem one_le_of_noDead {T node : TrieNode} (hT : CountOK T) (hN : NoDead T)
    {path : List Char} (hpath : path ≠ []) (hnode : nodeAt T path = some node)
    (hdata : node.data = []) : 1 ≤ node.nonNullChilds := by
  obtain ⟨r, hr⟩ := hN path hpath (by rw [hnode]; rfl)
  cases r with
  | nil =>
    rw [List.append_nil, dataAt_eq_of_nodeAt hnode] at hr
    exact absurd hdata hr
  | cons e es =>
    have hex : (nodeAt T (path ++ [e])).isSome = true := by
      apply nodeAt_prefix_isSome (r := es)
      rw [List.append_assoc, List.singleton_append]
      cases hx : nodeAt T (path ++ e :: es) with
      | none => simp [dataAt, hx] at hr
      | some _ => rfl
    obtain ⟨i, _, hch⟩ := child_of_nodeAt_snoc hnode hex
    have hloc : LocalCount node := hT _ _ hnode
    have hpos : 0 < (Finset.univ.filter (fun j => (node.childs j).isSome = true)).card :=
      Finset.card_pos.2 ⟨i, by simp [hch]⟩
    simp only [LocalCount] at hloc
    omega

/-! ### Justified chains -/

theorem reachableUnpruned_reachable {pf : PhoneForward} (h : ReachableUnpruned pf) :
    Reachable pf := by
  induction h with
  | new => exact Reachable.new
  | add num1 num2 r _ hadd ih => exact Reachable.add num1 num2 r ih hadd
  | remove num _ hrem ih => exact Reachable.remove num ih hrem

theorem reachableUnpruned_afterAdd {pf : PhoneForward} (h : ReachableUnpruned pf)
    (a b : List Char) : ReachableUnpruned (afterAdd pf a b) := by
  unfold afterAdd
  cases hadd : phfwdAdd pf a b with
  | none => exact h
  | some r => exact ReachableUnpruned.add a b r.1 h hadd

theorem reachableUnpruned_afterRemove {pf : PhoneForward} (h : ReachableUnpruned pf)
    (a : List Char) : ReachableUnpruned (afterRemove pf a) := by
  unfold afterRemove
  cases hrem : phfwdRemove pf a with
  | none => exact h
  | some r => exact ReachableUnpruned.remove a h hrem

theorem reachable_afterReverse {pf : PhoneForward} (h : Reachable pf) (a : List Char) :
    Reachable (afterReverse pf a) := by
  unfold afterReverse
  cases hrev : phfwdReverse pf a with
  | none => exact h
  | some r => exact Reachable.reverse a r.1 h hrev

theorem reachable_demoPruned : Reachable demoPruned :=
  reachable_afterReverse
    (reachable_afterRemove (reachable_afterAdd Reachable.new _ _) _) _

theorem noDead_prefixes_phfwdAdd {pf pf1 : PhoneForward} (hI : Inv pf)
    {num1 num2 : List Char} {r : Bool} (h : phfwdAdd pf num1 num2 = some (r, pf1))
    (hN : NoDead pf.prefixes) : NoDead pf1.prefixes := by
  by_cases hc : isValidPhnum num1 = true ∧ isValidPhnum num2 = true ∧ num1 ≠ num2
  · unfold phfwdAdd at h
    have hcond : (!isValidPhnum num1 || !isValidPhnum num2 || decide (num1 = num2)) = false := by
      simp [hc.1, hc.2.1, hc.2.2]
    simp only [hcond, Bool.false_eq_true, if_false] at h
    obtain ⟨F1, hF1, _, _⟩ :=
      trieAddText_spec pf.redirections num1 num2 false (allSlots_of_valid hc.1)
    simp only [Bool.false_eq_true, if_false] at hF1
    simp only [hF1] at h
    cases hU : phfwdAddUnlink pf.prefixes (dataAt pf.redirections num1) num1 with
    | none => simp [hU] at h
    | some Rm =>
      simp only [hU] at h
      cases hA : trieAddText Rm num2 num1 true with
      | none => simp [hA] at h
      | some res =>
        obtain ⟨R1, prev⟩ := res
        simp only [hA, Option.some.injEq, Prod.mk.injEq] at h
        rw [← h.2]
        have hNm : NoDead Rm := by
          unfold phfwdAddUnlink at hU
          cases hd : dataAt pf.redirections num1 with
          | nil =>
            simp only [hd, Option.some.injEq] at hU
            rw [← hU]; exact hN
          | cons t next =>
            simp only [hd] at hU
            by_cases hne : next.isEmpty = true
            · simp only [hne, if_true] at hU
              have hmem : t ∈ dataAt pf.redirections num1 := by rw [hd]; simp
              have htv := (hI.validF num1 t hmem).2
              exact noDead_trieRemoveOneEntry hI.countR hN (ne_nil_of_valid htv) hU
            · simp [hne] at hU
        exact noDead_trieAddText (allSlots_of_valid hc.2.1) hA hNm
  · rw [phfwdAdd_invalid hc] at h
    have : pf1 = pf := ((Prod.mk.inj (Option.some.inj h)).2).symm
    rw [this]
    exact hN

theorem reachableUnpruned_noDead_prefixes {pf : PhoneForward} (h : ReachableUnpruned pf) :
    NoDead pf.prefixes := by
  induction h with
  | new => exact noDead_trieNodeNew
  | add num1 num2 r hr hadd ih =>
    exact noDead_prefixes_phfwdAdd (reachable_inv (reachableUnpruned_reachable hr)) hadd ih
  | remove num _ hrem ih => rw [phfwdRemove_prefixes hrem]; exact ih

/-- C25, the claim as stated fails: after `phfwdAdd(pf, "1", "2")`, `phfwdRemove(pf, "1")`
and `phfwdReverse(pf, "2")` the node of `R` at path `2` is left with an empty data list
and no child, so it is not true that in every reachable state every non-root node of `R`
whose data list is empty has `nonNullChilds ≥ 1`. -/
theorem reverse_justified_chain_counterexample :
    ¬ (∀ pf, Reachable pf → ∀ path node, path ≠ [] →
        nodeAt pf.prefixes path = some node → node.data = [] → 1 ≤ node.nonNullChilds) := by
  intro hall
  have hev : (nodeAt demoPruned.prefixes "2".toList).map
      (fun n => (n.data, n.nonNullChilds)) = some ([], 0) := by rfl
  cases hn : nodeAt demoPruned.prefixes "2".toList with
  | none => rw [hn] at hev; simp at hev
  | some node =>
    rw [hn] at hev
    simp only [Option.map_some', Option.some.injEq, Prod.mk.injEq] at hev
    have := hall demoPruned reachable_demoPruned "2".toList node (by decide) hn hev.1
    rw [hev.2] at this
    exact absurd this (by decide)

/-- C25, amended: the justified-chain invariant holds for the forward trie `F` in every
reachable state, and for the reverse trie `R` in every state reached by `phfwdAdd` and
`phfwdRemove` alone: every non-root node whose data list is empty has
`nonNullChilds ≥ 1`.  (Lazy pruning by `phfwdReverse` and `phfwdNonTrivialCount` empties
data lists of `R` without compaction.) -/
theorem justified_chain_forward_and_unpruned_reverse (pf : PhoneForward) :
    (Reachable pf → ∀ path node, path ≠ [] →
      nodeAt pf.redirections path = some node → node.data = [] →
      1 ≤ node.nonNullChilds) ∧
    (ReachableUnpruned pf → ∀ path node, path ≠ [] →
      nodeAt pf.prefixes path = some node → node.data = [] →
      1 ≤ node.nonNullChilds) := by
  refine ⟨?_, ?_⟩
  · intro h path node hpath hnode hdata
    exact one_le_of_noDead (reachable_inv h).countF (reachable_noDead h) hpath hnode hdata
  · intro h path node hpath hnode hdata
    exact one_le_of_noDead (reachable_inv (reachableUnpruned_reachable h)).countR
      (reachableUnpruned_noDead_prefixes h) hpath hnode hdata

theorem justified_chain_forward_and_unpruned_reverse_witness :
    Reachable demoStale ∧ ReachableUnpruned demoStale ∧
    (∀ path node, path ≠ [] →
      nodeAt demoStale.redirections path = some node → node.data = [] →
      1 ≤ node.nonNullChilds) ∧
    (∀ path node, path ≠ [] →
      nodeAt demoStale.prefixes path = some node → node.data = [] →
      1 ≤ node.nonNullChilds) :=
  have hu : ReachableUnpruned demoStale :=
    reachableUnpruned_afterAdd
      (reachableUnpruned_afterRemove (reachableUnpruned_afterAdd ReachableUnpruned.new _ _) _)
      _ _
  ⟨reachable_demoStale, hu,
   (justified_chain_forward_and_unpruned_reverse demoStale).1 reachable_demoStale,
   (justified_chain_forward_and_unpruned_reverse demoStale).2 hu⟩

/-! ### The registry of named databases -/

theorem redirectionsDBFind_some {l : List (Nat × RedirectionsDatabase)} {name : List Char}
    {e : Nat × RedirectionsDatabase} (h : redirectionsDBFind l name = some e) :
    e ∈ l ∧ e.2.name = name := by
  induction l with
  | nil => simp [redirectionsDBFind] at h
  | cons current next ih =>
    simp only [redirectionsDBFind] at h
    by_cases hc : current.2.name = name
    · rw [if_pos hc] at h
      obtain rfl := Option.some.inj h
      exact ⟨List.mem_cons_self _ _, hc⟩
    · rw [if_neg hc] at h
      exact ⟨List.mem_cons_of_mem _ (ih h).1, (ih h).2⟩

theorem redirectionsDBFind_none {l : List (Nat × RedirectionsDatabase)} {name : List Char} :
    redirectionsDBFind l name = none ↔ ∀ e ∈ l, e.2.name ≠ name := by
  induction l with
  | nil => simp [redirectionsDBFind]
  | cons current next ih =>
    simp only [redirectionsDBFind]
    by_cases hc : current.2.name = name
    · rw [if_pos hc]
      constructor
      · intro h; simp at h
      · intro h; exact absurd hc (h current (List.mem_cons_self _ _))
    · rw [if_neg hc, ih]
      constructor
      · intro h e he
        rcases List.mem_cons.1 he with rfl | he
        · exact hc
        · exact h e he
      · intro h e he
        exact h e (List.mem_cons_of_mem _ he)

theorem deleteDatabaseWithNameLoop_sublist {l rest : List (Nat × RedirectionsDatabase)}
    {name : List Char} {a : Nat} (h : deleteDatabaseWithNameLoop l name = some (a, rest)) :
    rest.Sublist l := by
  induction l generalizing rest a with
  | nil => simp [deleteDatabaseWithNameLoop] at h
  | cons current next ih =>
    simp only [deleteDatabaseWithNameLoop] at h
    by_cases hc : current.2.name = name
    · rw [if_pos hc] at h
      simp only [Option.some.injEq, Prod.mk.injEq] at h
      rw [← h.2]
      exact List.sublist_cons_self _ _
    · rw [if_neg hc] at h
      cases hr : deleteDatabaseWithNameLoop next name with
      | none => simp [hr] at h
      | some res =>
        obtain ⟨a1, rest1⟩ := res
        simp only [hr, Option.some.injEq, Prod.mk.injEq] at h
        rw [← h.2]
        exact (ih hr).cons₂ _

theorem deleteDatabaseWithName_sublist (st : RedirectionsDBState) (name : List Char) :
    (deleteDatabaseWithName st name).2.redirections_database_head.Sublist
      st.redirections_database_head := by
  unfold deleteDatabaseWithName
  cases h : deleteDatabaseWithNameLoop st.redirections_database_head name with
  | none => exact List.Sublist.refl _
  | some res =>
    obtain ⟨a, rest⟩ := res
    exact deleteDatabaseWithNameLoop_sublist h

theorem updateCurrentPhfwd_names (f : PhoneForward → PhoneForward) (st : RedirectionsDBState) :
    databaseNames (updateCurrentPhfwd f st) = databaseNames st ∧
      databaseAddrs (updateCurrentPhfwd f st) = databaseAddrs st := by
  unfold databaseNames databaseAddrs updateCurrentPhfwd
  simp only [List.map_map]
  constructor
  · apply List.map_congr_left
    intro e _
    simp only [Function.comp]
    split <;> rfl
  · apply List.map_congr_left
    intro e _
    simp only [Function.comp]
    split <;> rfl

theorem setOrCreateDatabaseWithName_found {addr : Nat} {st : RedirectionsDBState}
    {name : List Char} {e : Nat × RedirectionsDatabase}
    (h : redirectionsDBFind st.redirections_database_head name = some e) :
    setOrCreateDatabaseWithName addr st name =
      (1, { st with current_database := some e.1 }) := by
  unfold setOrCreateDatabaseWithName
  rw [h]

theorem setOrCreateDatabaseWithName_fresh {addr : Nat} {st : RedirectionsDBState}
    {name : List Char} (h : redirectionsDBFind st.redirections_database_head name = none) :
    setOrCreateDatabaseWithName addr st name =
      (1, { redirections_database_head :=
              (addr, redirectionsDBNew name) :: st.redirections_database_head
            current_database := some addr }) := by
  unfold setOrCreateDatabaseWithName
  rw [h]

theorem reachableDB_nodup {st : RedirectionsDBState} (h : ReachableDB st) :
    (databaseNames st).Nodup ∧ (databaseAddrs st).Nodup := by
  induction h with
  | init => exact ⟨List.nodup_nil, List.nodup_nil⟩
  | @setOrCreate st0 addr name _ hfresh ih =>
    cases hf : redirectionsDBFind st0.redirections_database_head name with
    | some e =>
      rw [setOrCreateDatabaseWithName_found hf]
      exact ih
    | none =>
      rw [setOrCreateDatabaseWithName_fresh hf]
      refine ⟨?_, ?_⟩
      · show ((redirectionsDBNew name).name :: databaseNames st0).Nodup
        refine List.nodup_cons.2 ⟨?_, ih.1⟩
        intro hmem
        obtain ⟨e, he, hn⟩ := List.mem_map.1 hmem
        exact (redirectionsDBFind_none.1 hf) e he hn
      · show (addr :: databaseAddrs st0).Nodup
        exact List.nodup_cons.2 ⟨hfresh, ih.2⟩
  | @delete st0 name _ ih =>
    have hsub := deleteDatabaseWithName_sublist st0 name
    exact ⟨ih.1.sublist (hsub.map _), ih.2.sublist (hsub.map _)⟩
  | clear _ _ => exact ⟨List.nodup_nil, List.nodup_nil⟩
  | @engine st0 f _ ih =>
    rw [(updateCurrentPhfwd_names f st0).1, (updateCurrentPhfwd_names f st0).2]
    exact ih

/-- C30: absent allocation failure, `setOrCreateDatabaseWithName(name)` returns 1 and
makes a database named `name` current; if a database with that name already exists the
registry is unchanged and that same database (with its forwardings) becomes current,
otherwise exactly one new empty database with that name is added at the head; the
registry never contains two databases with the same name. -/
theorem setOrCreateDatabaseWithName_switches (st : RedirectionsDBState)
    (hst : ReachableDB st) (addr : Nat) (hfresh : addr ∉ databaseAddrs st)
    (name : List Char) :
    (setOrCreateDatabaseWithName addr st name).1 = 1 ∧
    (∃ a db, (setOrCreateDatabaseWithName addr st name).2.current_database = some a ∧
      (a, db) ∈ (setOrCreateDatabaseWithName addr st name).2.redirections_database_head ∧
      db.name = name) ∧
    (∀ e ∈ st.redirections_database_head, e.2.name = name →
      (setOrCreateDatabaseWithName addr st name).2.redirections_database_head =
        st.redirections_database_head ∧
      (setOrCreateDatabaseWithName addr st name).2.current_database = some e.1) ∧
    ((∀ e ∈ st.redirections_database_head, e.2.name ≠ name) →
      (setOrCreateDatabaseWithName addr st name).2.redirections_database_head =
        (addr, { name := name, phfwd := phfwdNew }) :: st.redirections_database_head ∧
      (setOrCreateDatabaseWithName addr st name).2.current_database = some addr) ∧
    (databaseNames st).Nodup ∧
    (databaseNames (setOrCreateDatabaseWithName addr st name).2).Nodup := by
  have hnd := reachableDB_nodup hst
  have hnd2 := reachableDB_nodup (ReachableDB.setOrCreate addr name hst hfresh)
  refine ⟨?_, ?_, ?_, ?_, hnd.1, hnd2.1⟩
  · unfold setOrCreateDatabaseWithName
    split <;> rfl
  · cases hf : redirectionsDBFind st.redirections_database_head name with
    | some e =>
      rw [setOrCreateDatabaseWithName_found hf]
      exact ⟨e.1, e.2, rfl, (redirectionsDBFind_some hf).1, (redirectionsDBFind_some hf).2⟩
    | none =>
      rw [setOrCreateDatabaseWithName_fresh hf]
      exact ⟨addr, redirectionsDBNew name, rfl, List.mem_cons_self _ _, rfl⟩
  · intro e he hname
    cases hf : redirectionsDBFind st.redirections_database_head name with
    | some e1 =>
      rw [setOrCreateDatabaseWithName_found hf]
      have h1 := redirectionsDBFind_some hf
      have heq : e1 = e :=
        List.inj_on_of_nodup_map hnd.1 h1.1 he (h1.2.trans hname.symm)
      rw [heq]
      exact ⟨rfl, rfl⟩
    | none => exact absurd hname (redirectionsDBFind_none.1 hf e he)
  · intro hno
    rw [setOrCreateDatabaseWithName_fresh (redirectionsDBFind_none.2 hno)]
    exact ⟨rfl, rfl⟩

theorem setOrCreateDatabaseWithName_switches_witness :
    ReachableDB (setOrCreateDatabaseWithName 7 redirectionsDBInit "A".toList).2 ∧
    9 ∉ databaseAddrs (setOrCreateDatabaseWithName 7 redirectionsDBInit "A".toList).2 ∧
    (setOrCreateDatabaseWithName 9
      (setOrCreateDatabaseWithName 7 redirectionsDBInit "A".toList).2 "A".toList).1 = 1 ∧
    (databaseNames (setOrCreateDatabaseWithName 9
      (setOrCreateDatabaseWithName 7 redirectionsDBInit "A".toList).2 "A".toList).2).Nodup :=
  have hr : ReachableDB (setOrCreateDatabaseWithName 7 redirectionsDBInit "A".toList).2 :=
    ReachableDB.setOrCreate 7 "A".toList ReachableDB.init (by decide)
  have h := setOrCreateDatabaseWithName_switches
    (setOrCreateDatabaseWithName 7 redirectionsDBInit "A".toList).2 hr 9 (by decide)
    "A".toList
  ⟨hr, by decide, h.1, h.2.2.2.2.2⟩

/-! ### Deleting a database from the registry -/

theorem deleteDatabaseWithNameLoop_none {l : List (Nat × RedirectionsDatabase)}
    {name : List Char} :
    deleteDatabaseWithNameLoop l name = none ↔ ∀ e ∈ l, e.2.name ≠ name := by
  induction l with
  | nil => simp [deleteDatabaseWithNameLoop]
  | cons current next ih =>
    simp only [deleteDatabaseWithNameLoop]
    by_cases hc : current.2.name = name
    · rw [if_pos hc]
      constructor
      · intro h; simp at h
      · intro h; exact absurd hc (h current (List.mem_cons_self _ _))
    · rw [if_neg hc]
      constructor
      · intro h e he
        rcases List.mem_cons.1 he with rfl | he
        · exact hc
        · cases hr : deleteDatabaseWithNameLoop next name with
          | none => exact (ih.1 hr) e he
          | some res => simp [hr] at h
      · intro h
        have := ih.2 (fun e he => h e (List.mem_cons_of_mem _ he))
        simp [this]

theorem deleteDatabaseWithNameLoop_some {l rest : List (Nat × RedirectionsDatabase)}
    {name : List Char} {a : Nat} (h : deleteDatabaseWithNameLoop l name = some (a, rest)) :
    ∃ l1 e l2, l = l1 ++ e :: l2 ∧ (∀ x ∈ l1, x.2.name ≠ name) ∧ e.2.name = name ∧
      a = e.1 ∧ rest = l1 ++ l2 := by
  induction l generalizing rest a with
  | nil => simp [deleteDatabaseWithNameLoop] at h
  | cons current next ih =>
    simp only [deleteDatabaseWithNameLoop] at h
    by_cases hc : current.2.name = name
    · rw [if_pos hc] at h
      simp only [Option.some.injEq, Prod.mk.injEq] at h
      exact ⟨[], current, next, rfl, by simp, hc, h.1.symm, h.2.symm⟩
    · rw [if_neg hc] at h
      cases hr : deleteDatabaseWithNameLoop next name with
      | none => simp [hr] at h
      | some res =>
        obtain ⟨a1, rest1⟩ := res
        simp only [hr, Option.some.injEq, Prod.mk.injEq] at h
        obtain ⟨l1, e, l2, hl, hl1, he, ha, hrest⟩ := ih hr
        refine ⟨current :: l1, e, l2, by rw [hl]; rfl, ?_, he, by rw [← h.1, ha], ?_⟩
        · intro x hx
          rcases List.mem_cons.1 hx with rfl | hx
          · exact hc
          · exact hl1 x hx
        · rw [← h.2, hrest]; rfl

/-- C31: the call `deleteDatabaseWithName(name)` returns 0 and leaves the registry and the
current database unchanged when no database is named `name`; otherwise it returns 1,
removes exactly that database from the registry keeping all others and their order, and
sets the current database to none if the removed database was the current one and leaves
it as it is otherwise. -/
theorem deleteDatabaseWithName_removes (st : RedirectionsDBState) (hst : ReachableDB st)
    (name : List Char) :
    ((∀ e ∈ st.redirections_database_head, e.2.name ≠ name) →
      deleteDatabaseWithName st name = (0, st)) ∧
    (∀ e ∈ st.redirections_database_head, e.2.name = name →
      (deleteDatabaseWithName st name).1 = 1 ∧
      (∃ l1 l2, st.redirections_database_head = l1 ++ e :: l2 ∧
        (deleteDatabaseWithName st name).2.redirections_database_head = l1 ++ l2 ∧
        e ∉ l1 ++ l2) ∧
      (st.current_database = some e.1 →
        (deleteDatabaseWithName st name).2.current_database = none) ∧
      (st.current_database ≠ some e.1 →
        (deleteDatabaseWithName st name).2.current_database = st.current_database)) := by
  have hnd := reachableDB_nodup hst
  refine ⟨?_, ?_⟩
  · intro hno
    unfold deleteDatabaseWithName
    rw [deleteDatabaseWithNameLoop_none.2 hno]
  · intro e he hname
    cases hloop : deleteDatabaseWithNameLoop st.redirections_database_head name with
    | none => exact absurd hname (deleteDatabaseWithNameLoop_none.1 hloop e he)
    | some res =>
      obtain ⟨a, rest⟩ := res
      obtain ⟨l1, e1, l2, hl, _, he1, ha, hrest⟩ := deleteDatabaseWithNameLoop_some hloop
      have hmem1 : e1 ∈ st.redirections_database_head := by rw [hl]; simp
      have heq : e1 = e := List.inj_on_of_nodup_map hnd.1 hmem1 he (he1.trans hname.symm)
      subst heq
      have hnot : e1 ∉ l1 ++ l2 := by
        intro hin
        have h2 : (st.redirections_database_head.map (fun x => x.1)).Nodup := hnd.2
        rw [hl, List.map_append, List.map_cons] at h2
        have h3 := List.nodup_middle.1 h2
        rw [← List.map_append] at h3
        exact (List.nodup_cons.1 h3).1 (List.mem_map_of_mem _ hin)
      unfold deleteDatabaseWithName
      rw [hloop]
      refine ⟨rfl, ⟨l1, l2, hl, hrest, hnot⟩, ?_, ?_⟩
      · intro hcur
        simp only
        rw [if_pos (by rw [hcur, ha])]
      · intro hcur
        simp only
        rw [if_neg (by rw [ha]; exact hcur)]

theorem deleteDatabaseWithName_removes_witness :
    ReachableDB (setOrCreateDatabaseWithName 9
      (setOrCreateDatabaseWithName 7 redirectionsDBInit "A".toList).2 "B".toList).2 ∧
    (deleteDatabaseWithName (setOrCreateDatabaseWithName 9
      (setOrCreateDatabaseWithName 7 redirectionsDBInit "A".toList).2 "B".toList).2
      "C".toList).1 = 0 ∧
    (deleteDatabaseWithName (setOrCreateDatabaseWithName 9
      (setOrCreateDatabaseWithName 7 redirectionsDBInit "A".toList).2 "B".toList).2
      "A".toList).1 = 1 ∧
    (deleteDatabaseWithName (setOrCreateDatabaseWithName 9
      (setOrCreateDatabaseWithName 7 redirectionsDBInit "A".toList).2 "B".toList).2
      "A".toList).2.current_database = some 9 ∧
    (deleteDatabaseWithName (setOrCreateDatabaseWithName 9
      (setOrCreateDatabaseWithName 7 redirectionsDBInit "A".toList).2 "B".toList).2
      "B".toList).2.current_database = none :=
  have hr : ReachableDB (setOrCreateDatabaseWithName 9
      (setOrCreateDatabaseWithName 7 redirectionsDBInit "A".toList).2 "B".toList).2 :=
    ReachableDB.setOrCreate 9 "B".toList
      (ReachableDB.setOrCreate 7 "A".toList ReachableDB.init (by decide)) (by decide)
  ⟨hr,
   congrArg Prod.fst ((deleteDatabaseWithName_removes _ hr "C".toList).1 (by decide)),
   ((deleteDatabaseWithName_removes _ hr "A".toList).2
      (7, redirectionsDBNew "A".toList) (by simp [setOrCreateDatabaseWithName,
        redirectionsDBFind, redirectionsDBInit, redirectionsDBNew]) rfl).1,
   ((deleteDatabaseWithName_removes _ hr "A".toList).2
      (7, redirectionsDBNew "A".toList) (by simp [setOrCreateDatabaseWithName,
        redirectionsDBFind, redirectionsDBInit, redirectionsDBNew]) rfl).2.2.2
      (by decide),
   ((deleteDatabaseWithName_removes _ hr "B".toList).2
      (9, redirectionsDBNew "B".toList) (by simp [setOrCreateDatabaseWithName,
        redirectionsDBFind, redirectionsDBInit, redirectionsDBNew]) rfl).2.2.1 rfl⟩

/-! ### The liveness test and the invariants behind it -/

theorem dataListContaisEntryThatExistsLoop_cons_live {F : TrieNode} {t : List Char}
    {rest : List (List Char)} (h : trieValueUnderPrefixExists F t none = true) :
    dataListContaisEntryThatExistsLoop F (t :: rest) = (true, t :: rest) := by
  simp [dataListContaisEntryThatExistsLoop, h]

theorem dataListContaisEntryThatExistsLoop_cons_dead {F : TrieNode} {t : List Char}
    {rest : List (List Char)} (h : ¬ trieValueUnderPrefixExists F t none = true) :
    dataListContaisEntryThatExistsLoop F (t :: rest) =
      dataListContaisEntryThatExistsLoop F rest := by
  simp [dataListContaisEntryThatExistsLoop, h]

theorem dataListContaisEntryThatExistsLoop_split (F : TrieNode) (l : List (List Char)) :
    ∃ pre, l = pre ++ (dataListContaisEntryThatExistsLoop F l).2 ∧
      (∀ a ∈ pre, dataAt F a = []) ∧
      (((dataListContaisEntryThatExistsLoop F l).1 = true ∧
          ∃ a rest, (dataListContaisEntryThatExistsLoop F l).2 = a :: rest ∧
            dataAt F a ≠ []) ∨
        ((dataListContaisEntryThatExistsLoop F l).1 = false ∧
          (dataListContaisEntryThatExistsLoop F l).2 = [])) := by
  induction l with
  | nil => exact ⟨[], rfl, by simp, Or.inr ⟨rfl, rfl⟩⟩
  | cons t rest ih =>
    by_cases h : trieValueUnderPrefixExists F t none = true
    · rw [dataListContaisEntryThatExistsLoop_cons_live h]
      exact ⟨[], rfl, by simp,
        Or.inl ⟨rfl, t, rest, rfl, (trieValueUnderPrefixExists_none F t).1 h⟩⟩
    · rw [dataListContaisEntryThatExistsLoop_cons_dead h]
      obtain ⟨pre, hpre, hdead, hcase⟩ := ih
      refine ⟨t :: pre, by rw [List.cons_append, ← hpre], ?_, hcase⟩
      intro a ha
      rcases List.mem_cons.1 ha with rfl | ha
      · rw [trieValueUnderPrefixExists_none] at h
        simpa using h
      · exact hdead a ha

theorem dataListContaisEntryThatExists_eq_any (F node : TrieNode) :
    (dataListContaisEntryThatExists F node).1 =
      node.data.any (fun a => decide (dataAt F a ≠ [])) := by
  unfold dataListContaisEntryThatExists
  simp only
  induction node.data with
  | nil => rfl
  | cons t rest ih =>
    by_cases h : trieValueUnderPrefixExists F t none = true
    · have h2 := (trieValueUnderPrefixExists_none F t).1 h
      rw [dataListContaisEntryThatExistsLoop_cons_live h, List.any_cons]
      simp [h2]
    · have h2 : dataAt F t = [] := by
        rw [trieValueUnderPrefixExists_none] at h
        simpa using h
      rw [dataListContaisEntryThatExistsLoop_cons_dead h, List.any_cons, ih]
      simp [h2]

/-- C34: for a node whose payloads index the child array, the call
`dataListContaisEntryThatExists(F, node)` returns true if and only if some payload `a` in
the data list of `node` has a non-empty data list stored in `F` at path `a`; after the
call the data list of the node is the suffix of the original list that starts at the
first such payload (the empty list when it returns false), counter and children of the
node are as before, and `F`, which the function only reads, is unchanged. -/
theorem dataListContaisEntryThatExists_suffix (F node : TrieNode)
    (_ : ∀ a ∈ node.data, AllSlots a) :
    ((dataListContaisEntryThatExists F node).1 = true ↔
      ∃ a ∈ node.data, dataAt F a ≠ []) ∧
    (∃ pre, node.data = pre ++ (dataListContaisEntryThatExists F node).2.data ∧
      (∀ a ∈ pre, dataAt F a = []) ∧
      (((dataListContaisEntryThatExists F node).1 = true ∧
          ∃ a rest, (dataListContaisEntryThatExists F node).2.data = a :: rest ∧
            dataAt F a ≠ []) ∨
        ((dataListContaisEntryThatExists F node).1 = false ∧
          (dataListContaisEntryThatExists F node).2.data = []))) ∧
    (dataListContaisEntryThatExists F node).2.childs = node.childs ∧
    (dataListContaisEntryThatExists F node).2.nonNullChilds = node.nonNullChilds := by
  refine ⟨?_, dataListContaisEntryThatExistsLoop_split F node.data, rfl, rfl⟩
  rw [dataListContaisEntryThatExists_eq_any, List.any_eq_true]
  constructor
  · rintro ⟨a, ha, hl⟩
    exact ⟨a, ha, by simpa using hl⟩
  · rintro ⟨a, ha, hl⟩
    exact ⟨a, ha, by simpa using hl⟩

theorem dataListContaisEntryThatExists_suffix_witness :
    (∀ a ∈ demoNode.data, AllSlots a) ∧
    (dataListContaisEntryThatExists demoStale.redirections demoNode).1 = true ∧
    (dataListContaisEntryThatExists demoStale.redirections demoNode).2.data =
      ["1".toList, "8".toList] :=
  have hs : ∀ a ∈ demoNode.data, AllSlots a := by
    intro a ha
    simp only [demoNode, List.mem_cons, List.mem_singleton, List.not_mem_nil,
      or_false] at ha
    rcases ha with rfl | rfl | rfl <;> exact allSlots_of_valid (by decide)
  ⟨hs,
   (dataListContaisEntryThatExists_suffix demoStale.redirections demoNode hs).1.2
     ⟨"1".toList, by simp [demoNode], by rw [dataAt_demoStale]; simp⟩,
   rfl⟩

/-- C35: in every reachable state, whenever `phfwdAdd(pf, a, b)` replaces an existing
forwarding `a → b_old`, the call `trieRemoveOneEntry(R, b_old, a)` it makes meets its
precondition: `R` has a node at path `b_old` and the data list of that node contains an
entry equal to `a`; none of its assertions fails, so the call returns, and so does
`phfwdAdd`. -/
theorem phfwdAdd_unlink_precondition (pf : PhoneForward) (h : Reachable pf)
    (a b b_old : List Char) (ha : isValidPhnum a = true) (hb : isValidPhnum b = true)
    (hab : a ≠ b) (hold : b_old ∈ dataAt pf.redirections a) :
    (∃ node, nodeAt pf.prefixes b_old = some node ∧ a ∈ node.data) ∧
    dataAt pf.redirections a = [b_old] ∧
    (∃ R1, trieRemoveOneEntry pf.prefixes b_old a = some R1 ∧
      phfwdAddUnlink pf.prefixes (dataAt pf.redirections a) a = some R1) ∧
    ∃ pf1, phfwdAdd pf a b = some (true, pf1) := by
  have hI := reachable_inv h
  have hlink := hI.link a b_old hold
  have hnode : ∃ node, nodeAt pf.prefixes b_old = some node ∧ a ∈ node.data := by
    cases hn : nodeAt pf.prefixes b_old with
    | none => simp [dataAt, hn] at hlink
    | some node => exact ⟨node, rfl, by simpa [dataAt, hn] using hlink⟩
  have hsingle : dataAt pf.redirections a = [b_old] := by
    have hlen := hI.single a
    cases hd : dataAt pf.redirections a with
    | nil => rw [hd] at hold; simp at hold
    | cons t rest =>
      rw [hd] at hold hlen
      cases rest with
      | nil =>
        simp only [List.mem_singleton] at hold
        rw [hold]
      | cons _ _ => simp at hlen
  obtain ⟨R1, hR1, _, _⟩ :=
    trieRemoveOneEntry_spec hI.countR (ne_nil_of_valid (hI.validF a b_old hold).2) hlink
  obtain ⟨F1, R2, hadd, _⟩ := phfwdAdd_spec hI ha hb hab
  refine ⟨hnode, hsingle, ⟨R1, hR1, ?_⟩, ⟨_, hadd⟩⟩
  rw [hsingle]
  simpa [phfwdAddUnlink] using hR1

theorem phfwdAdd_unlink_precondition_witness :
    Reachable demoStale ∧
    (∃ node, nodeAt demoStale.prefixes "3".toList = some node ∧ "1".toList ∈ node.data) ∧
    ∃ pf1, phfwdAdd demoStale "1".toList "4".toList = some (true, pf1) :=
  have h := phfwdAdd_unlink_precondition demoStale reachable_demoStale
    "1".toList "4".toList "3".toList (by decide) (by decide) (by decide)
    (by rw [dataAt_demoStale]; simp)
  ⟨reachable_demoStale, h.1, h.2.2.2⟩

/-! ### Invariants across the two tries -/

/-- C36: forward-implies-reverse: in every reachable state, for every forwarding stored in
`F` (payload `b` at path `a`) the reverse trie `R` has a node at path `b` whose data list
contains an entry equal to `a`; the lazy pruning done by `phfwdReverse` and by
`phfwdNonTrivialCount` and the chain trimming done through `phfwdAdd` (in
`trieRemoveOneEntry`) leave every such entry in place. -/
theorem forward_implies_reverse (pf : PhoneForward) (h : Reachable pf) :
    (∀ a b, b ∈ dataAt pf.redirections a →
      ∃ node, nodeAt pf.prefixes b = some node ∧ a ∈ node.data) ∧
    (∀ n res pf1, phfwdReverse pf n = some (res, pf1) →
      ∀ a b, b ∈ dataAt pf.redirections a → a ∈ dataAt pf1.prefixes b) ∧
    (∀ W set len k pf1, phfwdNonTrivialCount W (some pf) set len = some (k, some pf1) →
      ∀ a b, b ∈ dataAt pf.redirections a → a ∈ dataAt pf1.prefixes b) ∧
    (∀ x y r pf1, phfwdAdd pf x y = some (r, pf1) →
      ∀ a b, b ∈ dataAt pf1.redirections a → a ∈ dataAt pf1.prefixes b) := by
  refine ⟨?_, ?_, ?_, ?_⟩
  · intro a b hb
    have hlink := (reachable_inv h).link a b hb
    cases hn : nodeAt pf.prefixes b with
    | none => simp [dataAt, hn] at hlink
    | some node => exact ⟨node, rfl, by simpa [dataAt, hn] using hlink⟩
  · intro n res pf1 hrev a b hb
    have h1 := (reachable_inv (Reachable.reverse n res h hrev)).link a b
    rw [phfwdReverse_redirections hrev] at h1
    exact h1 hb
  · intro W set len k pf1 hcount a b hb
    have h1 := (reachable_inv (Reachable.count W set len k h hcount)).link a b
    rw [(phfwdNonTrivialCount_spec hcount).1] at h1
    exact h1 hb
  · intro x y r pf1 hadd a b hb
    exact (reachable_inv (Reachable.add x y r h hadd)).link a b hb

theorem forward_implies_reverse_witness :
    Reachable demoStale ∧
    ∀ a b, b ∈ dataAt demoStale.redirections a →
      ∃ node, nodeAt demoStale.prefixes b = some node ∧ a ∈ node.data :=
  ⟨reachable_demoStale, (forward_implies_reverse demoStale reachable_demoStale).1⟩

/-- C37: in every reachable state every payload stored in `F` and in `R` is a valid number
(non-empty, over the twelve-symbol alphabet), so every child index `c - '0'` computed
while walking along a payload lies in `0 .. 11`. -/
theorem payloads_are_valid (pf : PhoneForward) (h : Reachable pf) :
    (∀ a t, t ∈ dataAt pf.redirections a →
      t ≠ [] ∧ (∀ c ∈ t, c ∈ alphabet) ∧
      ∀ c ∈ t, 48 ≤ c.toNat ∧ c.toNat - 48 < 12 ∧ (slot c).isSome = true) ∧
    (∀ t a, a ∈ dataAt pf.prefixes t →
      a ≠ [] ∧ (∀ c ∈ a, c ∈ alphabet) ∧
      ∀ c ∈ a, 48 ≤ c.toNat ∧ c.toNat - 48 < 12 ∧ (slot c).isSome = true) := by
  have key : ∀ s : List Char, isValidPhnum s = true →
      s ≠ [] ∧ (∀ c ∈ s, c ∈ alphabet) ∧
      ∀ c ∈ s, 48 ≤ c.toNat ∧ c.toNat - 48 < 12 ∧ (slot c).isSome = true := by
    intro s hs
    refine ⟨((isValidPhnum_iff_alphabet s).1 hs).1, ((isValidPhnum_iff_alphabet s).1 hs).2, ?_⟩
    intro c hc
    have hsl := allSlots_of_valid hs c hc
    obtain ⟨i, hi⟩ := Option.isSome_iff_exists.1 hsl
    have := slot_toNat hi
    have hlt := i.isLt
    exact ⟨by omega, by omega, hsl⟩
  exact ⟨fun a t ht => key t ((reachable_inv h).validF a t ht).2,
         fun t a ha => key a ((reachable_inv h).validR t a ha).2⟩

theorem payloads_are_valid_witness :
    Reachable demoStale ∧
    (∀ a t, t ∈ dataAt demoStale.redirections a →
      t ≠ [] ∧ (∀ c ∈ t, c ∈ alphabet) ∧
      ∀ c ∈ t, 48 ≤ c.toNat ∧ c.toNat - 48 < 12 ∧ (slot c).isSome = true) :=
  ⟨reachable_demoStale, (payloads_are_valid demoStale reachable_demoStale).1⟩

/-- C38: when `phfwdAdd(pf, a, b)` is given an `a` or a `b` that is not a valid number, or
`a` equal to `b`, it returns false and the container is left exactly as it was. -/
theorem phfwdAdd_rejected_unchanged (pf : PhoneForward) (a b : List Char)
    (h : isValidPhnum a = false ∨ isValidPhnum b = false ∨ a = b) :
    phfwdAdd pf a b = some (false, pf) := by
  apply phfwdAdd_invalid
  rintro ⟨h1, h2, h3⟩
  rcases h with h | h | h
  · rw [h1] at h; exact absurd h (by decide)
  · rw [h2] at h; exact absurd h (by decide)
  · exact h3 h

theorem phfwdAdd_rejected_unchanged_witness :
    phfwdAdd demoStale "12".toList "12".toList = some (false, demoStale) ∧
    phfwdAdd demoStale "1a".toList "2".toList = some (false, demoStale) :=
  ⟨phfwdAdd_rejected_unchanged demoStale "12".toList "12".toList (Or.inr (Or.inr rfl)),
   phfwdAdd_rejected_unchanged demoStale "1a".toList "2".toList (Or.inl (by decide))⟩

/-! ### Queries and later queries -/

theorem afterQueries_pruned {pf pf1 : PhoneForward} (h : AfterQueries pf pf1) :
    pf1.redirections = pf.redirections ∧
      PrunedBy (fun q a => q ∉ dataAt pf.redirections a) pf.prefixes pf1.prefixes := by
  induction h with
  | refl => exact ⟨rfl, prunedBy_refl _ _⟩
  | @reverse pf2 pf3 num res _ hrev ih =>
    cases hv : isValidPhnum num with
    | true =>
      obtain ⟨res2, R1, hrev2, hpr, _⟩ := phfwdReverse_spec pf2 hv
      rw [hrev2] at hrev
      have h3 : pf3 = { redirections := pf2.redirections, prefixes := R1 } :=
        ((Prod.mk.inj (Option.some.inj hrev)).2).symm
      rw [h3]
      rw [ih.1] at hpr
      exact ⟨ih.1, prunedBy_trans ih.2 hpr⟩
    | false =>
      unfold phfwdReverse at hrev
      simp only [hv, Bool.not_false, if_true, Option.some.injEq, Prod.mk.injEq] at hrev
      rw [← hrev.2]
      exact ih
  | @count pf2 pf3 W set len n _ hcount ih =>
    have hs := phfwdNonTrivialCount_spec hcount
    refine ⟨hs.1.trans ih.1, prunedBy_trans ih.2 (hs.2.mono ?_)⟩
    intro q a hd hmem
    rw [ih.1] at hd
    rw [hd] at hmem
    exact absurd hmem (List.not_mem_nil _)

theorem afterQueries_reachable {pf pf1 : PhoneForward} (hr : Reachable pf)
    (h : AfterQueries pf pf1) : Reachable pf1 := by
  induction h with
  | refl => exact hr
  | reverse num res _ hrev ih => exact Reachable.reverse num res ih hrev
  | count W set len n _ hcount ih => exact Reachable.count W set len n ih hcount

theorem phfwdGet_congr {pf pf1 : PhoneForward} (h : pf1.redirections = pf.redirections)
    (n : List Char) : phfwdGet pf1 n = phfwdGet pf n := by
  unfold phfwdGet
  rw [h]

theorem phfwdGet_total (pf : PhoneForward) (n : List Char) : ∃ s, phfwdGet pf n = some s := by
  cases hv : isValidPhnum n with
  | true =>
    obtain ⟨s, hs, _⟩ := phfwdGet_spec pf hv
    exact ⟨_, hs⟩
  | false =>
    unfold phfwdGet
    simp [hv]

theorem phfwdReverse_congr_of_pruned {pf pf1 : PhoneForward}
    (hF : pf1.redirections = pf.redirections)
    (hP : PrunedBy (fun q a => q ∉ dataAt pf.redirections a) pf.prefixes pf1.prefixes)
    (n : List Char) :
    ∃ res pfa pfb, phfwdReverse pf n = some (res, pfa) ∧
      phfwdReverse pf1 n = some (res, pfb) := by
  cases hv : isValidPhnum n with
  | false =>
    refine ⟨{ size := 0, numbers := [] }, pf, pf1, ?_, ?_⟩ <;>
      (unfold phfwdReverse; simp [hv])
  | true =>
    obtain ⟨res, R1, hrev, _, hmem, hsorted, hsize⟩ := phfwdReverse_spec pf hv
    obtain ⟨res1, R2, hrev1, _, hmem1, hsorted1, hsize1⟩ := phfwdReverse_spec pf1 hv
    have hnum : res1.numbers = res.numbers := by
      refine eq_of_pairwise_lex_of_mem hsorted1 hsorted ?_
      intro x
      rw [hmem x, hmem1 x, hF]
      constructor
      · rintro (hx | ⟨k, a, h1, h2, h3, h4, h5⟩)
        · exact Or.inl hx
        · exact Or.inr ⟨k, a, h1, h2, hP.mem_of_mem h3, h4, h5⟩
      · rintro (hx | ⟨k, a, h1, h2, h3, h4, h5⟩)
        · exact Or.inl hx
        · exact Or.inr ⟨k, a, h1, h2, hP.mem_of_not_dead h3 (not_not.2 h4), h4, h5⟩
    have hres : res1 = res := by
      cases res with
      | mk size numbers =>
        cases res1 with
        | mk size1 numbers1 =>
          simp only at hnum hsize hsize1
          subst hnum
          rw [hsize, hsize1]
    refine ⟨res, { redirections := pf.redirections, prefixes := R1 },
      { redirections := pf1.redirections, prefixes := R2 }, hrev, ?_⟩
    rw [hrev1, hres]

/-- C39: queries are read-only as far as lookups can tell: in every reachable state, after
any sequence of `phfwdGet`, `phfwdReverse` and `phfwdNonTrivialCount` calls (which may
prune `R`), `phfwdGet(pf, n)` and `phfwdReverse(pf, n)` return the same sequences as they
would have returned before those calls; in particular two consecutive
`phfwdReverse(pf, n)` calls return equal sequences. -/
theorem queries_keep_lookups (pf : PhoneForward) (h : Reachable pf) (pf1 : PhoneForward)
    (hq : AfterQueries pf pf1) (n : List Char) :
    Reachable pf1 ∧
    (∃ s, phfwdGet pf n = some s ∧ phfwdGet pf1 n = some s) ∧
    (∃ res pfa pfb, phfwdReverse pf n = some (res, pfa) ∧
      phfwdReverse pf1 n = some (res, pfb)) ∧
    (∀ res pf2, phfwdReverse pf n = some (res, pf2) →
      ∃ pf3, phfwdReverse pf2 n = some (res, pf3)) := by
  have hp := afterQueries_pruned hq
  refine ⟨afterQueries_reachable h hq, ?_, phfwdReverse_congr_of_pruned hp.1 hp.2 n, ?_⟩
  · obtain ⟨s, hs⟩ := phfwdGet_total pf n
    exact ⟨s, hs, by rw [phfwdGet_congr hp.1 n, hs]⟩
  · intro res pf2 hrev
    have hp2 := afterQueries_pruned (AfterQueries.reverse n res AfterQueries.refl hrev)
    obtain ⟨res1, pfa, pfb, h1, h2⟩ := phfwdReverse_congr_of_pruned hp2.1 hp2.2 n
    rw [hrev] at h1
    have : res1 = res := ((Prod.mk.inj (Option.some.inj h1)).1).symm
    rw [this] at h2
    exact ⟨pfb, h2⟩

theorem queries_keep_lookups_witness :
    Reachable demoStale ∧ AfterQueries demoStale (afterReverse demoStale "2".toList) ∧
    ∃ res pfa pfb, phfwdReverse demoStale "3".toList = some (res, pfa) ∧
      phfwdReverse (afterReverse demoStale "2".toList) "3".toList = some (res, pfb) :=
  have hq : AfterQueries demoStale (afterReverse demoStale "2".toList) :=
    AfterQueries.reverse "2".toList { size := 1, numbers := ["2".toList] }
      AfterQueries.refl rfl
  ⟨reachable_demoStale, hq,
   (queries_keep_lookups demoStale reachable_demoStale _ hq "3".toList).2.2.1⟩

/-- C40 at its failing input.  After `phfwdAdd(1, 2)`, `phfwdRemove(1)`, `phfwdAdd(1, 3)`
the call `phfwdNonTrivialCount(pf, "2", 1)` returns 1; when `phfwdReverse(pf, "2")` (which
returns `[2]`) is called first, it prunes the stale entry `1` at path `2` of `R`, and the
same count then returns 0. -/
theorem phfwdNonTrivialCount_depends_on_reverse :
    Reachable demoStale ∧
    (phfwdNonTrivialCount 64 (some demoStale) (some "2".toList) 1).map Prod.fst = some 1 ∧
    (phfwdReverse demoStale "2".toList).map Prod.fst =
      some { size := 1, numbers := ["2".toList] } ∧
    (phfwdNonTrivialCount 64 (some (afterReverse demoStale "2".toList))
      (some "2".toList) 1).map Prod.fst = some 0 :=
  ⟨reachable_demoStale, by decide, by decide, by decide⟩

/-! ### What `trieDeleteSubtree` removes -/

theorem climb_chain {T : TrieNode} :
    ∀ (rp : List Char) (c : Char) (pr : List Char),
      trieDeleteSubtreeClimb T rp = c :: pr →
      ∀ z node, (pr.reverse ++ [c]) <+: z → z <+: rp.reverse → z ≠ rp.reverse →
        nodeAt T z = some node → node.nonNullChilds = 1 ∧ node.data = [] := by
  intro rp
  induction rp with
  | nil => intro c pr h; simp [trieDeleteSubtreeClimb] at h
  | cons e parentRev ih =>
    intro c pr h z node hz1 hz2 hz3 hnode
    have hstay : trieDeleteSubtreeClimb T (e :: parentRev) = e :: parentRev →
        node.nonNullChilds = 1 ∧ node.data = [] := by
      intro hst
      rw [hst] at h
      injection h with h1 h2
      subst h1; subst h2
      rw [List.reverse_cons] at hz2 hz3
      exact absurd (List.IsPrefix.eq_of_length hz2
        (Nat.le_antisymm hz2.length_le hz1.length_le)) hz3
    cases hpr : parentRev with
    | nil =>
      apply hstay
      rw [hpr]; simp [trieDeleteSubtreeClimb]
    | cons d rest =>
      cases hparent : nodeAt T parentRev.reverse with
      | none =>
        apply hstay
        rw [hpr, trieDeleteSubtreeClimb, ← hpr, hparent]
      | some parent =>
        have hclimb : trieDeleteSubtreeClimb T (e :: parentRev) =
            if parent.nonNullChilds = 1 ∧ parent.data.isEmpty = true then
              trieDeleteSubtreeClimb T parentRev else e :: parentRev := by
          rw [hpr, trieDeleteSubtreeClimb]
          rw [← hpr, hparent]
        by_cases hcond : parent.nonNullChilds = 1 ∧ parent.data.isEmpty = true
        · rw [hclimb, if_pos hcond] at h
          rw [List.reverse_cons] at hz2 hz3
          rcases List.prefix_concat_iff.1 hz2 with hz4 | hz4
          · exact absurd hz4 hz3
          · by_cases hzp : z = parentRev.reverse
            · rw [hzp, hparent] at hnode
              obtain rfl := Option.some.inj hnode
              exact ⟨hcond.1, List.isEmpty_iff.1 hcond.2⟩
            · exact ih c pr h z node hz1 hz4 hzp hnode
        · apply hstay
          rw [hclimb, if_neg hcond]

theorem updateAt_keeps (g : TrieNode → TrieNode) :
    ∀ (pp : List Char) (T : TrieNode) (q : List Char) (n : TrieNode),
      nodeAt T q = some n → ¬ pp <+: q →
      ∃ n1, nodeAt (updateAt g T pp) q = some n1 ∧ n1.data = n.data ∧
        n1.nonNullChilds = n.nonNullChilds ∧
        ∀ j, (n1.childs j).isSome = (n.childs j).isSome := by
  intro pp
  induction pp with
  | nil => intro T q n _ hq; exact absurd List.nil_prefix hq
  | cons c cs ih =>
    intro T q n hn hq
    cases hi : slot c with
    | none =>
      simp only [updateAt, hi]
      exact ⟨n, hn, rfl, rfl, fun _ => rfl⟩
    | some i =>
      cases hch : T.childs i with
      | none =>
        simp only [updateAt, hi, hch]
        exact ⟨n, hn, rfl, rfl, fun _ => rfl⟩
      | some next =>
        simp only [updateAt, hi, hch]
        cases q with
        | nil =>
          rw [nodeAt_nil] at hn
          obtain rfl := Option.some.inj hn
          refine ⟨_, rfl, rfl, rfl, ?_⟩
          intro j
          by_cases hji : j = i
          · subst hji; simp [hch]
          · simp [Function.update_noteq hji]
        | cons d ds =>
          by_cases hd : slot d = some i
          · obtain rfl := slot_inj hi hd
            rw [nodeAt_childs_update_same rfl ds hd]
            rw [nodeAt_cons_some ds hd hch] at hn
            have hq2 : ¬ cs <+: ds := fun h => hq (List.cons_prefix_cons.2 ⟨rfl, h⟩)
            simpa using ih next ds n hn hq2
          · rw [nodeAt_childs_update_other rfl ds hd]
            exact ⟨n, hn, rfl, rfl, fun _ => rfl⟩

theorem trieDeleteSubtree_climbed {T : TrieNode} (hT : CountOK T) {p : List Char}
    (hp : p ≠ []) (hnode : (nodeAt T p).isSome = true) :
    ∃ c pr tl parent i, trieDeleteSubtreeClimb T p.reverse = c :: pr ∧
      p = pr.reverse ++ c :: tl ∧ nodeAt T pr.reverse = some parent ∧
      slot c = some i ∧ (parent.childs i).isSome = true ∧
      (pr.reverse = [] ∨ ¬ (parent.nonNullChilds = 1 ∧ parent.data.isEmpty = true)) ∧
      trieDeleteSubtree T p = some (updateAt
        (fun n => { n with
                      nonNullChilds := n.nonNullChilds - 1
                      childs := Function.update n.childs i none })
        T pr.reverse) := by
  have hrp : p.reverse ≠ [] := by simpa using hp
  have hnode' : (nodeAt T p.reverse.reverse).isSome = true := by simpa using hnode
  obtain ⟨c, pr, tl, h1, h2, _, h4⟩ := climb_spec hT p.reverse hrp hnode'
  rw [List.reverse_reverse] at h2
  have hy : (nodeAt T (pr.reverse ++ [c])).isSome = true := by
    apply nodeAt_prefix_isSome (r := tl)
    rw [List.append_assoc]; simpa [← h2] using hnode
  have hpar := nodeAt_prefix_isSome hy
  obtain ⟨parent, hparent⟩ := Option.isSome_iff_exists.1 hpar
  obtain ⟨i, hi, hch⟩ := child_of_nodeAt_snoc hparent hy
  have hloc : LocalCount parent := hT _ _ hparent
  have hpos : 0 < (Finset.univ.filter (fun j => (parent.childs j).isSome = true)).card :=
    Finset.card_pos.2 ⟨i, by simp [hch]⟩
  have hstop : pr.reverse = [] ∨ ¬ (parent.nonNullChilds = 1 ∧ parent.data.isEmpty = true) := by
    rcases h4 with h4 | h4
    · left; simp [h4]
    · right; exact h4 parent hparent
  have hassert : parent.nonNullChilds - 1 > 0 ∨ ¬ parent.data.isEmpty = true ∨
      pr.isEmpty = true := by
    rcases hstop with h5 | h5
    · right; right; simpa using h5
    · by_cases hd : parent.data.isEmpty = true
      · left
        have hne1 : parent.nonNullChilds ≠ 1 := fun h => h5 ⟨h, hd⟩
        simp only [LocalCount] at hloc
        omega
      · right; left; exact hd
  refine ⟨c, pr, tl, parent, i, h1, h2, hparent, hi, hch, hstop, ?_⟩
  simp only [trieDeleteSubtree, h1, hparent, hi]
  have hnn : ¬ (parent.childs i).isNone = true := by
    cases hx : parent.childs i <;> simp [hx] at hch ⊢
  rw [if_neg hnn, if_neg (not_not.2 hassert)]

/-- C33: on a tree with exact counters, `trieDeleteSubtree(treeRoot, x)` with
`x ≠ treeRoot` removes exactly the subtree rooted at `y` (the node at path `pp ++ [c]`),
where `y` is the highest ancestor-or-self of `x` reached by climbing while the parent is
not `treeRoot`, has exactly one child and has no payload; it clears the slot of `y` in its
parent and decrements the child count of that parent, and every node outside the subtree
of `y` (siblings included) keeps its payloads and children. -/
theorem trieDeleteSubtree_trims (T : TrieNode) (hT : CountOK T) (x : List Char) (hx : x ≠ [])
    (hnode : (nodeAt T x).isSome = true) :
    ∃ (pp : List Char) (c : Char) (tl : List Char) (parent : TrieNode) (i : Fin 12)
      (T1 : TrieNode),
      x = pp ++ c :: tl ∧ nodeAt T pp = some parent ∧ slot c = some i ∧
      (parent.childs i).isSome = true ∧
      (∀ z node, (pp ++ [c]) <+: z → z <+: x → z ≠ x → nodeAt T z = some node →
        node.nonNullChilds = 1 ∧ node.data = []) ∧
      (pp = [] ∨ parent.nonNullChilds ≠ 1 ∨ parent.data ≠ []) ∧
      trieDeleteSubtree T x = some T1 ∧
      (∀ q, (pp ++ [c]) <+: q → nodeAt T1 q = none) ∧
      (∃ parent1, nodeAt T1 pp = some parent1 ∧ parent1.childs i = none ∧
        parent1.nonNullChilds = parent.nonNullChilds - 1 ∧ parent1.data = parent.data ∧
        ∀ j, j ≠ i → parent1.childs j = parent.childs j) ∧
      (∀ q node, ¬ (pp ++ [c]) <+: q → q ≠ pp → nodeAt T q = some node →
        ∃ node1, nodeAt T1 q = some node1 ∧ node1.data = node.data ∧
          node1.nonNullChilds = node.nonNullChilds ∧
          ∀ j, (node1.childs j).isSome = (node.childs j).isSome) := by
  obtain ⟨c, pr, tl, parent, i, hclimb, hxeq, hparent, hi, hch, hstop, hdel⟩ :=
    trieDeleteSubtree_climbed hT hx hnode
  have hchain := climb_chain x.reverse c pr hclimb
  rw [List.reverse_reverse] at hchain
  refine ⟨pr.reverse, c, tl, parent, i, _, hxeq, hparent, hi, hch, hchain, ?_, hdel,
    ?_, ?_, ?_⟩
  · rcases hstop with h | h
    · exact Or.inl h
    · by_cases h1 : parent.nonNullChilds = 1
      · right; right
        intro hd
        exact h ⟨h1, by rw [hd]; rfl⟩
      · exact Or.inr (Or.inl h1)
  · rintro q ⟨r, rfl⟩
    rw [List.append_assoc, nodeAt_updateAt_append, hparent]
    simp only [Option.some_bind, List.singleton_append]
    rw [nodeAt_childs_update_same (T := parent) rfl r hi]
    rfl
  · refine ⟨{ parent with
                nonNullChilds := parent.nonNullChilds - 1
                childs := Function.update parent.childs i none }, ?_, ?_, rfl, rfl, ?_⟩
    · have := nodeAt_updateAt_append
        (fun n => { n with
                      nonNullChilds := n.nonNullChilds - 1
                      childs := Function.update n.childs i none }) T pr.reverse []
      rw [List.append_nil, hparent] at this
      rw [this]; rfl
    · simp
    · intro j hj
      simp [Function.update_noteq hj]
  · intro q node hq1 hq2 hq
    by_cases hpq : pr.reverse <+: q
    · obtain ⟨r, rfl⟩ := hpq
      cases r with
      | nil => exact absurd (List.append_nil _) hq2
      | cons d ds =>
        have hd : slot d ≠ some i := by
          intro hd
          obtain rfl := slot_inj hi hd
          exact hq1 ⟨ds, by simp⟩
        refine ⟨node, ?_, rfl, rfl, fun _ => rfl⟩
        rw [nodeAt_updateAt_append, hparent]
        simp only [Option.some_bind]
        rw [nodeAt_childs_update_other (T := parent) rfl ds hd]
        rw [nodeAt_append, hparent] at hq
        simpa using hq
    · exact updateAt_keeps _ pr.reverse T q node hq hpq

theorem trieDeleteSubtree_trims_witness :
    CountOK demoLongest.redirections ∧ "1234".toList ≠ [] ∧
    (nodeAt demoLongest.redirections "1234".toList).isSome = true ∧
    (∃ (pp : List Char) (c : Char) (tl : List Char) (parent : TrieNode) (i : Fin 12)
      (T1 : TrieNode),
      "1234".toList = pp ++ c :: tl ∧ nodeAt demoLongest.redirections pp = some parent ∧
      slot c = some i ∧ (parent.childs i).isSome = true ∧
      (∀ z node, (pp ++ [c]) <+: z → z <+: "1234".toList → z ≠ "1234".toList →
        nodeAt demoLongest.redirections z = some node →
        node.nonNullChilds = 1 ∧ node.data = []) ∧
      (pp = [] ∨ parent.nonNullChilds ≠ 1 ∨ parent.data ≠ []) ∧
      trieDeleteSubtree demoLongest.redirections "1234".toList = some T1 ∧
      (∀ q, (pp ++ [c]) <+: q → nodeAt T1 q = none) ∧
      (∃ parent1, nodeAt T1 pp = some parent1 ∧ parent1.childs i = none ∧
        parent1.nonNullChilds = parent.nonNullChilds - 1 ∧ parent1.data = parent.data ∧
        ∀ j, j ≠ i → parent1.childs j = parent.childs j) ∧
      (∀ q node, ¬ (pp ++ [c]) <+: q → q ≠ pp →
        nodeAt demoLongest.redirections q = some node →
        ∃ node1, nodeAt T1 q = some node1 ∧ node1.data = node.data ∧
          node1.nonNullChilds = node.nonNullChilds ∧
          ∀ j, (node1.childs j).isSome = (node.childs j).isSome)) ∧
    (trieDeleteSubtree demoLongest.redirections "1234".toList).map
      (fun t => ((nodeAt t "123".toList).isSome, dataAt t "12".toList,
        (nodeAt t "1".toList).isSome)) = some (false, ["500".toList], true) :=
  ⟨(reachable_inv reachable_demoLongest).countF, by decide, by decide,
   trieDeleteSubtree_trims demoLongest.redirections
     (reachable_inv reachable_demoLongest).countF "1234".toList (by decide) (by decide),
   by decide⟩

/-! ### The count as a sum over paths -/

theorem countSum_live {F : TrieNode} {c : Nat} {mask : Fin 12 → Bool} {N : TrieNode}
    (h : liveNode F N = true) (m : Nat) : countSum F c mask m N = c ^ m := by
  cases m with
  | zero => simp [countSum, h]
  | succ m => simp [countSum, h]

theorem foldlM_countChildStep_sum {W : Nat} {mask : Fin 12 → Bool}
    {recurse : TrieNode → Option (Nat × TrieNode)} {g : TrieNode → Nat}
    (hrec : ∀ child, ∃ c1, recurse child = some (g child % 2 ^ W, c1)) (N0 : TrieNode) :
    ∀ (l : List (Fin 12)), l.Nodup → ∀ acc : Nat × TrieNode, acc.1 < 2 ^ W →
      (∀ j ∈ l, acc.2.childs j = N0.childs j) →
      ∃ res, l.foldlM (countChildStep W mask recurse) acc = some res ∧
        res.1 = (acc.1 + (l.map (childTerm mask g N0)).sum) % 2 ^ W := by
  intro l
  induction l with
  | nil =>
    intro _ acc hacc _
    exact ⟨acc, rfl, by simp [Nat.mod_eq_of_lt hacc]⟩
  | cons i l ih =>
    intro hnd acc hacc hch
    have hnd2 := (List.nodup_cons.1 hnd).2
    have hi : i ∉ l := (List.nodup_cons.1 hnd).1
    have hchi := hch i (List.mem_cons_self _ _)
    have hstay : countChildStep W mask recurse acc i = some acc →
        childTerm mask g N0 i = 0 →
        ∃ res, (i :: l).foldlM (countChildStep W mask recurse) acc = some res ∧
          res.1 = (acc.1 + ((i :: l).map (childTerm mask g N0)).sum) % 2 ^ W := by
      intro hstep hterm
      obtain ⟨res, hres, hval⟩ := ih hnd2 acc hacc
        (fun j hj => hch j (List.mem_cons_of_mem _ hj))
      refine ⟨res, ?_, ?_⟩
      · simp only [List.foldlM_cons, hstep, bind, Option.bind]
        exact hres
      · rw [hval, List.map_cons, List.sum_cons, hterm, Nat.zero_add]
    cases hc : N0.childs i with
    | none =>
      apply hstay
      · unfold countChildStep; rw [hchi, hc]
      · unfold childTerm; rw [hc]
    | some ch =>
      cases hm : mask i with
      | false =>
        apply hstay
        · unfold countChildStep; rw [hchi, hc]; simp [hm]
        · unfold childTerm; rw [hc]; simp [hm]
      | true =>
        obtain ⟨c1, hc1⟩ := hrec ch
        have hstep : countChildStep W mask recurse acc i =
            some ((acc.1 + g ch % 2 ^ W) % 2 ^ W,
              { acc.2 with childs := Function.update acc.2.childs i (some c1) }) := by
          unfold countChildStep
          rw [hchi, hc]
          simp only [hm, if_true, hc1]
        have hterm : childTerm mask g N0 i = g ch := by
          unfold childTerm; rw [hc]; simp [hm]
        have hpos : 0 < 2 ^ W := Nat.two_pow_pos W
        obtain ⟨res, hres, hval⟩ := ih hnd2
          ((acc.1 + g ch % 2 ^ W) % 2 ^ W,
            { acc.2 with childs := Function.update acc.2.childs i (some c1) })
          (Nat.mod_lt _ hpos)
          (by
            intro j hj
            have hji : j ≠ i := fun h => hi (h ▸ hj)
            simp only [Function.update_noteq hji]
            exact hch j (List.mem_cons_of_mem _ hj))
        refine ⟨res, ?_, ?_⟩
        · simp only [List.foldlM_cons, hstep, bind, Option.bind]
          exact hres
        · rw [hval, List.map_cons, List.sum_cons, hterm]
          simp only [Nat.add_mod_mod, Nat.mod_add_mod, Nat.add_assoc]

theorem phfwdNonTrivialCountAux_eq_countSum (W : Nat) (F : TrieNode) (mask : Fin 12 → Bool)
    (len : Nat) :
    ∀ (fuel : Nat) (N : TrieNode) (deep : Nat), deep ≤ len → len - deep < fuel →
      ∃ N1, phfwdNonTrivialCountAux W F mask len fuel N deep =
        some (countSum F ((List.finRange 12).countP mask) mask (len - deep) N % 2 ^ W,
          N1) := by
  intro fuel
  induction fuel with
  | zero => intro N deep _ h; omega
  | succ fuel ih =>
    intro N deep hdeep hfuel
    have hlt : ¬ len < deep := by omega
    have hlive : (dataListContaisEntryThatExists F N).1 = liveNode F N :=
      dataListContaisEntryThatExists_eq_any F N
    unfold phfwdNonTrivialCountAux
    simp only [if_neg hlt, hlive]
    cases hl : liveNode F N with
    | true =>
      simp only [if_true]
      exact ⟨(dataListContaisEntryThatExists F N).2, by rw [power_eq, countSum_live hl]⟩
    | false =>
      simp only [Bool.false_eq_true, if_false]
      by_cases hend : len = deep
      · rw [if_pos hend]
        refine ⟨(dataListContaisEntryThatExists F N).2, ?_⟩
        have h0 : len - deep = 0 := by omega
        rw [h0]
        simp [countSum, hl]
      · rw [if_neg hend]
        obtain ⟨m, hm⟩ : ∃ m, len - deep = m + 1 := ⟨len - deep - 1, by omega⟩
        have hrec : ∀ child, ∃ c1,
            phfwdNonTrivialCountAux W F mask len fuel child (deep + 1) =
              some (countSum F ((List.finRange 12).countP mask) mask m child % 2 ^ W,
                c1) := by
          intro child
          obtain ⟨c1, hc1⟩ := ih child (deep + 1) (by omega) (by omega)
          have : len - (deep + 1) = m := by omega
          rw [this] at hc1
          exact ⟨c1, hc1⟩
        obtain ⟨res, hres, hval⟩ := foldlM_countChildStep_sum hrec
          (dataListContaisEntryThatExists F N).2 (List.finRange 12) (List.nodup_finRange 12)
          (0, (dataListContaisEntryThatExists F N).2) (Nat.two_pow_pos W)
          (fun _ _ => rfl)
        refine ⟨res.2, ?_⟩
        rw [hres, hm]
        have hcs : countSum F ((List.finRange 12).countP mask) mask (m + 1) N =
            ((List.finRange 12).map (childTerm mask
              (countSum F ((List.finRange 12).countP mask) mask m) N)).sum := by
          simp [countSum, hl]
        have hfun : childTerm mask (countSum F ((List.finRange 12).countP mask) mask m)
              (dataListContaisEntryThatExists F N).2 =
            childTerm mask (countSum F ((List.finRange 12).countP mask) mask m) N :=
          funext (fun _ => rfl)
        rw [hcs]
        rw [hfun, Nat.zero_add] at hval
        exact congrArg some (Prod.ext hval rfl)

theorem liveIn_nil (F N : TrieNode) : liveIn F N [] = liveNode F N := rfl

theorem liveIn_cons_some (F : TrieNode) {N ch : TrieNode} {s : Char} {i : Fin 12}
    (w : List Char) (hs : slot s = some i) (hc : N.childs i = some ch) :
    liveIn F N (s :: w) = liveIn F ch w := by
  unfold liveIn
  rw [dataAt_cons_some w hs hc]

theorem countedBelow_of_live {F : TrieNode} {set : List Char} {N : TrieNode}
    (hl : liveNode F N = true) (m : Nat) (w : List Char) :
    CountedBelow F set N m w ↔ w = [] := by
  constructor
  · rintro ⟨_, _, _, _, hpre⟩
    by_contra hw
    have := hpre [] List.nil_prefix (fun h => hw h.symm)
    rw [liveIn_nil, hl] at this
    exact absurd this (by decide)
  · rintro rfl
    refine ⟨Nat.zero_le _, by simp, rfl, by rw [liveIn_nil, hl], ?_⟩
    intro q hq hne
    exact absurd (List.prefix_nil.1 hq) hne

theorem countedBelow_succ_iff {F : TrieNode} {set : List Char} {N : TrieNode}
    (hl : liveNode F N = false) (m : Nat) (w : List Char) :
    CountedBelow F set N (m + 1) w ↔
      ∃ i ch w1, N.childs i = some ch ∧ numberMask set i = true ∧
        w = symbolOf i :: w1 ∧ CountedBelow F set ch m w1 := by
  constructor
  · rintro ⟨hlen, hsym, hnode, hlive, hpre⟩
    cases w with
    | nil =>
      rw [liveIn_nil, hl] at hlive
      exact absurd hlive (by decide)
    | cons s w1 =>
      cases hs : slot s with
      | none => rw [nodeAt_cons_noslot w1 hs] at hnode; exact absurd hnode (by decide)
      | some i =>
        cases hc : N.childs i with
        | none => rw [nodeAt_cons_none w1 hs hc] at hnode; exact absurd hnode (by decide)
        | some ch =>
          have hsi : s = symbolOf i := slot_inj hs (slot_symbolOf i)
          refine ⟨i, ch, w1, hc, ?_, by rw [hsi], ?_⟩
          · rw [numberMask_eq, ← hsi]
            simpa using hsym s (List.mem_cons_self _ _)
          · refine ⟨by simpa using hlen, fun x hx => hsym x (List.mem_cons_of_mem _ hx),
              by rw [← nodeAt_cons_some w1 hs hc]; exact hnode,
              by rw [← liveIn_cons_some F w1 hs hc]; exact hlive, ?_⟩
            intro q hq hne
            rw [← liveIn_cons_some F q hs hc]
            apply hpre
            · exact List.cons_prefix_cons.2 ⟨rfl, hq⟩
            · intro h; exact hne (List.cons.inj h).2
  · rintro ⟨i, ch, w1, hc, hmask, rfl, hlen, hsym, hnode, hlive, hpre⟩
    have hs := slot_symbolOf i
    refine ⟨by simpa using hlen, ?_, by rw [nodeAt_cons_some w1 hs hc]; exact hnode,
      by rw [liveIn_cons_some F w1 hs hc]; exact hlive, ?_⟩
    · intro x hx
      rcases List.mem_cons.1 hx with rfl | hx
      · rw [numberMask_eq] at hmask
        simpa using hmask
      · exact hsym x hx
    · intro q hq hne
      cases q with
      | nil => rw [liveIn_nil]; exact hl
      | cons d q1 =>
        obtain ⟨rfl, hq1⟩ := List.cons_prefix_cons.1 hq
        rw [liveIn_cons_some F q1 hs hc]
        exact hpre q1 hq1 (fun h => hne (by rw [h]))

theorem symbolOf_injective : Function.Injective symbolOf := by
  intro i j h
  have := slot_symbolOf i
  rw [h, slot_symbolOf] at this
  exact (Option.some.inj this).symm

theorem countSum_eq_sum (F : TrieNode) (c : Nat) (set : List Char) :
    ∀ (m : Nat) (N : TrieNode), ∃ S : Finset (List Char),
      (∀ w, w ∈ S ↔ CountedBelow F set N m w) ∧
      countSum F c (numberMask set) m N = S.sum (fun w => c ^ (m - w.length)) := by
  have hliveCase : ∀ (m : Nat) (N : TrieNode), liveNode F N = true →
      ∃ S : Finset (List Char), (∀ w, w ∈ S ↔ CountedBelow F set N m w) ∧
        countSum F c (numberMask set) m N = S.sum (fun w => c ^ (m - w.length)) := by
    intro m N hl
    refine ⟨{[]}, ?_, ?_⟩
    · intro w
      rw [Finset.mem_singleton, countedBelow_of_live hl]
    · rw [countSum_live hl, Finset.sum_singleton]
      rfl
  intro m
  induction m with
  | zero =>
    intro N
    cases hl : liveNode F N with
    | true => exact hliveCase 0 N hl
    | false =>
      refine ⟨∅, ?_, by simp [countSum, hl]⟩
      intro w
      simp only [Finset.not_mem_empty, false_iff]
      rintro ⟨hlen, _, _, hlive, _⟩
      have hw : w = [] := List.length_eq_zero.1 (Nat.le_zero.1 hlen)
      rw [hw, liveIn_nil, hl] at hlive
      exact absurd hlive (by decide)
  | succ m ih =>
    intro N
    cases hl : liveNode F N with
    | true => exact hliveCase (m + 1) N hl
    | false =>
      choose S hS using ih
      refine ⟨Finset.univ.biUnion (fun i : Fin 12 =>
        (N.childs i).elim ∅ (fun ch =>
          if numberMask set i = true then (S ch).image (List.cons (symbolOf i)) else ∅)),
        ?_, ?_⟩
      · intro w
        rw [countedBelow_succ_iff hl, Finset.mem_biUnion]
        constructor
        · rintro ⟨i, _, hw⟩
          cases hc : N.childs i with
          | none => rw [hc] at hw; simp at hw
          | some ch =>
            rw [hc] at hw
            simp only [Option.elim] at hw
            by_cases hm : numberMask set i = true
            · rw [if_pos hm, Finset.mem_image] at hw
              obtain ⟨w1, hw1, rfl⟩ := hw
              exact ⟨i, ch, w1, hc, hm, rfl, ((hS ch).1 w1).1 hw1⟩
            · rw [if_neg hm] at hw
              simp at hw
        · rintro ⟨i, ch, w1, hc, hm, rfl, hw1⟩
          refine ⟨i, Finset.mem_univ _, ?_⟩
          rw [hc]
          simp only [Option.elim]
          rw [if_pos hm, Finset.mem_image]
          exact ⟨w1, ((hS ch).1 w1).2 hw1, rfl⟩
      · have hcs : countSum F c (numberMask set) (m + 1) N =
            ((List.finRange 12).map (childTerm (numberMask set)
              (countSum F c (numberMask set) m) N)).sum := by
          simp [countSum, hl]
        rw [hcs, ← Fin.sum_univ_def, Finset.sum_biUnion]
        · apply Finset.sum_congr rfl
          intro i _
          unfold childTerm
          cases hc : N.childs i with
          | none => simp
          | some ch =>
            simp only [Option.elim]
            by_cases hm : numberMask set i = true
            · rw [if_pos hm, if_pos hm, Finset.sum_image]
              · rw [(hS ch).2]
                apply Finset.sum_congr rfl
                intro w _
                simp
              · intro a _ b _ hab
                exact (List.cons.inj hab).2
            · rw [if_neg hm, if_neg hm]
              simp
        · intro i _ j _ hij
          rw [Function.onFun, Finset.disjoint_left]
          intro w hwi hwj
          have key : ∀ k : Fin 12, w ∈ (N.childs k).elim ∅ (fun ch =>
              if numberMask set k = true then (S ch).image (List.cons (symbolOf k)) else ∅) →
              w.head? = some (symbolOf k) := by
            intro k hk
            cases hc : N.childs k with
            | none => rw [hc] at hk; simp at hk
            | some ch =>
              rw [hc] at hk
              simp only [Option.elim] at hk
              by_cases hm : numberMask set k = true
              · rw [if_pos hm, Finset.mem_image] at hk
                obtain ⟨w1, _, rfl⟩ := hk
                rfl
              · rw [if_neg hm] at hk
                simp at hk
          have h1 := key i hwi
          rw [key j hwj] at h1
          exact hij (symbolOf_injective (Option.some.inj h1)).symm

/-! ### The count of a reachable container -/

theorem liveAt_nil_of_inv {pf : PhoneForward} (hI : Inv pf) : liveAt pf [] = false := by
  have hroot : dataAt pf.prefixes [] = [] := by
    cases hd : dataAt pf.prefixes [] with
    | nil => rfl
    | cons a rest =>
      have hmem : a ∈ dataAt pf.prefixes [] := by rw [hd]; simp
      have := (hI.validR [] a hmem).1
      exact absurd this (by decide)
  unfold liveAt liveIn
  rw [hroot]
  rfl

theorem countedBelow_root_iff {pf : PhoneForward} (hI : Inv pf) (set : List Char) (len : Nat)
    (p : List Char) :
    CountedBelow pf.redirections set pf.prefixes len p ↔ CountedPath pf set len p := by
  have hroot := liveAt_nil_of_inv hI
  constructor
  · rintro ⟨hlen, hsym, hnode, hlive, hpre⟩
    refine ⟨?_, hlen, hsym, hnode, hlive, fun q hq _ hne => hpre q hq hne⟩
    cases p with
    | nil =>
      have : liveAt pf [] = true := hlive
      rw [hroot] at this
      exact absurd this (by decide)
    | cons _ _ => simp
  · rintro ⟨_, hlen, hsym, hnode, hlive, hpre⟩
    refine ⟨hlen, hsym, hnode, hlive, ?_⟩
    intro q hq hne
    cases q with
    | nil => exact hroot
    | cons d q1 => exact hpre (d :: q1) hq (by simp) hne

/-- C32: for every reachable state, every `set` with `c ≥ 1` distinct alphabet symbols and
every `len ≥ 1`, the call `phfwdNonTrivialCount(pf, set, len)` returns the sum, modulo
`2 ^ W`, of `c ^ (len - |p|)` over all paths `p` of `R` with `1 ≤ |p| ≤ len` whose symbols
all occur in `set`, whose node passes the contains-live-entry test (some payload `a` of the
node has a payload stored in `F` at path `a`) and none of whose proper non-empty prefixes
passes that test. -/
theorem phfwdNonTrivialCount_sum_over_paths (W : Nat) (pf : PhoneForward) (h : Reachable pf)
    (set : List Char) (len : Nat) (hc : 1 ≤ symbolCount set) (hlen : 1 ≤ len) :
    ∃ (S : Finset (List Char)) (pf1 : PhoneForward),
      (∀ p, p ∈ S ↔ CountedPath pf set len p) ∧
      phfwdNonTrivialCount W (some pf) (some set) len =
        some (S.sum (fun p => symbolCount set ^ (len - p.length)) % 2 ^ W, some pf1) := by
  have hI := reachable_inv h
  obtain ⟨N1, hN1⟩ := phfwdNonTrivialCountAux_eq_countSum W pf.redirections (numberMask set)
    len (len + 1) pf.prefixes 0 (Nat.zero_le _) (by omega)
  obtain ⟨S, hS, hsum⟩ := countSum_eq_sum pf.redirections
    ((List.finRange 12).countP (numberMask set)) set len pf.prefixes
  obtain ⟨ch, hch1, hch2⟩ := exists_symbol_of_symbolCount_pos hc
  have hne : set.isEmpty = false := by
    cases set with
    | nil => simp at hch2
    | cons _ _ => rfl
  have hany : set.any (fun c => inRange c.toNat 48 59) = true := by
    rw [List.any_eq_true]
    exact ⟨ch, hch2, (inRange_symbol_iff ch).2 hch1⟩
  have hlen0 : decide (len = 0) = false := by
    simp only [decide_eq_false_iff_not]; omega
  refine ⟨S, { pf with prefixes := N1 }, ?_, ?_⟩
  · intro p
    rw [hS p, countedBelow_root_iff hI]
  · unfold phfwdNonTrivialCount
    rw [Nat.sub_zero, hsum, countP_numberMask] at hN1
    simp only [hne, hlen0, Bool.or_self, Bool.false_eq_true, if_false, hany, Bool.not_true,
      hN1]

theorem phfwdNonTrivialCount_sum_over_paths_witness :
    Reachable demoSorted ∧ 1 ≤ symbolCount "12".toList ∧ 1 ≤ 3 ∧
    (∃ (S : Finset (List Char)) (pf1 : PhoneForward),
      (∀ p, p ∈ S ↔ CountedPath demoSorted "12".toList 3 p) ∧
      phfwdNonTrivialCount 64 (some demoSorted) (some "12".toList) 3 =
        some (S.sum (fun p => symbolCount "12".toList ^ (3 - p.length)) % 2 ^ 64,
          some pf1)) ∧
    (phfwdNonTrivialCount 64 (some demoSorted) (some "12".toList) 3).map Prod.fst = some 4 :=
  ⟨reachable_demoSorted, by decide, by decide,
   phfwdNonTrivialCount_sum_over_paths 64 demoSorted reachable_demoSorted "12".toList 3
     (by decide) (by decide), by decide⟩

end Phfwd
